import Mathlib

/-!
Verification development for the NavIO backend (floor-plan analysis, A* route
computation and graph caching).

The Python sources under `backend/app` are shallowly embedded: pure fragments
become Lean functions over `Nat`/`Int`/`Rat`, Python dicts become insertion
ordered association lists, raster images become functions from pixel
coordinates to intensities, and fallible code returns `Except`/`Option`.
Floating point arithmetic in the source is modelled over `ℚ`; every concrete
input used in a theorem below is chosen so that the modelled values coincide
with the IEEE-754 doubles the source would compute (small integers, halves and
perfect squares are exact in binary floating point).
-/

unseal Rat.mul Rat.add Rat.sub Rat.inv

namespace NavIO

/-! ## Python dictionaries

Insertion ordered association lists with the update semantics of a Python
dict: assigning to an existing key overwrites the value in place, assigning to
a fresh key appends it at the end. Iteration order is list order. -/

/-- Lookup in a Python dict model; `none` models a KeyError / `get` miss. -/
def pyGet? {α β : Type} [DecidableEq α] : List (α × β) → α → Option β
  | [], _ => none
  | (k, v) :: rest, key => if k = key then some v else pyGet? rest key

/-- Assignment `d[key] = val` on a Python dict model. -/
def pySet {α β : Type} [DecidableEq α] : List (α × β) → α → β → List (α × β)
  | [], key, val => [(key, val)]
  | (k, v) :: rest, key, val =>
      if k = key then (k, val) :: rest else (k, v) :: pySet rest key val

/-- Membership test `key in d` on a Python dict model. -/
def pyContains {α β : Type} [DecidableEq α] (d : List (α × β)) (key : α) : Bool :=
  (pyGet? d key).isSome

theorem pyGet?_pySet_self {α β : Type} [DecidableEq α]
    (d : List (α × β)) (k : α) (v : β) : pyGet? (pySet d k v) k = some v := by
  induction d with
  | nil => simp [pySet, pyGet?]
  | cons hd tl ih =>
      obtain ⟨k', v'⟩ := hd
      by_cases h : k' = k
      · simp [pySet, pyGet?, h]
      · simp [pySet, pyGet?, h, ih]

theorem pyGet?_pySet_ne {α β : Type} [DecidableEq α]
    (d : List (α × β)) (k k' : α) (v : β) (h : k ≠ k') :
    pyGet? (pySet d k v) k' = pyGet? d k' := by
  induction d with
  | nil => simp [pySet, pyGet?, h]
  | cons hd tl ih =>
      obtain ⟨k0, v0⟩ := hd
      by_cases h0 : k0 = k
      · subst h0
        simp [pySet, pyGet?, h]
      · by_cases h1 : k0 = k'
        · simp [pySet, pyGet?, h0, h1, Ne.symm h]
        · simp [pySet, pyGet?, h0, h1, ih]

/-! ## Booth candidate deduplication

Embedding of `FloorPlanAnalyzer._remove_duplicate_detections`
(`backend/app/services/floor_plan_analyzer.py`). A candidate dict carries
center `x`,`y`, bounding box `w`,`h` (ints from `cv2.boundingRect`) and the
contour `area` (a float, modelled in `ℚ`); the `contour` and `threshold`
entries of the source dict are not read by the deduplication code and are
omitted from the record. -/

structure BoothCand where
  x : ℤ
  y : ℤ
  w : ℤ
  h : ℤ
  area : ℚ
deriving DecidableEq

/-- Stable descending insertion by `area`: one step of the model of the CPython
stable sort with key minus-area used by the source. A new element goes
after every element of greater or equal area, so elements of equal area keep
their original order, matching the stability of Python sorted. -/
def insert_area_desc (c : BoothCand) : List BoothCand → List BoothCand
  | [] => [c]
  | d :: rest => if d.area ≥ c.area then d :: insert_area_desc c rest else c :: d :: rest

/-- Model of `sorted(candidates, key=lambda x: -x.area)` (stable, descending). -/
def sort_area_desc (candidates : List BoothCand) : List BoothCand :=
  candidates.foldl (fun acc c => insert_area_desc c acc) []

/-- The duplicate test of the source: both center offsets strictly below
`max(c.w, c.h, e.w, e.h) * 0.5`. The float comparison `dx < k * 0.5` with
integer `dx` and integer `k` is exact and equals `2 * dx < k`. -/
def is_duplicate_of (c e : BoothCand) : Bool :=
  let dx : ℤ := |c.x - e.x|
  let dy : ℤ := |c.y - e.y|
  let m : ℤ := max (max c.w c.h) (max e.w e.h)
  decide (2 * dx < m) && decide (2 * dy < m)

/-- Embedding of `_remove_duplicate_detections`: sort by area descending, then
greedily keep each candidate unless it duplicates an already kept one. The
`height` argument of the Python method is never read by its body. -/
def remove_duplicate_detections (candidates : List BoothCand) (height : ℤ) : List BoothCand :=
  let _ := height
  let sorted_candidates := sort_area_desc candidates
  sorted_candidates.foldl
    (fun kept c => if kept.any (fun e => is_duplicate_of c e) then kept else kept ++ [c]) []

theorem is_duplicate_of_symm (a b : BoothCand) :
    is_duplicate_of a b = is_duplicate_of b a := by
  unfold is_duplicate_of
  have hx : |a.x - b.x| = |b.x - a.x| := abs_sub_comm _ _
  have hy : |a.y - b.y| = |b.y - a.y| := abs_sub_comm _ _
  have hm : max (max a.w a.h) (max b.w b.h) = max (max b.w b.h) (max a.w a.h) := max_comm _ _
  rw [hx, hy, hm]

/-- The greedy fold keeps the pairwise non-duplicate property invariant. -/
theorem dedup_fold_pairwise (l : List BoothCand) (kept : List BoothCand)
    (h : kept.Pairwise (fun a b => is_duplicate_of a b = false)) :
    (l.foldl
      (fun kept c => if kept.any (fun e => is_duplicate_of c e) then kept else kept ++ [c])
      kept).Pairwise (fun a b => is_duplicate_of a b = false) := by
  induction l generalizing kept with
  | nil => simpa using h
  | cons c rest ih =>
      simp only [List.foldl_cons]
      by_cases hc : kept.any (fun e => is_duplicate_of c e) = true
      · simpa [hc] using ih kept h
      · have hall : ∀ e ∈ kept, is_duplicate_of c e = false := by
          intro e he
          have := (List.any_eq_true).not.mp (by simpa using hc)
          push_neg at this
          simpa using this e he
        have hpair : (kept ++ [c]).Pairwise (fun a b => is_duplicate_of a b = false) := by
          refine List.pairwise_append.mpr ⟨h, by simp, ?_⟩
          intro a ha b hb
          simp only [List.mem_singleton] at hb
          subst hb
          rw [is_duplicate_of_symm]
          exact hall a ha
        simpa [hc] using ih (kept ++ [c]) hpair

/-- C8 counterexample: the claim states that the distance between the centers
of any two kept areas strictly exceeds a fixed deduplication threshold. On the
concrete candidate list below the code keeps both candidates, whose center
distance is exactly 5 while the threshold the code applies to this pair,
`max(w, h, w2, h2) * 0.5`, is also 5: the distance does not exceed it (and the
threshold is pair dependent, not fixed). With center offsets `dx = 5, dy = 0`
and extent maximum `m = 10`, the comparison `distance > m / 2` is equivalent to
`4 * (dx ^ 2 + dy ^ 2) > m ^ 2`, which fails: `100 > 100` is false. -/
theorem C8_dedup_counterexample :
    remove_duplicate_detections
        [⟨0, 0, 10, 10, 200⟩, ⟨5, 0, 10, 10, 100⟩] 100 =
      [⟨0, 0, 10, 10, 200⟩, ⟨5, 0, 10, 10, 100⟩] ∧
    ¬ (4 * (((0 : ℤ) - 5) ^ 2 + ((0 : ℤ) - 0) ^ 2) >
        (max (max (10 : ℤ) 10) (max 10 10)) ^ 2) := by
  constructor
  · rfl
  · decide

/-- C8 (amended): after deduplication, any two kept areas are separated by at
least half of the pair threshold `max(w1, h1, w2, h2)` along at least one axis
(Chebyshev separation, non strict), and consequently, whenever that pair
threshold is nonnegative, the squared Euclidean center distance is at least
the squared half threshold. The threshold is pair dependent, not a fixed pixel
distance, and the bound is non strict. -/
theorem C8_dedup_pairwise_separation (candidates : List BoothCand) (height : ℤ) :
    (remove_duplicate_detections candidates height).Pairwise
      (fun a b =>
        max (max a.w a.h) (max b.w b.h) ≤ 2 * max |a.x - b.x| |a.y - b.y| ∧
        (0 ≤ max (max a.w a.h) (max b.w b.h) →
          (max (max a.w a.h) (max b.w b.h)) ^ 2 ≤
            4 * ((a.x - b.x) ^ 2 + (a.y - b.y) ^ 2))) := by
  have hp := dedup_fold_pairwise (sort_area_desc candidates) [] (by simp)
  have : remove_duplicate_detections candidates height =
      (sort_area_desc candidates).foldl
        (fun kept c => if kept.any (fun e => is_duplicate_of c e) then kept else kept ++ [c])
        [] := rfl
  rw [this]
  refine hp.imp ?_
  intro a b hab
  unfold is_duplicate_of at hab
  simp only [Bool.and_eq_false_iff, decide_eq_false_iff_not, not_lt] at hab
  have hcheb : max (max a.w a.h) (max b.w b.h) ≤ 2 * max |a.x - b.x| |a.y - b.y| := by
    rcases hab with h | h
    · exact le_trans h (by
        have := le_max_left |a.x - b.x| |a.y - b.y|
        nlinarith)
    · exact le_trans h (by
        have := le_max_right |a.x - b.x| |a.y - b.y|
        nlinarith)
  refine ⟨hcheb, ?_⟩
  intro hm
  have h1 : (max (max a.w a.h) (max b.w b.h)) ^ 2 ≤
      (2 * max |a.x - b.x| |a.y - b.y|) ^ 2 := by
    have h2 : 0 ≤ 2 * max |a.x - b.x| |a.y - b.y| := le_trans hm hcheb
    nlinarith
  have h3 : (2 * max |a.x - b.x| |a.y - b.y|) ^ 2 ≤
      4 * ((a.x - b.x) ^ 2 + (a.y - b.y) ^ 2) := by
    rcases max_cases |a.x - b.x| |a.y - b.y| with ⟨he, _⟩ | ⟨he, _⟩ <;>
      rw [he] <;> nlinarith [sq_abs (a.x - b.x), sq_abs (a.y - b.y),
        sq_nonneg (a.x - b.x), sq_nonneg (a.y - b.y)]
  exact le_trans h1 h3

/-! ## NetworkX graph model

Embedding of the `networkx.Graph` operations used by `PathfindingService`:
insertion ordered node and adjacency dicts, `add_node`, `add_edge` (undirected:
both directions receive the same attribute record; a later `add_edge` on the
same pair overwrites the attributes). A node added implicitly as an edge
endpoint has an empty attribute dict, modelled as `none`. -/

structure NodeAttrs where
  x : ℚ
  y : ℚ
  node_type : String
  accessibility_level : String
  name : Option String
deriving DecidableEq

structure EdgeAttrs where
  weight : ℚ
  accessible : Bool
  edge_type : String
deriving DecidableEq

structure Graph where
  node : List (String × Option NodeAttrs)
  adj : List (String × List (String × EdgeAttrs))
deriving DecidableEq

def Graph.empty : Graph := ⟨[], []⟩

/-- Model of `G.add_node(id, **attrs)`: sets the attribute dict and ensures an
adjacency entry exists. -/
def Graph.add_node (G : Graph) (id : String) (attrs : NodeAttrs) : Graph :=
  { node := pySet G.node id (some attrs),
    adj := if pyContains G.adj id then G.adj else pySet G.adj id [] }

/-- Ensure a node exists with an empty attribute dict, as `add_edge` does for
missing endpoints. -/
def Graph.ensure_node (G : Graph) (id : String) : Graph :=
  { node := if pyContains G.node id then G.node else pySet G.node id none,
    adj := if pyContains G.adj id then G.adj else pySet G.adj id [] }

/-- Model of `G.add_edge(u, v, **attrs)` on an undirected graph. -/
def Graph.add_edge (G : Graph) (u v : String) (attrs : EdgeAttrs) : Graph :=
  let G1 := (G.ensure_node u).ensure_node v
  let adj1 := pySet G1.adj u (pySet ((pyGet? G1.adj u).getD []) v attrs)
  let adj2 := pySet adj1 v (pySet ((pyGet? adj1 v).getD []) u attrs)
  { G1 with adj := adj2 }

/-- Membership `id in G` (networkx checks the node dict). -/
def Graph.contains (G : Graph) (id : String) : Bool := pyContains G.node id

/-- Lookup of `G[u][v]`, `none` modelling a KeyError. -/
def Graph.edge_data? (G : Graph) (u v : String) : Option EdgeAttrs :=
  pyGet? ((pyGet? G.adj u).getD []) v

/-- Neighbor iteration `G[u].items()` in adjacency insertion order. -/
def Graph.neighbors (G : Graph) (u : String) : List (String × EdgeAttrs) :=
  (pyGet? G.adj u).getD []

/-- Attribute access `attrs.get(1 node_type 1, 1 waypoint 1)` of a node
attribute dict (default for the empty dict of an implicit endpoint). -/
def attr_node_type : Option NodeAttrs → String
  | none => "waypoint"
  | some a => a.node_type

/-- Attribute access of the optional `name` attribute. -/
def attr_name : Option NodeAttrs → Option String
  | none => none
  | some a => a.name

/-- Python string truthiness: `None` and the empty string are falsy. -/
def py_str_truthy : Option String → Bool
  | none => false
  | some "" => false
  | some _ => true

/-- Python `s or default` for an optional string. -/
def py_str_or (s : Option String) (default : String) : String :=
  if py_str_truthy s then s.getD default else default

/-! ## Python float rounding and rendering

The source formats segment distances with `round(x, 1)` and records cumulative
distances with `round(x, 2)`. Python `round` uses banker rounding (ties to
even); we model it exactly over `ℚ`. -/

/-- Floor of a rational, computed directly (floor division of numerator by
denominator) so that it reduces inside the kernel. -/
def ratFloor (q : ℚ) : ℤ := q.num.fdiv q.den

/-- Round to the nearest integer, ties to the even integer. -/
def roundHalfEven (q : ℚ) : ℤ :=
  let f := ratFloor q
  let r := q - (f : ℚ)
  if r < mkRat 1 2 then f
  else if mkRat 1 2 < r then f + 1
  else if f % 2 = 0 then f else f + 1

/-- Ten to a natural power, by structural recursion so that it reduces inside
the kernel. -/
def pow10 : ℕ → ℕ
  | 0 => 1
  | n + 1 => 10 * pow10 n

/-- Model of Python `round(q, ndigits)` over `ℚ`. -/
def pyRound (ndigits : ℕ) (q : ℚ) : ℚ :=
  mkRat (roundHalfEven (q * (pow10 ndigits : ℚ))) 1 / (pow10 ndigits : ℚ)

/-- Decimal rendering of a rational whose reduced denominator divides a power
of ten, as Python `str` renders the corresponding float (an integer value is
rendered with a trailing `.0`). Values produced by `pyRound 1` always have
denominator 1, 2, 5 or 10. Other rationals fall back to the raw `Rat` repr;
no value used in this development hits the fallback. -/
def ratDecimalRepr (q : ℚ) : String :=
  let sign := if q < 0 then "-" else ""
  let a := q.num.natAbs
  let b := q.den
  let ip := a / b
  let rem := a % b
  if rem = 0 then sign ++ toString ip ++ ".0"
  else if (rem * 10) % b = 0 then
    sign ++ toString ip ++ "." ++ toString ((rem * 10) / b)
  else if (rem * 100) % b = 0 then
    sign ++ toString ip ++ "." ++ toString ((rem * 100) / b / 10) ++
      toString ((rem * 100) / b % 10)
  else sign ++ toString a ++ "/" ++ toString b

structure RouteInstruction where
  step : ℕ
  action : String
  distance : ℚ
deriving DecidableEq

/-! ## Instruction generation

Embedding of `PathfindingService._generate_instructions`
(`backend/app/services/pathfinding.py`). The action text of a middle step is
selected by the `node_type` of the arriving node (with the `name` attribute,
Python-truthy, as secondary key); the `edge_type` of the traversed edge is not
consulted. A missing edge between consecutive path entries would raise a
KeyError in the source and is modelled as `Except.error`. -/

/-- Action text for the step arriving at a node of the given type and name,
having walked `seg` along the traversed edge. -/
def middle_action (ntype : String) (nname : Option String) (seg : ℚ) : String :=
  if ntype = "stairs" then "Take stairs to " ++ py_str_or nname "next level"
  else if ntype = "elevator" then "Take elevator to " ++ py_str_or nname "next level"
  else if py_str_truthy nname then "Continue to " ++ nname.getD ""
  else "Walk straight for " ++ ratDecimalRepr (pyRound 1 seg) ++ " units"

/-- Middle loop of `_generate_instructions`: one instruction per traversed
edge, carrying the cumulative distance and the running step number; returns
the instructions together with the final cumulative distance. -/
def gen_steps (G : Graph) :
    String → List String → ℚ → ℕ → Except String (List RouteInstruction × ℚ)
  | _, [], cum, _ => .ok ([], cum)
  | cur, nxt :: rest, cum, stepn =>
      match G.edge_data? cur nxt with
      | none => .error "KeyError"
      | some ed =>
          let cum2 := cum + ed.weight
          let nattrs := (pyGet? G.node nxt).getD none
          let act := middle_action (attr_node_type nattrs) (attr_name nattrs) ed.weight
          match gen_steps G nxt rest cum2 (stepn + 1) with
          | .error e => .error e
          | .ok (tail, fin) => .ok (⟨stepn, act, pyRound 2 cum2⟩ :: tail, fin)

/-- Sum of the edge weights along a path (0 for missing edges; used only under
the hypothesis that every consecutive pair is an edge of the graph). -/
def path_weight (G : Graph) : List String → ℚ
  | [] => 0
  | [_] => 0
  | a :: b :: rest =>
      ((G.edge_data? a b).map EdgeAttrs.weight).getD 0 + path_weight G (b :: rest)

/-- Embedding of `_generate_instructions`. The `node_positions` argument of the
Python method is never read by its body. -/
def generate_instructions (G : Graph) (path : List String)
    (node_positions : List (String × (ℚ × ℚ))) : Except String (List RouteInstruction) :=
  let _ := node_positions
  match path with
  | [] => .error "IndexError"
  | p0 :: rest =>
      let start_attrs := (pyGet? G.node p0).getD none
      let start_name := py_str_or (attr_name start_attrs) "Start location"
      let first : RouteInstruction := ⟨1, "Start at " ++ start_name, 0⟩
      match gen_steps G p0 rest 0 2 with
      | .error e => .error e
      | .ok (mids, total) =>
          let last_id := (p0 :: rest).getLast (by simp)
          let end_attrs := (pyGet? G.node last_id).getD none
          let end_name := py_str_or (attr_name end_attrs) "destination"
          .ok (first :: mids ++
            [⟨mids.length + 2, "Arrive at " ++ end_name, pyRound 2 total⟩])

/-- Boolean test that every consecutive pair of a path is an edge of `G`. -/
def chain_edges_ok (G : Graph) : List String → Bool
  | [] => true
  | [_] => true
  | a :: b :: l => (G.edge_data? a b).isSome && chain_edges_ok G (b :: l)

theorem path_weight_cons (G : Graph) (a b : String) (l : List String) :
    path_weight G (a :: b :: l) =
      ((G.edge_data? a b).map EdgeAttrs.weight).getD 0 + path_weight G (b :: l) := rfl

/-- Segment weight of the i-th traversed edge of a path (0 when out of range
or missing; used under the chain hypothesis where it is the real weight). -/
def seg_weight (G : Graph) (path : List String) (i : ℕ) : ℚ :=
  ((G.edge_data? (path.getD i "") (path.getD (i + 1) "")).map EdgeAttrs.weight).getD 0

/-- Structure of the middle loop: one instruction per traversed edge, step
numbers consecutive from the start value, action chosen by the arriving node
type and name, distance the 2 digit rounding of the cumulative walked
distance. -/
theorem gen_steps_ok (G : Graph) :
    ∀ (rest : List String) (cur : String) (cum : ℚ) (n : ℕ),
    chain_edges_ok G (cur :: rest) = true →
    ∃ L fin, gen_steps G cur rest cum n = .ok (L, fin) ∧
      L.length = rest.length ∧
      fin = cum + path_weight G (cur :: rest) ∧
      ∀ i, i < rest.length →
        L[i]? = some ⟨n + i,
          middle_action
            (attr_node_type ((pyGet? G.node (rest.getD i "")).getD none))
            (attr_name ((pyGet? G.node (rest.getD i "")).getD none))
            (seg_weight G (cur :: rest) i),
          pyRound 2 (cum + path_weight G ((cur :: rest).take (i + 2)))⟩ := by
  intro rest
  induction rest with
  | nil =>
      intro cur cum n _
      refine ⟨[], cum, rfl, rfl, by simp [path_weight], ?_⟩
      intro i hi
      simp at hi
  | cons nxt rest ih =>
      intro cur cum n hchain
      simp only [chain_edges_ok, Bool.and_eq_true, Option.isSome_iff_exists] at hchain
      obtain ⟨⟨ed, hed⟩, hrest⟩ := hchain
      obtain ⟨L, fin, hgen, hlen, hfin, hidx⟩ := ih nxt (cum + ed.weight) (n + 1) hrest
      refine ⟨⟨n, middle_action (attr_node_type ((pyGet? G.node nxt).getD none))
          (attr_name ((pyGet? G.node nxt).getD none)) ed.weight,
          pyRound 2 (cum + ed.weight)⟩ :: L, fin, ?_, by simp [hlen], ?_, ?_⟩
      · simp only [gen_steps, hed, hgen]
      · rw [hfin, path_weight_cons, hed]
        simp only [Option.map_some', Option.getD_some]
        ring
      · intro i hi
        match i with
        | 0 =>
            have ht : (cur :: nxt :: rest).take (0 + 2) = [cur, nxt] := rfl
            have hw : path_weight G [cur, nxt] = ed.weight := by
              rw [path_weight_cons, hed]
              simp [path_weight]
            have hs : seg_weight G (cur :: nxt :: rest) 0 = ed.weight := by
              simp [seg_weight, hed]
            simp [ht, hw, hs]
        | i + 1 =>
            have hi' : i < rest.length := by simpa using hi
            have hrec := hidx i hi'
            have ht : (cur :: nxt :: rest).take (i + 1 + 2) =
                cur :: (nxt :: rest).take (i + 2) := rfl
            have hs : seg_weight G (cur :: nxt :: rest) (i + 1) =
                seg_weight G (nxt :: rest) i := by
              simp [seg_weight]
            simp only [List.getElem?_cons_succ, List.getD_cons_succ]
            rw [hrec, ht, hs]
            have hn : n + 1 + i = n + (i + 1) := by omega
            have hq : cum + ed.weight + path_weight G ((nxt :: rest).take (i + 2)) =
                cum + path_weight G (cur :: (nxt :: rest).take (i + 2)) := by
              cases h2 : (nxt :: rest).take (i + 2) with
              | nil => simp at h2
              | cons b l =>
                  have hb : b = nxt := by
                    have : ((nxt :: rest).take (i + 2)).head? = some nxt := by
                      simp [List.head?]
                    rw [h2] at this
                    simpa using this
                  subst hb
                  rw [path_weight_cons, hed]
                  simp only [Option.map_some', Option.getD_some]
                  ring
            rw [hn, hq]

/-- C5 (amended): for every route path whose consecutive pairs are edges of
the graph, the generated instruction list has exactly one step per traversed
edge plus a start and an arrival step; the first step is
`Start at <name or Start location>` at distance 0; the step arriving at a node
is `Take stairs to ...` or `Take elevator to ...` when the ARRIVING NODE has
type `stairs` or `elevator` (with `next level` as name fallback),
`Continue to <name>` when the arriving node has a nonempty name, and
`Walk straight for <segment> units` otherwise — the traversed edge type is
not consulted; the final step is `Arrive at <name or destination>`; and the
distance of each step is the cumulative distance from the start, rounded to
two digits. -/
theorem C5_instruction_structure (G : Graph) (p0 : String) (rest : List String)
    (node_positions : List (String × (ℚ × ℚ)))
    (hchain : chain_edges_ok G (p0 :: rest) = true) :
    ∃ L, generate_instructions G (p0 :: rest) node_positions = .ok L ∧
      L.length = rest.length + 2 ∧
      L.head? = some ⟨1,
        "Start at " ++ py_str_or (attr_name ((pyGet? G.node p0).getD none)) "Start location",
        0⟩ ∧
      (∀ i, i < rest.length →
        L[i + 1]? = some ⟨i + 2,
          middle_action
            (attr_node_type ((pyGet? G.node (rest.getD i "")).getD none))
            (attr_name ((pyGet? G.node (rest.getD i "")).getD none))
            (seg_weight G (p0 :: rest) i),
          pyRound 2 (path_weight G ((p0 :: rest).take (i + 2)))⟩) ∧
      L.getLast? = some ⟨rest.length + 2,
        "Arrive at " ++ py_str_or
          (attr_name ((pyGet? G.node ((p0 :: rest).getLast (by simp))).getD none))
          "destination",
        pyRound 2 (path_weight G (p0 :: rest))⟩ := by
  obtain ⟨mids, fin, hgen, hlen, hfin, hidx⟩ := gen_steps_ok G rest p0 0 2 hchain
  refine ⟨⟨1, "Start at " ++ py_str_or (attr_name ((pyGet? G.node p0).getD none))
        "Start location", 0⟩ :: mids ++ [⟨mids.length + 2,
      "Arrive at " ++ py_str_or (attr_name ((pyGet? G.node
        ((p0 :: rest).getLast (by simp))).getD none)) "destination",
      pyRound 2 fin⟩], ?_, ?_, ?_, ?_, ?_⟩
  · simp only [generate_instructions, hgen]
  · simp [hlen]
  · rfl
  · intro i hi
    have hmem : i < mids.length := by rw [hlen]; exact hi
    simp only [List.cons_append, List.getElem?_cons_succ]
    rw [List.getElem?_append_left hmem, hidx i hi]
    congr 2
    · omega
    · rw [zero_add]
  · rw [show (⟨1, "Start at " ++ py_str_or (attr_name ((pyGet? G.node p0).getD none))
        "Start location", 0⟩ :: mids ++ [(⟨mids.length + 2,
          "Arrive at " ++ py_str_or (attr_name ((pyGet? G.node
            ((p0 :: rest).getLast (by simp))).getD none)) "destination",
          pyRound 2 fin⟩ : RouteInstruction)]) =
        (⟨1, "Start at " ++ py_str_or (attr_name ((pyGet? G.node p0).getD none))
        "Start location", 0⟩ :: mids) ++ [⟨mids.length + 2,
          "Arrive at " ++ py_str_or (attr_name ((pyGet? G.node
            ((p0 :: rest).getLast (by simp))).getD none)) "destination",
          pyRound 2 fin⟩] from by simp]
    rw [List.getLast?_concat]
    rw [hfin, hlen]
    simp

instance exceptDecEq {ε α : Type} [DecidableEq ε] [DecidableEq α] :
    DecidableEq (Except ε α) := fun x y =>
  match x, y with
  | .ok a, .ok b =>
      if h : a = b then isTrue (by rw [h]) else
        isFalse (by intro hh; cases hh; exact h rfl)
  | .error a, .error b =>
      if h : a = b then isTrue (by rw [h]) else
        isFalse (by intro hh; cases hh; exact h rfl)
  | .ok _, .error _ => isFalse (by intro hh; cases hh)
  | .error _, .ok _ => isFalse (by intro hh; cases hh)

/-- Concrete two node graph whose single edge has `edge_type = "stairs"` while
both endpoints are plain named waypoints. -/
def stairs_graph : Graph :=
  ⟨[("a", some ⟨0, 0, "waypoint", "wheelchair_accessible", some "A"⟩),
    ("b", some ⟨3, 4, "waypoint", "wheelchair_accessible", some "B"⟩)],
   [("a", [("b", ⟨5, true, "stairs"⟩)]), ("b", [("a", ⟨5, true, "stairs"⟩)])]⟩

/-- C5 counterexample: the claim states the step text is
`Take stairs/elevator to <name>` when the TRAVERSED EDGE has type stairs or
elevator. On a concrete route whose only edge has `edge_type = "stairs"` but
whose arriving node is a named waypoint, the code emits `Continue to B`, not
`Take stairs to B`: the dispatch reads the arriving node type, never the edge
type. -/
theorem C5_instruction_counterexample :
    generate_instructions stairs_graph ["a", "b"] [] =
      .ok [⟨1, "Start at A", 0⟩, ⟨2, "Continue to B", 5⟩, ⟨3, "Arrive at B", 5⟩] ∧
    (stairs_graph.edge_data? "a" "b").map EdgeAttrs.edge_type = some "stairs" ∧
    ("Continue to B" : String) ≠ "Take stairs to B" := by
  refine ⟨?_, by decide, by decide⟩
  decide

/-- C5 witness: the structure theorem applied to the concrete stairs graph. -/
theorem C5_instruction_structure_witness :
    chain_edges_ok stairs_graph ["a", "b"] = true ∧
    (∃ L, generate_instructions stairs_graph ["a", "b"] [] = .ok L ∧
      L.length = ["b"].length + 2 ∧
      L.head? = some ⟨1,
        "Start at " ++ py_str_or (attr_name ((pyGet? stairs_graph.node "a").getD none))
          "Start location", 0⟩ ∧
      (∀ i, i < ["b"].length →
        L[i + 1]? = some ⟨i + 2,
          middle_action
            (attr_node_type ((pyGet? stairs_graph.node (["b"].getD i "")).getD none))
            (attr_name ((pyGet? stairs_graph.node (["b"].getD i "")).getD none))
            (seg_weight stairs_graph ["a", "b"] i),
          pyRound 2 (path_weight stairs_graph (["a", "b"].take (i + 2)))⟩) ∧
      L.getLast? = some ⟨["b"].length + 2,
        "Arrive at " ++ py_str_or
          (attr_name ((pyGet? stairs_graph.node (["a", "b"].getLast (by simp))).getD none))
          "destination",
        pyRound 2 (path_weight stairs_graph ["a", "b"])⟩) :=
  ⟨by decide, C5_instruction_structure stairs_graph "a" ["b"] [] (by decide)⟩

/-! ## Hash functions

`CacheService._generate_key` hashes with `hashlib.sha256` and
`PathfindingService._get_preferences_hash` with `hashlib.md5`; both are
implemented here bit for bit over `Nat` words reduced mod `2 ^ 32`. Strings
are converted to bytes via the character codes; every string hashed by the
embedded code is ASCII, where this coincides with UTF-8. -/

def w32 : ℕ := 4294967296

def rotr (n x : ℕ) : ℕ := ((x >>> n) ||| (x <<< (32 - n))) % w32

def rotl (n x : ℕ) : ℕ := ((x <<< n) ||| (x >>> (32 - n))) % w32

def hexChar (n : ℕ) : Char :=
  if n < 10 then Char.ofNat (48 + n) else Char.ofNat (87 + n)

def byteHex (b : ℕ) : List Char := [hexChar ((b >>> 4) % 16), hexChar (b % 16)]

/-- Split a byte list into 32-bit big-endian words. -/
def beWords : List ℕ → List ℕ
  | b0 :: b1 :: b2 :: b3 :: rest => (((b0 * 256 + b1) * 256 + b2) * 256 + b3) :: beWords rest
  | _ => []

/-- Split a byte list into 32-bit little-endian words. -/
def leWords : List ℕ → List ℕ
  | b0 :: b1 :: b2 :: b3 :: rest => (((b3 * 256 + b2) * 256 + b1) * 256 + b0) :: leWords rest
  | _ => []

/-- Split a word list into 16 word blocks (padded input is always a multiple
of 16 words). -/
def toBlocks16 : List ℕ → List (List ℕ)
  | w0 :: w1 :: w2 :: w3 :: w4 :: w5 :: w6 :: w7 ::
    w8 :: w9 :: w10 :: w11 :: w12 :: w13 :: w14 :: w15 :: rest =>
      [w0, w1, w2, w3, w4, w5, w6, w7, w8, w9, w10, w11, w12, w13, w14, w15] :: toBlocks16 rest
  | _ => []

def sha256K : List ℕ :=
  [1116352408, 1899447441, 3049323471, 3921009573, 961987163,
   1508970993, 2453635748, 2870763221, 3624381080, 310598401,
   607225278, 1426881987, 1925078388, 2162078206, 2614888103,
   3248222580, 3835390401, 4022224774, 264347078, 604807628,
   770255983, 1249150122, 1555081692, 1996064986, 2554220882,
   2821834349, 2952996808, 3210313671, 3336571891, 3584528711,
   113926993, 338241895, 666307205, 773529912, 1294757372,
   1396182291, 1695183700, 1986661051, 2177026350, 2456956037,
   2730485921, 2820302411, 3259730800, 3345764771, 3516065817,
   3600352804, 4094571909, 275423344, 430227734, 506948616,
   659060556, 883997877, 958139571, 1322822218, 1537002063,
   1747873779, 1955562222, 2024104815, 2227730452, 2361852424,
   2428436474, 2756734187, 3204031479, 3329325298]

def sha256Init : List ℕ :=
  [1779033703, 3144134277, 1013904242, 2773480762,
   1359893119, 2600822924, 528734635, 1541459225]

/-- SHA-256 message padding: `0x80`, zeros, 64-bit big-endian bit length. -/
def sha256Pad (msg : List ℕ) : List ℕ :=
  let len := msg.length
  let bitLen := len * 8
  let padZeros := (55 - len % 64 + 64) % 64
  msg ++ [128] ++ List.replicate padZeros 0 ++
    [(bitLen >>> 56) % 256, (bitLen >>> 48) % 256, (bitLen >>> 40) % 256, (bitLen >>> 32) % 256,
     (bitLen >>> 24) % 256, (bitLen >>> 16) % 256, (bitLen >>> 8) % 256, bitLen % 256]

def sha256SchedStep (w : List ℕ) (i : ℕ) : List ℕ :=
  let g := fun j => w.getD j 0
  let x := g (i - 15)
  let y := g (i - 2)
  let s0 := Nat.xor (Nat.xor (rotr 7 x) (rotr 18 x)) (x >>> 3)
  let s1 := Nat.xor (Nat.xor (rotr 17 y) (rotr 19 y)) (y >>> 10)
  w ++ [(g (i - 16) + s0 + g (i - 7) + s1) % w32]

def sha256Schedule (block : List ℕ) : List ℕ :=
  (List.range 48).foldl (fun w j => sha256SchedStep w (j + 16)) block

def sha256CompressStep (st : List ℕ) (kw : ℕ × ℕ) : List ℕ :=
  match st with
  | [a, b, c, d, e, f, g, h] =>
      let s1 := Nat.xor (Nat.xor (rotr 6 e) (rotr 11 e)) (rotr 25 e)
      let ch := Nat.xor (Nat.land e f) (Nat.land ((w32 - 1) - e) g)
      let t1 := (h + s1 + ch + kw.1 + kw.2) % w32
      let s0 := Nat.xor (Nat.xor (rotr 2 a) (rotr 13 a)) (rotr 22 a)
      let mj := Nat.xor (Nat.xor (Nat.land a b) (Nat.land a c)) (Nat.land b c)
      let t2 := (s0 + mj) % w32
      [(t1 + t2) % w32, a, b, c, (d + t1) % w32, e, f, g]
  | _ => st

def sha256CompressBlock (h0 : List ℕ) (block : List ℕ) : List ℕ :=
  let ws := sha256Schedule block
  let st := (sha256K.zip ws).foldl sha256CompressStep h0
  (h0.zip st).map (fun p => (p.1 + p.2) % w32)

def sha256Words (msg : List ℕ) : List ℕ :=
  (toBlocks16 (beWords (sha256Pad msg))).foldl sha256CompressBlock sha256Init

def wordHexBE (w : ℕ) : List Char := byteHex ((w >>> 24) % 256) ++ byteHex ((w >>> 16) % 256) ++
  byteHex ((w >>> 8) % 256) ++ byteHex (w % 256)

def sha256HexChars (msg : List ℕ) : List Char := (sha256Words msg).flatMap wordHexBE

/-- The first 16 characters of the SHA-256 hex digest of a string, the
`hashlib.sha256(key_string.encode()).hexdigest()[:16]` of the source. -/
def sha256_hexdigest16 (s : String) : String :=
  String.mk ((sha256HexChars (s.data.map Char.toNat)).take 16)

def md5S : List ℕ :=
  [7, 12, 17, 22, 7, 12, 17, 22, 7, 12, 17, 22, 7, 12, 17, 22,
   5, 9, 14, 20, 5, 9, 14, 20, 5, 9, 14, 20, 5, 9, 14, 20,
   4, 11, 16, 23, 4, 11, 16, 23, 4, 11, 16, 23, 4, 11, 16, 23,
   6, 10, 15, 21, 6, 10, 15, 21, 6, 10, 15, 21, 6, 10, 15, 21]

def md5K : List ℕ :=
  [3614090360, 3905402710, 606105819, 3250441966, 4118548399,
   1200080426, 2821735955, 4249261313, 1770035416, 2336552879,
   4294925233, 2304563134, 1804603682, 4254626195, 2792965006,
   1236535329, 4129170786, 3225465664, 643717713, 3921069994,
   3593408605, 38016083, 3634488961, 3889429448, 568446438,
   3275163606, 4107603335, 1163531501, 2850285829, 4243563512,
   1735328473, 2368359562, 4294588738, 2272392833, 1839030562,
   4259657740, 2763975236, 1272893353, 4139469664, 3200236656,
   681279174, 3936430074, 3572445317, 76029189, 3654602809,
   3873151461, 530742520, 3299628645, 4096336452, 1126891415,
   2878612391, 4237533241, 1700485571, 2399980690, 4293915773,
   2240044497, 1873313359, 4264355552, 2734768916, 1309151649,
   4149444226, 3174756917, 718787259, 3951481745]

/-- MD5 message padding: `0x80`, zeros, 64-bit little-endian bit length. -/
def md5Pad (msg : List ℕ) : List ℕ :=
  let len := msg.length
  let bitLen := (len * 8) % (2 ^ 64)
  let padZeros := (55 - len % 64 + 64) % 64
  msg ++ [128] ++ List.replicate padZeros 0 ++
    [bitLen % 256, (bitLen >>> 8) % 256, (bitLen >>> 16) % 256, (bitLen >>> 24) % 256,
     (bitLen >>> 32) % 256, (bitLen >>> 40) % 256, (bitLen >>> 48) % 256, (bitLen >>> 56) % 256]

def md5F (i b c d : ℕ) : ℕ :=
  if i < 16 then (Nat.land b c) ||| (Nat.land ((w32 - 1) - b) d)
  else if i < 32 then (Nat.land d b) ||| (Nat.land ((w32 - 1) - d) c)
  else if i < 48 then Nat.xor (Nat.xor b c) d
  else Nat.xor c (b ||| ((w32 - 1) - d))

def md5G (i : ℕ) : ℕ :=
  if i < 16 then i
  else if i < 32 then (5 * i + 1) % 16
  else if i < 48 then (3 * i + 5) % 16
  else (7 * i) % 16

def md5Round (m : List ℕ) (st : ℕ × ℕ × ℕ × ℕ) (i : ℕ) : ℕ × ℕ × ℕ × ℕ :=
  let f := (md5F i st.2.1 st.2.2.1 st.2.2.2 + st.1 + md5K.getD i 0 + m.getD (md5G i) 0) % w32
  (st.2.2.2, (st.2.1 + rotl (md5S.getD i 0) f) % w32, st.2.1, st.2.2.1)

def md5Block (st : ℕ × ℕ × ℕ × ℕ) (m : List ℕ) : ℕ × ℕ × ℕ × ℕ :=
  let r := (List.range 64).foldl (md5Round m) st
  ((st.1 + r.1) % w32, (st.2.1 + r.2.1) % w32, (st.2.2.1 + r.2.2.1) % w32,
   (st.2.2.2 + r.2.2.2) % w32)

def wordHexLE (w : ℕ) : List Char :=
  byteHex (w % 256) ++ byteHex ((w >>> 8) % 256) ++ byteHex ((w >>> 16) % 256) ++
    byteHex ((w >>> 24) % 256)

def md5HexChars (msg : List ℕ) : List Char :=
  let st := (toBlocks16 (leWords (md5Pad msg))).foldl md5Block
    (1732584193, 4023233417, 2562383102, 271733878)
  wordHexLE st.1 ++ wordHexLE st.2.1 ++ wordHexLE st.2.2.1 ++ wordHexLE st.2.2.2

/-- The first 8 characters of the MD5 hex digest of a string, the
`hashlib.md5(pref_str.encode()).hexdigest()[:8]` of the source. -/
def md5_hexdigest8 (s : String) : String :=
  String.mk ((md5HexChars (s.data.map Char.toNat)).take 8)

/-! ## Cache service

Embedding of `CacheService` (`backend/app/core/cache.py`). The Redis backend
is modelled as an optional client (absent when the initial connection failed)
holding a key value store and a `failing` flag under which every operation
raises `RedisError`; `settings.CACHE_ENABLED` is the `enabled` flag. Values
are pickled Python objects: the graph tuples stored by `set_graph`, or
`corrupt` bytes which fail both unpickling and the JSON fallback, making
`get` raise `json.JSONDecodeError` (only `RedisError` is caught there). TTL
expiry is not modelled; no claim concerns it. -/

inductive CacheValue
  | graphData (g : Graph) (positions : List (String × (ℚ × ℚ)))
  | corrupt (raw : String)
deriving DecidableEq

structure RedisClient where
  failing : Bool
  store : List (String × CacheValue)
deriving DecidableEq

structure CacheState where
  enabled : Bool
  client : Option RedisClient
deriving DecidableEq

/-- Model of `CacheService.is_available` (`CACHE_ENABLED`, client present,
ping succeeds). -/
def cache_is_available : CacheState → Bool
  | ⟨false, _⟩ => false
  | ⟨true, none⟩ => false
  | ⟨true, some c⟩ => !c.failing

/-- Model of `CacheService.get`: `ok none` on unavailability, a missing key or
a Redis error; `error` when the stored bytes fail unpickling and the JSON
fallback raises. -/
def cache_get (st : CacheState) (key : String) : Except String (Option CacheValue) :=
  if cache_is_available st = false then .ok none
  else match st.client with
    | none => .ok none
    | some c =>
        match pyGet? c.store key with
        | none => .ok none
        | some (.graphData g pos) => .ok (some (.graphData g pos))
        | some (.corrupt raw) => .error ("JSONDecodeError: " ++ raw)

/-- Model of `CacheService.set` (TTL dropped): returns the new backend state
and the success flag. -/
def cache_set (st : CacheState) (key : String) (value : CacheValue) : CacheState × Bool :=
  if cache_is_available st = false then (st, false)
  else match st.client with
    | none => (st, false)
    | some c => (⟨st.enabled, some ⟨c.failing, pySet c.store key value⟩⟩, true)

/-- Glob matching of Redis `scan_iter(match=pattern)` for patterns made of
literal characters and `*`, by fuel bounded recursion (each step shortens
pattern or subject, so `p.length + s.length + 1` steps always suffice). -/
def glob_go : ℕ → List Char → List Char → Bool
  | 0, _, _ => false
  | _ + 1, [], s => s.isEmpty
  | f + 1, p :: ps, s =>
      if p = '*' then
        glob_go f ps s ||
          (match s with
           | [] => false
           | _ :: s2 => glob_go f (p :: ps) s2)
      else
        match s with
        | [] => false
        | c :: s2 => p = c && glob_go f ps s2

def glob_match (pattern s : List Char) : Bool :=
  glob_go (pattern.length + s.length + 1) pattern s

/-- Model of `CacheService.delete_pattern`: collect the matching keys, delete
them, return how many were deleted. -/
def delete_pattern (st : CacheState) (pattern : String) : CacheState × ℕ :=
  if cache_is_available st = false then (st, 0)
  else match st.client with
    | none => (st, 0)
    | some c =>
        let keys := c.store.filter (fun kv => glob_match pattern.data kv.1.data)
        if keys.isEmpty then (st, 0)
        else (⟨st.enabled,
          some ⟨c.failing, c.store.filter (fun kv => !glob_match pattern.data kv.1.data)⟩⟩,
          keys.length)

/-- Model of `CacheService._generate_key` for positional arguments (every call
site passes only positional arguments, so the kwargs part of the key string is
empty). -/
def generate_key (pre : String) (args : List String) : String :=
  let key_string := String.intercalate ":" (pre :: args)
  let key_hash := sha256_hexdigest16 key_string
  "navio:" ++ pre ++ ":" ++ key_hash

/-- Model of `CacheService.get_graph`. -/
def cache_get_graph (st : CacheState) (floor_plan_id preferences_hash : String) :
    Except String (Option CacheValue) :=
  cache_get st (generate_key "graph" [floor_plan_id, preferences_hash])

/-- Model of `CacheService.set_graph`. -/
def cache_set_graph (st : CacheState) (floor_plan_id preferences_hash : String)
    (g : Graph) (positions : List (String × (ℚ × ℚ))) : CacheState × Bool :=
  cache_set st (generate_key "graph" [floor_plan_id, preferences_hash])
    (.graphData g positions)

/-- Model of `CacheService.invalidate_floor_plan`: pattern based bulk delete
with the pattern `navio:*:<floor_plan_id>:*`. -/
def invalidate_floor_plan (st : CacheState) (floor_plan_id : String) : CacheState × ℕ :=
  delete_pattern st ("navio:*:" ++ floor_plan_id ++ ":*")

theorem hexChar_ne_colon (n : ℕ) : hexChar (n % 16) ≠ ':' := by
  have h : n % 16 < 16 := Nat.mod_lt _ (by omega)
  have : ∀ m, m < 16 → hexChar m ≠ ':' := by decide
  exact this _ h

theorem byteHex_ne_colon (b : ℕ) : ∀ c ∈ byteHex b, c ≠ ':' := by
  intro c hc
  simp only [byteHex, List.mem_cons, List.mem_singleton] at hc
  rcases hc with h | h | h
  · rw [h]; exact hexChar_ne_colon _
  · rw [h]; exact hexChar_ne_colon _
  · cases h

theorem wordHexBE_ne_colon (w : ℕ) : ∀ c ∈ wordHexBE w, c ≠ ':' := by
  simp only [wordHexBE, List.forall_mem_append]
  exact ⟨⟨⟨byteHex_ne_colon _, byteHex_ne_colon _⟩, byteHex_ne_colon _⟩, byteHex_ne_colon _⟩

theorem sha256_hexdigest16_no_colon (s : String) :
    ∀ c ∈ (sha256_hexdigest16 s).data, c ≠ ':' := by
  intro c hc
  simp only [sha256_hexdigest16] at hc
  have hc2 := List.mem_of_mem_take hc
  simp only [sha256HexChars, List.mem_flatMap] at hc2
  obtain ⟨w, _, hw⟩ := hc2
  exact wordHexBE_ne_colon w c hw

/-- Occurrences of a character in a character list. -/
def countChar (ch : Char) : List Char → ℕ
  | [] => 0
  | c :: rest => (if c = ch then 1 else 0) + countChar ch rest

theorem countChar_append (ch : Char) (a b : List Char) :
    countChar ch (a ++ b) = countChar ch a + countChar ch b := by
  induction a with
  | nil => simp [countChar]
  | cons c rest ih => simp [countChar, ih]; omega

theorem countChar_eq_zero (ch : Char) (l : List Char) (h : ∀ c ∈ l, c ≠ ch) :
    countChar ch l = 0 := by
  induction l with
  | nil => rfl
  | cons c rest ih =>
      simp only [countChar]
      rw [if_neg (h c (List.mem_cons_self c rest)), ih fun d hd => h d (List.mem_cons_of_mem c hd)]

/-- A successful glob match uses at least one subject character for every
literal pattern character: for any character other than the wildcard, the
subject contains at least as many occurrences as the pattern. -/
theorem glob_go_count (ch : Char) (hch : ch ≠ '*') :
    ∀ (f : ℕ) (p s : List Char), glob_go f p s = true →
      countChar ch p ≤ countChar ch s := by
  intro f
  induction f with
  | zero => intro p s h; simp [glob_go] at h
  | succ f ih =>
      intro p s h
      match p with
      | [] => simp [countChar]
      | q :: ps =>
          by_cases hq : q = '*'
          · subst hq
            have hcnt : countChar ch ('*' :: ps) = countChar ch ps := by
              simp [countChar, Ne.symm hch]
            rw [hcnt]
            cases s with
            | nil =>
                simp only [glob_go, if_pos rfl, Bool.or_false] at h
                exact ih ps [] h
            | cons c s2 =>
                simp only [glob_go, if_pos rfl] at h
                have h2 : (glob_go f ps (c :: s2) || glob_go f ('*' :: ps) s2) = true := h
                rcases (Bool.or_eq_true _ _).mp h2 with h | h
                · exact ih ps (c :: s2) h
                · have := ih ('*' :: ps) s2 h
                  rw [hcnt] at this
                  simp only [countChar]
                  omega
          · cases s with
            | nil =>
                simp only [glob_go, if_neg hq] at h
                exact Bool.noConfusion h
            | cons c s2 =>
                simp only [glob_go, if_neg hq, Bool.and_eq_true, decide_eq_true_eq] at h
                obtain ⟨hqc, hrec⟩ := h
                subst hqc
                have := ih ps s2 hrec
                simp only [countChar]
                omega

theorem pyGet?_filter_glob (store : List (String × CacheValue)) (pat : List Char)
    (key : String) (hk : glob_match pat key.data = false) :
    pyGet? (store.filter fun kv => !glob_match pat kv.1.data) key = pyGet? store key := by
  induction store with
  | nil => rfl
  | cons kv rest ih =>
      obtain ⟨k, v⟩ := kv
      by_cases hkey : k = key
      · subst hkey
        simp [List.filter_cons, hk, pyGet?]
      · by_cases hp : glob_match pat k.data
        · simp [List.filter_cons, hp, pyGet?, hkey, ih]
        · simp [List.filter_cons, hp, pyGet?, hkey, ih]

theorem countChar_colon_generate_key (args : List String) :
    countChar ':' (generate_key "graph" args).data = 2 := by
  have hdig : countChar ':' (sha256_hexdigest16
      (String.intercalate ":" ("graph" :: args))).data = 0 :=
    countChar_eq_zero _ _ (sha256_hexdigest16_no_colon _)
  show countChar ':' (("navio:" ++ "graph" ++ ":" ++
      sha256_hexdigest16 (String.intercalate ":" ("graph" :: args))).data) = 2
  rw [String.data_append, String.data_append, String.data_append,
    countChar_append, countChar_append, countChar_append, hdig]
  decide

theorem countChar_colon_pattern (fpid : String) :
    countChar ':' ("navio:*:" ++ fpid ++ ":*").data =
      3 + countChar ':' fpid.data := by
  rw [String.data_append, String.data_append,
    countChar_append, countChar_append]
  have h1 : countChar ':' ("navio:*:").data = 2 := by decide
  have h2 : countChar ':' (":*").data = 1 := by decide
  rw [h1, h2]
  omega

/-- A generated graph cache key never matches the floor plan invalidation
pattern: the pattern demands at least three colons (plus any inside the floor
plan id) while a generated key contains exactly two, because the floor plan id
is hashed into a 16 character hex digest instead of appearing literally. -/
theorem graph_key_never_invalidated (fpid : String) (args : List String) :
    glob_match ("navio:*:" ++ fpid ++ ":*").data (generate_key "graph" args).data = false := by
  by_contra h
  have h1 : glob_match ("navio:*:" ++ fpid ++ ":*").data
      (generate_key "graph" args).data = true := by
    revert h
    cases glob_match ("navio:*:" ++ fpid ++ ":*").data (generate_key "graph" args).data
    · intro h; exact absurd rfl h
    · intro _; rfl
  have h2 := glob_go_count ':' (by decide) _ _ _ h1
  rw [countChar_colon_pattern, countChar_colon_generate_key] at h2
  omega

/-- Deleting by a pattern leaves every key the pattern does not match with an
unchanged lookup result. -/
theorem delete_pattern_preserves_unmatched (st : CacheState) (pattern key : String)
    (hk : glob_match pattern.data key.data = false) :
    cache_get (delete_pattern st pattern).1 key = cache_get st key := by
  obtain ⟨enabled, client⟩ := st
  cases enabled with
  | false => rfl
  | true =>
      cases client with
      | none => rfl
      | some c =>
          obtain ⟨cf, cs⟩ := c
          cases cf with
          | true => rfl
          | false =>
              by_cases hemp : (cs.filter
                  (fun kv => glob_match pattern.data kv.1.data)).isEmpty
              · simp only [delete_pattern, cache_is_available, Bool.not_false]
                rw [if_neg (by decide), if_pos hemp]
              · simp only [delete_pattern, cache_is_available, Bool.not_false]
                rw [if_neg (by decide), if_neg hemp]
                simp only [cache_get, cache_is_available, Bool.not_false]
                rw [if_neg (by decide), if_neg (by decide)]
                rw [pyGet?_filter_glob cs _ _ hk]

/-- C1 (code bug): `invalidate_floor_plan` deletes by the pattern
`navio:*:<floor_plan_id>:*`, but `_generate_key` hashes the floor plan id into
the key (`navio:graph:<sha256 digest prefix>`), so no graph cache entry ever
matches the pattern: a graph cached for a floor plan is STILL a cache hit
after invalidating that same floor plan, for every preference hash —
contradicting both the claim and the docstring of `invalidate_floor_plan`. -/
theorem C1_invalidate_leaves_cached_graphs (st : CacheState)
    (fpid preferences_hash : String) (v : CacheValue)
    (hhit : cache_get_graph st fpid preferences_hash = .ok (some v)) :
    cache_get_graph (invalidate_floor_plan st fpid).1 fpid preferences_hash = .ok (some v) := by
  unfold cache_get_graph at hhit ⊢
  unfold invalidate_floor_plan
  rw [delete_pattern_preserves_unmatched st _ _ (graph_key_never_invalidated fpid _)]
  exact hhit

/-- C1 witness: a concrete cached graph entry for a concrete floor plan id
survives `invalidate_floor_plan` on that very floor plan id. -/
theorem C1_invalidate_leaves_cached_graphs_witness :
    cache_get_graph
        ⟨true, some ⟨false,
          [(generate_key "graph" ["123e4567-e89b-12d3-a456-426614174000", "default"],
            .graphData Graph.empty [])]⟩⟩
        "123e4567-e89b-12d3-a456-426614174000" "default" =
      .ok (some (.graphData Graph.empty [])) ∧
    cache_get_graph
        (invalidate_floor_plan
          ⟨true, some ⟨false,
            [(generate_key "graph" ["123e4567-e89b-12d3-a456-426614174000", "default"],
              .graphData Graph.empty [])]⟩⟩
          "123e4567-e89b-12d3-a456-426614174000").1
        "123e4567-e89b-12d3-a456-426614174000" "default" =
      .ok (some (.graphData Graph.empty [])) := by
  constructor
  · decide
  · exact C1_invalidate_leaves_cached_graphs _ _ _ _ (by decide)

/-! ## Database rows and graph building

Embedding of `PathfindingService.build_graph`
(`backend/app/services/pathfinding.py`). The persistence layer is modelled as
lists of node and edge rows; `db.query(...).filter(floor_plan_id == fp).all()`
returns the rows of that floor plan in stored order. Node ids are the strings
`str(node.id)` produces; coordinates and weights are floats modelled in `ℚ`. -/

structure NodeRow where
  id : String
  floor_plan_id : String
  x : ℚ
  y : ℚ
  node_type : String
  name : Option String
  accessibility_level : String
deriving DecidableEq

structure EdgeRow where
  floor_plan_id : String
  source_node_id : String
  target_node_id : String
  weight : ℚ
  accessible : Bool
  edge_type : String
deriving DecidableEq

structure DB where
  nodes : List NodeRow
  edges : List EdgeRow
deriving DecidableEq

structure RoutePreferences where
  accessible_only : Bool := false
  avoid_stairs : Bool := false
  shortest_distance : Bool := true
deriving DecidableEq

/-- Model of `PathfindingService._get_preferences_hash`: `"default"` for
`None`, otherwise the first 8 hex characters of the MD5 of
`"<accessible_only>:<avoid_stairs>:<shortest_distance>"` with the Python bool
reprs `True`/`False`. -/
def get_preferences_hash (preferences : Option RoutePreferences) : String :=
  match preferences with
  | none => "default"
  | some p =>
      let pyBool := fun (b : Bool) => if b then "True" else "False"
      md5_hexdigest8
        (pyBool p.accessible_only ++ ":" ++ pyBool p.avoid_stairs ++ ":" ++
          pyBool p.shortest_distance)

/-- The pure part of `build_graph`: add every node row of the floor plan with
its attributes, collect `node_positions`, then add every edge row unless the
preferences filter it out. -/
def build_graph_pure (db : DB) (floor_plan_id : String) (preferences : RoutePreferences) :
    Graph × List (String × (ℚ × ℚ)) :=
  let nodes := db.nodes.filter (fun n => n.floor_plan_id = floor_plan_id)
  let init := nodes.foldl
    (fun (acc : Graph × List (String × (ℚ × ℚ))) n =>
      (acc.1.add_node n.id ⟨n.x, n.y, n.node_type, n.accessibility_level, n.name⟩,
       pySet acc.2 n.id (n.x, n.y)))
    (Graph.empty, [])
  let edges := db.edges.filter (fun e => e.floor_plan_id = floor_plan_id)
  let G := edges.foldl
    (fun (G : Graph) e =>
      if preferences.accessible_only && !e.accessible then G
      else if preferences.avoid_stairs && decide (e.edge_type = "stairs") then G
      else G.add_edge e.source_node_id e.target_node_id
        ⟨e.weight, e.accessible, e.edge_type⟩)
    init.1
  (G, init.2)

/-- Embedding of `build_graph`: substitute default preferences for `None`,
consult the cache (a corrupt cached value raises out of `cache.get`), build on
a miss and store the result, silently ignoring cache set failures. Returns the
graph data together with the cache state after the optional `set_graph`. -/
def build_graph (db : DB) (st : CacheState) (floor_plan_id : String)
    (preferences : Option RoutePreferences) (use_cache : Bool) :
    Except String ((Graph × List (String × (ℚ × ℚ))) × CacheState) :=
  let prefs := preferences.getD {}
  let preferences_hash := get_preferences_hash (some prefs)
  let cached : Except String (Option CacheValue) :=
    if use_cache then cache_get_graph st floor_plan_id preferences_hash
    else .ok none
  match cached with
  | .error e => .error e
  | .ok (some (.graphData g pos)) => .ok ((g, pos), st)
  | .ok (some (.corrupt _)) =>
      .error "unreachable: cache_get raises on corrupt values"
  | .ok none =>
      let graph_data := build_graph_pure db floor_plan_id prefs
      if use_cache then
        let st2 := (cache_set_graph st floor_plan_id preferences_hash
          graph_data.1 graph_data.2).1
        .ok (graph_data, st2)
      else .ok (graph_data, st)

/-! ## A* search

Embedding of `networkx.astar_path` (the current networkx implementation: a
lazy priority queue of `(priority, counter, node, dist, parent)` tuples with
re-expansion when a popped entry is at least as good as the best enqueued
cost). The heap is modelled as a list from which the lexicographically
`(priority, counter)` smallest entry is popped; counters are unique, so the
pop is deterministic exactly like `heapq`. The heuristic may raise (a KeyError
from `node_positions`), modelled as `Except`. The loop is driven by fuel;
`none` means the fuel ran out and the model makes no statement (the source
loop would still be running). -/

structure QEntry where
  prio : ℚ
  counter : ℕ
  node : String
  dist : ℚ
  parent : Option String
deriving DecidableEq

/-- Lexicographic heap order on `(priority, counter)`. -/
def entry_le (a b : QEntry) : Bool :=
  decide (a.prio < b.prio) || (decide (a.prio = b.prio) && decide (a.counter ≤ b.counter))

def min_entry : QEntry → List QEntry → QEntry
  | best, [] => best
  | best, e :: rest => min_entry (if entry_le best e then best else e) rest

def remove_entry (e : QEntry) : List QEntry → List QEntry
  | [] => []
  | x :: rest => if x = e then rest else x :: remove_entry e rest

/-- Pop the heap minimum. -/
def pop_min : List QEntry → Option (QEntry × List QEntry)
  | [] => none
  | e :: rest =>
      let m := min_entry e rest
      some (m, remove_entry m (e :: rest))

inductive AResult
  | found (path : List String)
  | noPath
  | exc (msg : String)
deriving DecidableEq

/-- Path reconstruction of `astar_path`: follow `explored` parents from the
popped target back to the source (`none` parent), then reverse. Fuel bounds
the walk; `none` models the source looping on a cyclic parent chain. -/
def reconstruct (explored : List (String × Option String)) :
    ℕ → Option String → List String → Option AResult
  | _, none, acc => some (.found acc)
  | 0, some _, _ => none
  | fuel + 1, some nd, acc =>
      match pyGet? explored nd with
      | none => some (.exc "KeyError: explored")
      | some par => reconstruct explored fuel par (nd :: acc)

structure AState where
  queue : List QEntry
  enqueued : List (String × (ℚ × ℚ))
  explored : List (String × Option String)
  counter : ℕ
deriving DecidableEq

/-- The neighbor loop of one expansion: compute `ncost`, skip neighbors whose
best enqueued cost is already no worse, otherwise evaluate the heuristic (once
per node, then cached in `enqueued`) and push. -/
def expand_neighbors (hf : String → Except String ℚ) (cur : String) (dist : ℚ) :
    List (String × EdgeAttrs) → AState → Except String AState
  | [], st => .ok st
  | (nb, w) :: rest, st =>
      let ncost := dist + w.weight
      match pyGet? st.enqueued nb with
      | some (qcost, h) =>
          if qcost ≤ ncost then expand_neighbors hf cur dist rest st
          else
            expand_neighbors hf cur dist rest
              ⟨st.queue ++ [⟨ncost + h, st.counter, nb, ncost, some cur⟩],
               pySet st.enqueued nb (ncost, h), st.explored, st.counter + 1⟩
      | none =>
          match hf nb with
          | .error e => .error e
          | .ok h =>
              expand_neighbors hf cur dist rest
                ⟨st.queue ++ [⟨ncost + h, st.counter, nb, ncost, some cur⟩],
                 pySet st.enqueued nb (ncost, h), st.explored, st.counter + 1⟩

/-- The main loop of `astar_path`. -/
def astar_loop (G : Graph) (target : String) (hf : String → Except String ℚ) :
    ℕ → AState → Option AResult
  | 0, _ => none
  | fuel + 1, st =>
      match pop_min st.queue with
      | none => some .noPath
      | some (e, queue2) =>
          if e.node = target then
            reconstruct st.explored (fuel + 1) e.parent [e.node]
          else
            let go_expand : Option AResult :=
              match expand_neighbors hf e.node e.dist (G.neighbors e.node)
                ⟨queue2, st.enqueued, pySet st.explored e.node e.parent, st.counter⟩ with
              | .error m => some (.exc m)
              | .ok st2 => astar_loop G target hf fuel st2
            match pyGet? st.explored e.node with
            | some none => astar_loop G target hf fuel { st with queue := queue2 }
            | some (some _) =>
                match pyGet? st.enqueued e.node with
                | none => some (.exc "KeyError: enqueued")
                | some (qcost, _) =>
                    if qcost < e.dist then astar_loop G target hf fuel { st with queue := queue2 }
                    else go_expand
            | none => go_expand

/-- Embedding of `networkx.astar_path`. -/
def astar_path (G : Graph) (source target : String) (hf : String → Except String ℚ)
    (fuel : ℕ) : Option AResult :=
  if G.contains source && G.contains target then
    astar_loop G target hf fuel ⟨[⟨0, 0, source, 0, none⟩], [], [], 1⟩
  else some (.exc "NodeNotFound")

/-- Total weight of a path by exact `G[u][v]` lookups, as
`networkx.astar_path_length` sums them (a missing edge raises). -/
def sum_path_weight (G : Graph) : List String → Except String ℚ
  | [] => .ok 0
  | [_] => .ok 0
  | a :: b :: rest =>
      match G.edge_data? a b with
      | none => .error "KeyError: edge"
      | some ed =>
          match sum_path_weight G (b :: rest) with
          | .error e => .error e
          | .ok s => .ok (ed.weight + s)

/-- Embedding of `networkx.astar_path_length`: rerun the search and sum the
edge weights along the returned path. -/
def astar_path_length (G : Graph) (source target : String)
    (hf : String → Except String ℚ) (fuel : ℕ) : Option (Except String ℚ) :=
  match astar_path G source target hf fuel with
  | none => none
  | some (.found p) => some (sum_path_weight G p)
  | some .noPath => some (.error "NetworkXNoPath")
  | some (.exc m) => some (.error m)

/-! ## Route calculation

Embedding of `PathfindingService.calculate_route`. Node ids stay strings (the
source converts UUIDs to strings before the search and back after it; the
conversion is the identity on the id values). The walking speed constant 1.4
is modelled as 7/5 (the float 1.4 differs from 7/5 by one part in 10^16; no
claim concerns the estimated time). `math.sqrt` is not exactly representable
over `ℚ`; the embedding therefore takes the square root map as an explicit
parameter `sqrtFn`, instantiated for concrete runs with `ratSqrt`, which
agrees with IEEE-754 `math.sqrt` on every perfect square input used below. -/

structure RouteResponse where
  success : Bool
  floor_plan_id : String
  start_node_id : String
  end_node_id : String
  path : List String
  total_distance : ℚ
  estimated_time_seconds : ℤ
  coordinates : List (ℚ × ℚ)
  instructions : List RouteInstruction
  error : Option String
deriving DecidableEq

/-- Python `int()` truncation toward zero of a rational. -/
def pyInt (q : ℚ) : ℤ := q.num.tdiv q.den

/-- Integer square root by upward search, structural in the fuel so that it
reduces inside the kernel. -/
def isqrtGo : ℕ → ℕ → ℕ → ℕ
  | 0, k, _ => k
  | f + 1, k, n => if (k + 1) * (k + 1) ≤ n then isqrtGo f (k + 1) n else k

def isqrt (n : ℕ) : ℕ := isqrtGo n 0 n

/-- Exact square root on rationals whose numerator and denominator are perfect
squares, floor approximation otherwise (never hit by a theorem below). -/
def ratSqrt (q : ℚ) : ℚ :=
  if q ≤ 0 then 0
  else
    let nr := isqrt q.num.toNat
    let dr := isqrt q.den
    if nr * nr = q.num.toNat && dr * dr = q.den then mkRat nr dr
    else mkRat (isqrt (q.num.toNat * q.den)) q.den

/-- Embedding of `PathfindingService.calculate_euclidean_distance`, with the
square root model as parameter. -/
def calculate_euclidean_distance (sqrtFn : ℚ → ℚ) (x1 y1 x2 y2 : ℚ) : ℚ :=
  sqrtFn ((x2 - x1) * (x2 - x1) + (y2 - y1) * (y2 - y1))

/-- The heuristic closure of `calculate_route`: Euclidean distance between the
positions of a node and the goal; a missing entry raises KeyError. -/
def route_heuristic (sqrtFn : ℚ → ℚ) (node_positions : List (String × (ℚ × ℚ)))
    (target : String) (n : String) : Except String ℚ :=
  match pyGet? node_positions n, pyGet? node_positions target with
  | some (x1, y1), some (x2, y2) =>
      .ok (calculate_euclidean_distance sqrtFn x1 y1 x2 y2)
  | _, _ => .error "KeyError: node_positions"

/-- The failure responses of `calculate_route`. -/
def route_failure (floor_plan_id start_node_id end_node_id msg : String) : RouteResponse :=
  ⟨false, floor_plan_id, start_node_id, end_node_id, [], 0, 0, [], [], some msg⟩

/-- Coordinate extraction `[node_positions[n] for n in path]`; a missing entry
raises KeyError. -/
def extract_coordinates (node_positions : List (String × (ℚ × ℚ))) :
    List String → Except String (List (ℚ × ℚ))
  | [] => .ok []
  | n :: rest =>
      match pyGet? node_positions n with
      | none => .error "KeyError: node_positions"
      | some xy =>
          match extract_coordinates node_positions rest with
          | .error e => .error e
          | .ok tl => .ok (xy :: tl)

/-- The body of `calculate_route` inside its `try`: build the graph, check the
endpoints, run A*, assemble the successful response. `none` propagates fuel
exhaustion of the A* loop model. -/
def calculate_route_body (db : DB) (st : CacheState) (sqrtFn : ℚ → ℚ)
    (floor_plan_id start_node_id end_node_id : String)
    (preferences : Option RoutePreferences) (fuel : ℕ) :
    Option (Except String RouteResponse) :=
  match build_graph db st floor_plan_id preferences true with
  | .error e => some (.error e)
  | .ok ((G, node_positions), _) =>
      if ¬ G.contains start_node_id then
        some (.ok (route_failure floor_plan_id start_node_id end_node_id
          "Start node not found in navigation graph"))
      else if ¬ G.contains end_node_id then
        some (.ok (route_failure floor_plan_id start_node_id end_node_id
          "End node not found in navigation graph"))
      else
        let hf := route_heuristic sqrtFn node_positions end_node_id
        match astar_path G start_node_id end_node_id hf fuel with
        | none => none
        | some .noPath =>
            some (.ok (route_failure floor_plan_id start_node_id end_node_id
              "No path found between start and end nodes"))
        | some (.exc m) => some (.error m)
        | some (.found path) =>
            match astar_path_length G start_node_id end_node_id hf fuel with
            | none => none
            | some (.error m) => some (.error m)
            | some (.ok total_distance) =>
                match extract_coordinates node_positions path with
                | .error e => some (.error e)
                | .ok coordinates =>
                    match generate_instructions G path node_positions with
                    | .error e => some (.error e)
                    | .ok instructions =>
                        let estimated_time := pyInt (total_distance / mkRat 7 5)
                        some (.ok ⟨true, floor_plan_id, start_node_id, end_node_id,
                          path, pyRound 2 total_distance, estimated_time, coordinates,
                          instructions, none⟩)

/-- Embedding of `calculate_route`: the body inside `try`, with every raised
exception converted by the `except Exception` handler into a failure response
carrying a human readable error string. -/
def calculate_route (db : DB) (st : CacheState) (sqrtFn : ℚ → ℚ)
    (floor_plan_id start_node_id end_node_id : String)
    (preferences : Option RoutePreferences) (fuel : ℕ) : Option RouteResponse :=
  match calculate_route_body db st sqrtFn floor_plan_id start_node_id end_node_id
      preferences fuel with
  | none => none
  | some (.ok resp) => some resp
  | some (.error e) =>
      some (route_failure floor_plan_id start_node_id end_node_id
        ("Error calculating route: " ++ e))

/-! ## Graph and heap lemmas -/

theorem pyGet?_isSome_of_mem {α β : Type} [DecidableEq α]
    (l : List (α × β)) (k : α) (v : β) (h : (k, v) ∈ l) :
    (pyGet? l k).isSome = true := by
  induction l with
  | nil => cases h
  | cons kv rest ih =>
      obtain ⟨k0, v0⟩ := kv
      rcases List.mem_cons.mp h with h | h
      · cases h
        simp [pyGet?]
      · by_cases hk : k0 = k
        · simp [pyGet?, hk]
        · simp only [pyGet?, if_neg hk]
          exact ih h

theorem pyGet?_getD_isSome {α β : Type} [DecidableEq α]
    (l : List (α × β)) (k : α) (h : (pyGet? l k).isSome = true) :
    ∃ v, pyGet? l k = some v := by
  cases hv : pyGet? l k
  · rw [hv] at h; cases h
  · exact ⟨_, rfl⟩

theorem mem_neighbors_edge (G : Graph) (u v : String) (w : EdgeAttrs)
    (h : (v, w) ∈ G.neighbors u) : (G.edge_data? u v).isSome = true := by
  unfold Graph.neighbors at h
  unfold Graph.edge_data?
  exact pyGet?_isSome_of_mem _ _ _ h

theorem pyGet?_pySet {α β : Type} [DecidableEq α]
    (d : List (α × β)) (k k2 : α) (v : β) :
    pyGet? (pySet d k v) k2 = if k = k2 then some v else pyGet? d k2 := by
  by_cases h : k = k2
  · subst h
    simp [pyGet?_pySet_self]
  · simp [h, pyGet?_pySet_ne d k k2 v h]

theorem contains_ensure_node (G : Graph) (id n : String) :
    (G.ensure_node id).contains n = (G.contains n || decide (n = id)) := by
  unfold Graph.ensure_node Graph.contains pyContains
  simp only
  by_cases h : (pyGet? G.node id).isSome
  · simp only [if_pos h]
    by_cases hn : n = id
    · subst hn
      simp [h]
    · simp [hn]
  · rw [if_neg h, pyGet?_pySet]
    by_cases hn : id = n
    · subst hn
      simp [h]
    · rw [if_neg hn]
      simp [Ne.symm hn]

theorem contains_add_node (G : Graph) (id : String) (a : NodeAttrs) (n : String) :
    (G.add_node id a).contains n = (G.contains n || decide (n = id)) := by
  unfold Graph.add_node Graph.contains pyContains
  simp only
  rw [pyGet?_pySet]
  by_cases hn : id = n
  · subst hn
    simp
  · rw [if_neg hn]
    simp [Ne.symm hn]

theorem contains_add_edge (G : Graph) (u v : String) (a : EdgeAttrs) (n : String) :
    (G.add_edge u v a).contains n =
      (G.contains n || decide (n = u) || decide (n = v)) := by
  have h0 : (G.add_edge u v a).contains n = ((G.ensure_node u).ensure_node v).contains n := rfl
  rw [h0, contains_ensure_node, contains_ensure_node, Bool.or_assoc]

theorem edge_data_ensure_node (G : Graph) (id : String) (u v : String) :
    (G.ensure_node id).edge_data? u v = G.edge_data? u v := by
  unfold Graph.ensure_node Graph.edge_data?
  simp only
  by_cases h : pyContains G.adj id
  · simp [h]
  · simp only [h, Bool.false_eq_true, if_false]
    rw [pyGet?_pySet]
    by_cases hu : id = u
    · subst hu
      rw [if_pos rfl]
      unfold pyContains at h
      cases hadj : pyGet? G.adj id with
      | some l => simp [hadj] at h
      | none => simp [hadj, pyGet?]
    · rw [if_neg hu]

theorem edge_data_add_node (G : Graph) (id : String) (a : NodeAttrs) (u v : String) :
    (G.add_node id a).edge_data? u v = G.edge_data? u v := by
  unfold Graph.add_node Graph.edge_data?
  simp only
  by_cases h : pyContains G.adj id
  · simp [h]
  · simp only [h, Bool.false_eq_true, if_false]
    rw [pyGet?_pySet]
    by_cases hu : id = u
    · subst hu
      rw [if_pos rfl]
      unfold pyContains at h
      cases hadj : pyGet? G.adj id with
      | some l => simp [hadj] at h
      | none => simp [hadj, pyGet?]
    · rw [if_neg hu]

/-- Edge lookup after `add_edge`: the new attribute record on the two added
directions, the old lookup elsewhere. -/
theorem edge_data_add_edge (G : Graph) (a b : String) (w : EdgeAttrs) (u v : String) :
    (G.add_edge a b w).edge_data? u v =
      if u = b ∧ v = a then some w
      else if u = a ∧ v = b then some w
      else G.edge_data? u v := by
  have hens : ∀ x y, pyGet? ((pyGet? ((G.ensure_node a).ensure_node b).adj x).getD []) y =
      pyGet? ((pyGet? G.adj x).getD []) y := by
    intro x y
    have h1 := edge_data_ensure_node (G.ensure_node a) b x y
    have h2 := edge_data_ensure_node G a x y
    unfold Graph.edge_data? at h1 h2
    rw [h1, h2]
  have hgoal : (G.add_edge a b w).edge_data? u v =
      pyGet? ((pyGet?
        (pySet
          (pySet ((G.ensure_node a).ensure_node b).adj a
            (pySet ((pyGet? ((G.ensure_node a).ensure_node b).adj a).getD []) b w))
          b
          (pySet ((pyGet?
            (pySet ((G.ensure_node a).ensure_node b).adj a
              (pySet ((pyGet? ((G.ensure_node a).ensure_node b).adj a).getD []) b w))
            b).getD []) a w))
        u).getD []) v := rfl
  rw [hgoal, pyGet?_pySet]
  by_cases hbu : b = u
  · rw [if_pos hbu]
    simp only [Option.getD_some]
    rw [pyGet?_pySet]
    by_cases hav : a = v
    · rw [if_pos hav, if_pos ⟨hbu.symm, hav.symm⟩]
    · rw [if_neg hav, pyGet?_pySet]
      by_cases hab : a = b
      · rw [if_pos hab]
        simp only [Option.getD_some]
        rw [pyGet?_pySet]
        by_cases hbv : b = v
        · exact absurd (hab.trans hbv) hav
        · rw [if_neg hbv, hens,
            if_neg (fun hh : u = b ∧ v = a => hav hh.2.symm),
            if_neg (fun hh : u = a ∧ v = b => hbv hh.2.symm),
            show a = u from hab.trans hbu]
          rfl
      · rw [if_neg hab, hens,
          if_neg (fun hh : u = b ∧ v = a => hav hh.2.symm),
          if_neg (fun hh : u = a ∧ v = b => hab ((hbu.trans hh.1).symm)),
          show b = u from hbu]
        rfl
  · rw [if_neg hbu, pyGet?_pySet]
    by_cases hau : a = u
    · rw [if_pos hau]
      simp only [Option.getD_some]
      rw [pyGet?_pySet]
      by_cases hbv : b = v
      · rw [if_pos hbv, if_neg (fun hh : u = b ∧ v = a => hbu hh.1.symm),
          if_pos ⟨hau.symm, hbv.symm⟩]
      · rw [if_neg hbv, hens,
          if_neg (fun hh : u = b ∧ v = a => hbu hh.1.symm),
          if_neg (fun hh : u = a ∧ v = b => hbv hh.2.symm),
          show a = u from hau]
        rfl
    · rw [if_neg hau, hens,
        if_neg (fun hh : u = b ∧ v = a => hbu hh.1.symm),
        if_neg (fun hh : u = a ∧ v = b => hau hh.1.symm)]
      rfl

theorem min_entry_mem (e : QEntry) (l : List QEntry) : min_entry e l ∈ e :: l := by
  induction l generalizing e with
  | nil => simp [min_entry]
  | cons x rest ih =>
      simp only [min_entry]
      by_cases h : entry_le e x
      · rw [if_pos h]
        rcases List.mem_cons.mp (ih e) with h2 | h2
        · simp [h2]
        · simp [List.mem_cons_of_mem, h2]
      · rw [if_neg h]
        rcases List.mem_cons.mp (ih x) with h2 | h2
        · simp [h2]
        · simp [List.mem_cons_of_mem, h2]

theorem entry_le_total (a b : QEntry) : entry_le a b = true ∨ entry_le b a = true := by
  unfold entry_le
  rcases lt_trichotomy a.prio b.prio with h | h | h
  · left; simp [h]
  · rcases Nat.le_total a.counter b.counter with h2 | h2
    · left; simp [h, h2]
    · right; simp [h.symm, h2]
  · right; simp [h]

theorem entry_le_trans (a b c : QEntry) (h1 : entry_le a b = true)
    (h2 : entry_le b c = true) : entry_le a c = true := by
  unfold entry_le at *
  simp only [Bool.or_eq_true, Bool.and_eq_true, decide_eq_true_eq] at *
  rcases h1 with h1 | ⟨h1, h1c⟩ <;> rcases h2 with h2 | ⟨h2, h2c⟩
  · left; exact lt_trans h1 h2
  · left; exact h2 ▸ h1
  · left; exact h1 ▸ h2
  · right; exact ⟨h1.trans h2, le_trans h1c h2c⟩

theorem min_entry_le (e : QEntry) (l : List QEntry) :
    ∀ x ∈ e :: l, entry_le (min_entry e l) x = true := by
  induction l generalizing e with
  | nil =>
      intro x hx
      simp only [min_entry]
      rcases List.mem_cons.mp hx with h | h
      · rw [h]
        rcases entry_le_total e e with h2 | h2 <;> exact h2
      · cases h
  | cons y rest ih =>
      intro x hx
      simp only [min_entry]
      by_cases h : entry_le e y
      · rw [if_pos h]
        rcases List.mem_cons.mp hx with hxe | hx2
        · rw [hxe]
          exact ih e e (List.mem_cons_self e rest)
        · rcases List.mem_cons.mp hx2 with hxy | hx3
          · rw [hxy]
            exact entry_le_trans _ _ _ (ih e e (List.mem_cons_self e rest)) h
          · exact ih e x (List.mem_cons_of_mem _ hx3)
      · rw [if_neg h]
        have hye : entry_le y e = true := (entry_le_total e y).resolve_left h
        rcases List.mem_cons.mp hx with hxe | hx2
        · rw [hxe]
          exact entry_le_trans _ _ _ (ih y y (List.mem_cons_self y rest)) hye
        · rcases List.mem_cons.mp hx2 with hxy | hx3
          · rw [hxy]
            exact ih y y (List.mem_cons_self y rest)
          · exact ih y x (List.mem_cons_of_mem _ hx3)

theorem remove_entry_perm (e : QEntry) (l : List QEntry) (h : e ∈ l) :
    l.Perm (e :: remove_entry e l) := by
  induction l with
  | nil => cases h
  | cons x rest ih =>
      by_cases hx : x = e
      · subst hx
        simp [remove_entry]
      · have he : e ∈ rest := by
          rcases List.mem_cons.mp h with h2 | h2
          · exact absurd h2.symm hx
          · exact h2
        simp only [remove_entry, if_neg hx]
        exact (List.Perm.cons x (ih he)).trans (List.Perm.swap e x _)

theorem pop_min_spec (q : List QEntry) (e : QEntry) (q2 : List QEntry)
    (h : pop_min q = some (e, q2)) :
    e ∈ q ∧ q.Perm (e :: q2) ∧ (∀ x ∈ q, entry_le e x = true) := by
  match q with
  | [] => cases h
  | x :: rest =>
      simp only [pop_min, Option.some.injEq, Prod.mk.injEq] at h
      obtain ⟨he, hq2⟩ := h
      have hmem : min_entry x rest ∈ x :: rest := min_entry_mem x rest
      subst he
      refine ⟨hmem, ?_, min_entry_le x rest⟩
      rw [← hq2]
      exact remove_entry_perm _ _ hmem

theorem pop_min_sub (q : List QEntry) (e : QEntry) (q2 : List QEntry)
    (h : pop_min q = some (e, q2)) : ∀ x ∈ q2, x ∈ q := by
  intro x hx
  have hperm := (pop_min_spec q e q2 h).2.1
  exact hperm.symm.subset (List.mem_cons_of_mem _ hx)

/-! ## Builder invariants -/

/-- The node loading phase: a node is in the graph exactly when it has a
recorded position. -/
theorem build_init_contains_iff (rows : List NodeRow) (acc : Graph × List (String × (ℚ × ℚ)))
    (hacc : ∀ n, acc.1.contains n = (pyGet? acc.2 n).isSome) :
    ∀ n, (rows.foldl
      (fun (acc : Graph × List (String × (ℚ × ℚ))) r =>
        (acc.1.add_node r.id ⟨r.x, r.y, r.node_type, r.accessibility_level, r.name⟩,
         pySet acc.2 r.id (r.x, r.y))) acc).1.contains n =
      (pyGet? (rows.foldl
        (fun (acc : Graph × List (String × (ℚ × ℚ))) r =>
          (acc.1.add_node r.id ⟨r.x, r.y, r.node_type, r.accessibility_level, r.name⟩,
           pySet acc.2 r.id (r.x, r.y))) acc).2 n).isSome := by
  induction rows generalizing acc with
  | nil => exact hacc
  | cons r rest ih =>
      simp only [List.foldl_cons]
      refine ih _ ?_
      intro n
      simp only [contains_add_node, hacc n, pyGet?_pySet]
      by_cases h : r.id = n
      · subst h
        simp
      · rw [if_neg h]
        simp [Ne.symm h]

/-- The node loading phase adds no edges. -/
theorem build_init_no_edges (rows : List NodeRow) (acc : Graph × List (String × (ℚ × ℚ)))
    (hacc : ∀ u v, acc.1.edge_data? u v = none) :
    ∀ u v, (rows.foldl
      (fun (acc : Graph × List (String × (ℚ × ℚ))) r =>
        (acc.1.add_node r.id ⟨r.x, r.y, r.node_type, r.accessibility_level, r.name⟩,
         pySet acc.2 r.id (r.x, r.y))) acc).1.edge_data? u v = none := by
  induction rows generalizing acc with
  | nil => exact hacc
  | cons r rest ih =>
      simp only [List.foldl_cons]
      refine ih _ ?_
      intro u v
      rw [edge_data_add_node]
      exact hacc u v

/-- Every edge the builder adds passed the preference filter. -/
theorem build_edges_filtered (prefs : RoutePreferences) (rows : List EdgeRow) (G : Graph)
    (hG : ∀ u v ed, G.edge_data? u v = some ed →
      (prefs.accessible_only = true → ed.accessible = true) ∧
      (prefs.avoid_stairs = true → ed.edge_type ≠ "stairs")) :
    ∀ u v ed, (rows.foldl
      (fun (G : Graph) e =>
        if prefs.accessible_only && !e.accessible then G
        else if prefs.avoid_stairs && decide (e.edge_type = "stairs") then G
        else G.add_edge e.source_node_id e.target_node_id
          ⟨e.weight, e.accessible, e.edge_type⟩) G).edge_data? u v = some ed →
      (prefs.accessible_only = true → ed.accessible = true) ∧
      (prefs.avoid_stairs = true → ed.edge_type ≠ "stairs") := by
  induction rows generalizing G with
  | nil => exact hG
  | cons e rest ih =>
      simp only [List.foldl_cons]
      by_cases h1 : prefs.accessible_only && !e.accessible
      · rw [if_pos h1]
        exact ih G hG
      · rw [if_neg h1]
        by_cases h2 : prefs.avoid_stairs && decide (e.edge_type = "stairs")
        · rw [if_pos h2]
          exact ih G hG
        · rw [if_neg h2]
          refine ih _ ?_
          intro u v ed hed
          rw [edge_data_add_edge] at hed
          simp only [Bool.and_eq_true, Bool.not_eq_true] at h1 h2
          split at hed
          · cases hed
            constructor
            · intro hao
              by_contra hacc
              exact h1 ⟨hao, by simpa using hacc⟩
            · intro has
              intro hstairs
              exact h2 ⟨has, by simpa using hstairs⟩
          · split at hed
            · cases hed
              constructor
              · intro hao
                by_contra hacc
                exact h1 ⟨hao, by simpa using hacc⟩
              · intro has
                intro hstairs
                exact h2 ⟨has, by simpa using hstairs⟩
            · exact hG u v ed hed

/-! ## A* loop invariants

The bundle of structural invariants of the search loop needed for soundness:
queue entries and explored records carry real edges of the graph, their
parents are explored, non source entries are enqueued, and every touched node
is a node of the graph. -/

theorem pyGet?_pySet_isSome_mono {α β : Type} [DecidableEq α]
    (d : List (α × β)) (k n : α) (v : β) (h : (pyGet? d n).isSome = true) :
    (pyGet? (pySet d k v) n).isSome = true := by
  rw [pyGet?_pySet]
  by_cases hk : k = n
  · simp [hk]
  · simp only [if_neg hk]
    exact h

theorem pyGet?_mem {α β : Type} [DecidableEq α] (l : List (α × β)) (k : α) (v : β)
    (h : pyGet? l k = some v) : (k, v) ∈ l := by
  induction l with
  | nil => cases h
  | cons kv rest ih =>
      obtain ⟨k0, v0⟩ := kv
      by_cases hk : k0 = k
      · subst hk
        have h0 : pyGet? ((k0, v0) :: rest) k0 = some v0 := by simp [pyGet?]
        rw [h0] at h
        cases h
        exact List.mem_cons_self _ _
      · simp only [pyGet?, if_neg hk] at h
        exact List.mem_cons_of_mem _ (ih h)

theorem edge_data_mem_neighbors (G : Graph) (u v : String) (w : EdgeAttrs)
    (h : G.edge_data? u v = some w) : (v, w) ∈ G.neighbors u :=
  pyGet?_mem _ _ _ h

structure AstarInv (G : Graph) (source : String) (st : AState) : Prop where
  q_src : ∀ e ∈ st.queue, e.parent = none → e.node = source
  q_edge : ∀ e ∈ st.queue, ∀ p, e.parent = some p → (G.edge_data? p e.node).isSome = true
  q_enq : ∀ e ∈ st.queue, e.parent ≠ none → (pyGet? st.enqueued e.node).isSome = true
  q_par : ∀ e ∈ st.queue, ∀ p, e.parent = some p → (pyGet? st.explored p).isSome = true
  q_inG : ∀ e ∈ st.queue, G.contains e.node = true
  x_src : ∀ n, pyGet? st.explored n = some none → n = source
  x_edge : ∀ n p, pyGet? st.explored n = some (some p) → (G.edge_data? p n).isSome = true
  x_par : ∀ n p, pyGet? st.explored n = some (some p) → (pyGet? st.explored p).isSome = true
  x_enq : ∀ n p, pyGet? st.explored n = some (some p) → (pyGet? st.enqueued n).isSome = true

/-- The neighbor expansion never raises when the heuristic is total on the
graph nodes, and its result extends the queue only with edges out of `cur`,
extends `enqueued` monotonically and leaves `explored` unchanged. -/
theorem expand_neighbors_ok (G : Graph) (cur : String) (dist : ℚ)
    (hf : String → Except String ℚ)
    (hhf : ∀ n, G.contains n = true → ∃ q, hf n = .ok q)
    (hwf : ∀ u v, (G.edge_data? u v).isSome = true →
      G.contains u = true ∧ G.contains v = true) :
    ∀ (nbrs : List (String × EdgeAttrs)) (st : AState),
    (∀ x ∈ nbrs, (G.edge_data? cur x.1).isSome = true) →
    ∃ st2, expand_neighbors hf cur dist nbrs st = .ok st2 ∧
      st2.explored = st.explored ∧
      (∀ n, (pyGet? st.enqueued n).isSome = true → (pyGet? st2.enqueued n).isSome = true) ∧
      (∀ e ∈ st2.queue, e ∈ st.queue ∨
        (e.parent = some cur ∧ (G.edge_data? cur e.node).isSome = true ∧
         (pyGet? st2.enqueued e.node).isSome = true ∧ G.contains e.node = true)) := by
  intro nbrs
  induction nbrs with
  | nil =>
      intro st _
      exact ⟨st, rfl, rfl, fun n h => h, fun e he => Or.inl he⟩
  | cons nb rest ih =>
      intro st hnbrs
      obtain ⟨nbid, w⟩ := nb
      have hedge : (G.edge_data? cur nbid).isSome = true :=
        hnbrs (nbid, w) (List.mem_cons_self _ _)
      have hrest : ∀ x ∈ rest, (G.edge_data? cur x.1).isSome = true :=
        fun x hx => hnbrs x (List.mem_cons_of_mem _ hx)
      have hinG : G.contains nbid = true := (hwf cur nbid hedge).2
      simp only [expand_neighbors]
      match henq : pyGet? st.enqueued nbid with
      | some (qcost, h) =>
          simp only [henq]
          by_cases hle : qcost ≤ dist + w.weight
          · rw [if_pos hle]
            exact ih st hrest
          · rw [if_neg hle]
            obtain ⟨st2, hst2, hexp, hmono, hq⟩ := ih
              ⟨st.queue ++ [⟨dist + w.weight + h, st.counter, nbid, dist + w.weight, some cur⟩],
               pySet st.enqueued nbid (dist + w.weight, h), st.explored, st.counter + 1⟩
              hrest
            refine ⟨st2, hst2, hexp, ?_, ?_⟩
            · intro n hn
              exact hmono n (pyGet?_pySet_isSome_mono _ _ _ _ hn)
            · intro e he
              rcases hq e he with hq1 | hq2
              · rcases List.mem_append.mp hq1 with h1 | h1
                · exact Or.inl h1
                · simp only [List.mem_singleton] at h1
                  subst h1
                  refine Or.inr ⟨rfl, hedge, ?_, hinG⟩
                  refine hmono _ ?_
                  rw [pyGet?_pySet_self]
                  rfl
              · exact Or.inr hq2
      | none =>
          simp only [henq]
          obtain ⟨hq, hfq⟩ := hhf nbid hinG
          simp only [hfq]
          obtain ⟨st2, hst2, hexp, hmono, hq2⟩ := ih
            ⟨st.queue ++ [⟨dist + w.weight + hq, st.counter, nbid, dist + w.weight, some cur⟩],
             pySet st.enqueued nbid (dist + w.weight, hq), st.explored, st.counter + 1⟩
            hrest
          refine ⟨st2, hst2, hexp, ?_, ?_⟩
          · intro n hn
            exact hmono n (pyGet?_pySet_isSome_mono _ _ _ _ hn)
          · intro e he
            rcases hq2 e he with hq1 | hq3
            · rcases List.mem_append.mp hq1 with h1 | h1
              · exact Or.inl h1
              · simp only [List.mem_singleton] at h1
                subst h1
                refine Or.inr ⟨rfl, hedge, ?_, hinG⟩
                refine hmono _ ?_
                rw [pyGet?_pySet_self]
                rfl
            · exact Or.inr hq3

/-- Path reconstruction yields a real path of the graph from the source to the
node it started from. -/
theorem reconstruct_valid (G : Graph) (source : String)
    (explored : List (String × Option String))
    (hx_src : ∀ n, pyGet? explored n = some none → n = source)
    (hx_edge : ∀ n p, pyGet? explored n = some (some p) →
      (G.edge_data? p n).isSome = true)
    (hx_par : ∀ n p, pyGet? explored n = some (some p) →
      (pyGet? explored p).isSome = true) :
    ∀ (fuel : ℕ) (par : Option String) (acc : List String) (r : AResult),
    reconstruct explored fuel par acc = some r →
    acc ≠ [] →
    chain_edges_ok G acc = true →
    (∀ p, par = some p → (G.edge_data? p (acc.headD "")).isSome = true ∧
      (pyGet? explored p).isSome = true) →
    (par = none → acc.headD "" = source) →
    ∃ L, r = .found L ∧ L.head? = some source ∧ L.getLast? = acc.getLast? ∧
      chain_edges_ok G L = true := by
  intro fuel
  induction fuel with
  | zero =>
      intro par acc r hrec hne hchain hpar hnone
      match par, hrec with
      | none, hrec =>
          simp only [reconstruct, Option.some.injEq] at hrec
          subst hrec
          refine ⟨acc, rfl, ?_, rfl, hchain⟩
          match acc, hne with
          | a :: t, _ =>
              have := hnone rfl
              simp only [List.headD_cons] at this
              simp [this]
  | succ fuel ih =>
      intro par acc r hrec hne hchain hpar hnone
      match par with
      | none =>
          simp only [reconstruct, Option.some.injEq] at hrec
          subst hrec
          refine ⟨acc, rfl, ?_, rfl, hchain⟩
          match acc, hne with
          | a :: t, _ =>
              have := hnone rfl
              simp only [List.headD_cons] at this
              simp [this]
      | some nd =>
          simp only [reconstruct] at hrec
          obtain ⟨hed, hexp⟩ := hpar nd rfl
          obtain ⟨par2, hpar2⟩ := pyGet?_getD_isSome _ _ hexp
          rw [hpar2] at hrec
          match acc, hne with
          | a :: t, _ =>
              have hchain2 : chain_edges_ok G (nd :: a :: t) = true := by
                simp only [chain_edges_ok, Bool.and_eq_true]
                refine ⟨?_, hchain⟩
                simpa using hed
              have hres := ih par2 (nd :: a :: t) r hrec (by simp) hchain2 ?_ ?_
              · obtain ⟨L, hL, hhead, hlast, hch⟩ := hres
                refine ⟨L, hL, hhead, ?_, hch⟩
                rw [hlast]
                rfl
              · intro p hp
                subst hp
                constructor
                · simpa using hx_edge nd p hpar2
                · exact hx_par nd p hpar2
              · intro hp
                subst hp
                have := hx_src nd hpar2
                simp [this]
          | [], hne2 => exact absurd rfl hne2

/-- Restricting the queue preserves the invariant. -/
theorem astar_inv_restrict (G : Graph) (source : String) (st : AState)
    (q2 : List QEntry) (hsub : ∀ x ∈ q2, x ∈ st.queue) (hinv : AstarInv G source st) :
    AstarInv G source ⟨q2, st.enqueued, st.explored, st.counter⟩ := by
  refine ⟨?_, ?_, ?_, ?_, ?_, hinv.x_src, hinv.x_edge, hinv.x_par, hinv.x_enq⟩
  · exact fun e he => hinv.q_src e (hsub e he)
  · exact fun e he => hinv.q_edge e (hsub e he)
  · exact fun e he => hinv.q_enq e (hsub e he)
  · exact fun e he => hinv.q_par e (hsub e he)
  · exact fun e he => hinv.q_inG e (hsub e he)

/-- Soundness of the search loop: under the invariant, a terminating run
returns either the no path signal or a real path of the graph from the source
to the target; it never raises. -/
theorem astar_loop_sound (G : Graph) (source target : String)
    (hf : String → Except String ℚ)
    (hhf : ∀ n, G.contains n = true → ∃ q, hf n = .ok q)
    (hwf : ∀ u v, (G.edge_data? u v).isSome = true →
      G.contains u = true ∧ G.contains v = true) :
    ∀ (fuel : ℕ) (st : AState), AstarInv G source st →
    ∀ r, astar_loop G target hf fuel st = some r →
      r = .noPath ∨
      ∃ L, r = .found L ∧ L.head? = some source ∧ L.getLast? = some target ∧
        chain_edges_ok G L = true := by
  intro fuel
  induction fuel with
  | zero =>
      intro st hinv r hr
      cases hr
  | succ fuel ih =>
      intro st hinv r hr
      simp only [astar_loop] at hr
      match hpop : pop_min st.queue with
      | none =>
          simp only [hpop] at hr
          exact Or.inl (Option.some.inj hr).symm
      | some (e, q2) =>
          simp only [hpop] at hr
          obtain ⟨hmem, hperm, hminle⟩ := pop_min_spec _ _ _ hpop
          have hsub : ∀ x ∈ q2, x ∈ st.queue := pop_min_sub _ _ _ hpop
          by_cases htgt : e.node = target
          · rw [if_pos htgt] at hr
            have hrv := reconstruct_valid G source st.explored hinv.x_src hinv.x_edge
              hinv.x_par (fuel + 1) e.parent [e.node] r hr (by simp)
              (by simp [chain_edges_ok])
              (by
                intro p hp
                exact ⟨by simpa using hinv.q_edge e hmem p hp, hinv.q_par e hmem p hp⟩)
              (by
                intro hp
                simpa using hinv.q_src e hmem hp)
            obtain ⟨L, hL, hhead, hlast, hch⟩ := hrv
            refine Or.inr ⟨L, hL, hhead, ?_, hch⟩
            rw [hlast]
            simp [htgt]
          · rw [if_neg htgt] at hr
            have hstep : ∀ st2 : AState,
                st2.explored = pySet st.explored e.node e.parent →
                (∀ n, (pyGet? st.enqueued n).isSome = true →
                  (pyGet? st2.enqueued n).isSome = true) →
                (∀ e2 ∈ st2.queue, e2 ∈ q2 ∨
                  (e2.parent = some e.node ∧
                   (G.edge_data? e.node e2.node).isSome = true ∧
                   (pyGet? st2.enqueued e2.node).isSome = true ∧
                   G.contains e2.node = true)) →
                AstarInv G source st2 := by
              intro st2 hexp hmono hq
              refine ⟨?_, ?_, ?_, ?_, ?_, ?_, ?_, ?_, ?_⟩
              · intro e2 he2 hpar
                rcases hq e2 he2 with h2 | h2
                · exact hinv.q_src e2 (hsub e2 h2) hpar
                · rw [h2.1] at hpar
                  exact Option.noConfusion hpar
              · intro e2 he2 p hp
                rcases hq e2 he2 with h2 | h2
                · exact hinv.q_edge e2 (hsub e2 h2) p hp
                · have hpe : p = e.node := Option.some.inj (hp.symm.trans h2.1)
                  subst hpe
                  exact h2.2.1
              · intro e2 he2 hpar
                rcases hq e2 he2 with h2 | h2
                · exact hmono _ (hinv.q_enq e2 (hsub e2 h2) hpar)
                · exact h2.2.2.1
              · intro e2 he2 p hp
                rw [hexp]
                rcases hq e2 he2 with h2 | h2
                · exact pyGet?_pySet_isSome_mono _ _ _ _
                    (hinv.q_par e2 (hsub e2 h2) p hp)
                · have hpe : p = e.node := Option.some.inj (hp.symm.trans h2.1)
                  subst hpe
                  rw [pyGet?_pySet_self]
                  rfl
              · intro e2 he2
                rcases hq e2 he2 with h2 | h2
                · exact hinv.q_inG e2 (hsub e2 h2)
                · exact h2.2.2.2
              · intro n hn
                rw [hexp, pyGet?_pySet] at hn
                by_cases hne : e.node = n
                · rw [if_pos hne] at hn
                  rw [← hne]
                  exact hinv.q_src e hmem (Option.some.inj hn)
                · rw [if_neg hne] at hn
                  exact hinv.x_src n hn
              · intro n p hn
                rw [hexp, pyGet?_pySet] at hn
                by_cases hne : e.node = n
                · rw [if_pos hne] at hn
                  rw [← hne]
                  exact hinv.q_edge e hmem p (Option.some.inj hn)
                · rw [if_neg hne] at hn
                  exact hinv.x_edge n p hn
              · intro n p hn
                rw [hexp] at hn ⊢
                rw [pyGet?_pySet] at hn
                by_cases hne : e.node = n
                · rw [if_pos hne] at hn
                  exact pyGet?_pySet_isSome_mono _ _ _ _
                    (hinv.q_par e hmem p (Option.some.inj hn))
                · rw [if_neg hne] at hn
                  exact pyGet?_pySet_isSome_mono _ _ _ _ (hinv.x_par n p hn)
              · intro n p hn
                rw [hexp, pyGet?_pySet] at hn
                by_cases hne : e.node = n
                · rw [if_pos hne] at hn
                  rw [← hne]
                  refine hmono _ (hinv.q_enq e hmem ?_)
                  rw [Option.some.inj hn]
                  intro hc
                  exact Option.noConfusion hc
                · rw [if_neg hne] at hn
                  exact hmono _ (hinv.x_enq n p hn)
            match hexpl : pyGet? st.explored e.node with
            | some none =>
                simp only [hexpl] at hr
                exact ih ⟨q2, st.enqueued, st.explored, st.counter⟩
                  (astar_inv_restrict G source st q2 hsub hinv) r hr
            | some (some p) =>
                simp only [hexpl] at hr
                match henq2 : pyGet? st.enqueued e.node with
                | none =>
                    have hen := hinv.x_enq e.node p hexpl
                    rw [henq2] at hen
                    exact absurd hen (by simp)
                | some (qc, hh) =>
                    simp only [henq2] at hr
                    by_cases hlt : qc < e.dist
                    · rw [if_pos hlt] at hr
                      exact ih ⟨q2, st.enqueued, st.explored, st.counter⟩
                        (astar_inv_restrict G source st q2 hsub hinv) r hr
                    · rw [if_neg hlt] at hr
                      obtain ⟨st2, hok, hexp, hmono, hq⟩ :=
                        expand_neighbors_ok G e.node e.dist hf hhf hwf
                          (G.neighbors e.node)
                          ⟨q2, st.enqueued, pySet st.explored e.node e.parent,
                            st.counter⟩
                          (fun x hx => mem_neighbors_edge G e.node x.1 x.2 hx)
                      rw [hok] at hr
                      exact ih st2 (hstep st2 hexp hmono hq) r hr
            | none =>
                simp only [hexpl] at hr
                obtain ⟨st2, hok, hexp, hmono, hq⟩ :=
                  expand_neighbors_ok G e.node e.dist hf hhf hwf
                    (G.neighbors e.node)
                    ⟨q2, st.enqueued, pySet st.explored e.node e.parent, st.counter⟩
                    (fun x hx => mem_neighbors_edge G e.node x.1 x.2 hx)
                rw [hok] at hr
                exact ih st2 (hstep st2 hexp hmono hq) r hr

/-- Soundness of `astar_path`: a terminating run with a total heuristic on a
graph whose edges join contained nodes returns the no path signal or a path of
the graph from the source to the target; it never raises once both endpoints
pass the initial node check. -/
theorem astar_path_sound (G : Graph) (source target : String)
    (hf : String → Except String ℚ)
    (hhf : ∀ n, G.contains n = true → ∃ q, hf n = .ok q)
    (hwf : ∀ u v, (G.edge_data? u v).isSome = true →
      G.contains u = true ∧ G.contains v = true)
    (hs : G.contains source = true) (ht : G.contains target = true)
    (fuel : ℕ) (r : AResult) (hr : astar_path G source target hf fuel = some r) :
    r = .noPath ∨
    ∃ L, r = .found L ∧ L.head? = some source ∧ L.getLast? = some target ∧
      chain_edges_ok G L = true := by
  unfold astar_path at hr
  rw [hs, ht] at hr
  simp only [Bool.and_self, if_true] at hr
  refine astar_loop_sound G source target hf hhf hwf fuel _ ?_ r hr
  refine ⟨?_, ?_, ?_, ?_, ?_, ?_, ?_, ?_, ?_⟩
  · intro e he _
    rcases List.mem_singleton.mp he with rfl
    rfl
  · intro e he p hp
    rcases List.mem_singleton.mp he with rfl
    exact Option.noConfusion hp
  · intro e he hpar
    rcases List.mem_singleton.mp he with rfl
    exact absurd rfl hpar
  · intro e he p hp
    rcases List.mem_singleton.mp he with rfl
    exact Option.noConfusion hp
  · intro e he
    rcases List.mem_singleton.mp he with rfl
    exact hs
  · intro n hn
    exact Option.noConfusion hn
  · intro n p hn
    exact Option.noConfusion hn
  · intro n p hn
    exact Option.noConfusion hn
  · intro n p hn
    exact Option.noConfusion hn

/-- A `contains` node is a member of the node dict. -/
theorem contains_mem_node (G : Graph) (n : String) (h : G.contains n = true) :
    ∃ a, (n, a) ∈ G.node := by
  obtain ⟨a, ha⟩ := pyGet?_getD_isSome _ _ h
  exact ⟨a, pyGet?_mem _ _ _ ha⟩

/-- An existing edge lookup exhibits adjacency dict memberships. -/
theorem edge_isSome_adj_mem (G : Graph) (u v : String)
    (h : (G.edge_data? u v).isSome = true) :
    ∃ l w, (u, l) ∈ G.adj ∧ (v, w) ∈ l := by
  unfold Graph.edge_data? at h
  cases hadju : pyGet? G.adj u with
  | none =>
      rw [hadju] at h
      simp [pyGet?] at h
  | some l =>
      rw [hadju] at h
      obtain ⟨w, hw⟩ := pyGet?_getD_isSome _ _ h
      exact ⟨l, w, pyGet?_mem _ _ _ hadju, pyGet?_mem _ _ _ hw⟩

/-- The heuristic closure is total when both the node and the target have
recorded positions. -/
theorem route_heuristic_total (sqrtFn : ℚ → ℚ)
    (pos : List (String × (ℚ × ℚ))) (t n : String)
    (ht2 : (pyGet? pos t).isSome = true) (hn2 : (pyGet? pos n).isSome = true) :
    ∃ q, route_heuristic sqrtFn pos t n = .ok q := by
  obtain ⟨⟨x1, y1⟩, h1⟩ := pyGet?_getD_isSome _ _ hn2
  obtain ⟨⟨x2, y2⟩, h2⟩ := pyGet?_getD_isSome _ _ ht2
  refine ⟨calculate_euclidean_distance sqrtFn x1 y1 x2 y2, ?_⟩
  unfold route_heuristic
  rw [h1, h2]

/-- A chain of edges starting inside a neighbor closed node set stays inside
it: the certificate that a cut witnesses disconnection. -/
theorem chain_stays_in (G : Graph) (S : List String)
    (hclos : ∀ u ∈ S, ∀ x ∈ G.neighbors u, x.1 ∈ S) :
    ∀ L : List String, chain_edges_ok G L = true →
    ∀ a, L.head? = some a → a ∈ S → ∀ b, L.getLast? = some b → b ∈ S := by
  intro L
  induction L with
  | nil =>
      intro _ a ha
      cases ha
  | cons x rest ih =>
      intro hch a ha haS b hb
      have hax : x = a := Option.some.inj ha
      subst hax
      cases rest with
      | nil =>
          have hbx : x = b := Option.some.inj hb
          rw [← hbx]
          exact haS
      | cons y rest2 =>
          have hch2 : (G.edge_data? x y).isSome = true ∧
              chain_edges_ok G (y :: rest2) = true := by
            simpa [chain_edges_ok] using hch
          obtain ⟨w, hw⟩ := Option.isSome_iff_exists.mp hch2.1
          have hyS : y ∈ S := hclos x haS (y, w) (edge_data_mem_neighbors G x y w hw)
          rw [List.getLast?_cons_cons] at hb
          exact ih hch2.2 y rfl hyS b hb

/-- C4: `calculate_route` turns missing endpoints and disconnection into
structured failure responses, never into an exception: with the graph built,
a missing start node yields the start not found response and a missing end
node the end not found response; and when both endpoints exist but a neighbor
closed node set separates the start from the end (on a graph whose adjacency
lists name graph nodes and whose nodes all have positions), every terminating
run returns exactly the no path response. -/
theorem C4_structured_failures (db : DB) (st : CacheState) (sqrtFn : ℚ → ℚ)
    (fpid s t : String) (prefs : Option RoutePreferences) (fuel : ℕ)
    (G : Graph) (pos : List (String × (ℚ × ℚ))) (st2 : CacheState)
    (hbg : build_graph db st fpid prefs true = .ok ((G, pos), st2)) :
    (G.contains s = false →
      calculate_route db st sqrtFn fpid s t prefs fuel =
        some (route_failure fpid s t "Start node not found in navigation graph")) ∧
    (G.contains s = true → G.contains t = false →
      calculate_route db st sqrtFn fpid s t prefs fuel =
        some (route_failure fpid s t "End node not found in navigation graph")) ∧
    (∀ S : List String, G.contains s = true → G.contains t = true →
      s ∈ S → t ∉ S →
      (∀ u ∈ S, ∀ x ∈ G.neighbors u, x.1 ∈ S) →
      (∀ x ∈ G.adj, G.contains x.1 = true ∧ ∀ y ∈ x.2, G.contains y.1 = true) →
      (∀ x ∈ G.node, (pyGet? pos x.1).isSome = true) →
      ∀ r, calculate_route db st sqrtFn fpid s t prefs fuel = some r →
        r = route_failure fpid s t "No path found between start and end nodes") := by
  refine ⟨?_, ?_, ?_⟩
  · intro hcs
    unfold calculate_route calculate_route_body
    rw [hbg]
    simp [hcs]
  · intro hcs hct
    unfold calculate_route calculate_route_body
    rw [hbg]
    simp [hcs, hct]
  · intro S hs ht hsS htS hclos hadj hpos r hr
    have hwf : ∀ u v, (G.edge_data? u v).isSome = true →
        G.contains u = true ∧ G.contains v = true := by
      intro u v h
      obtain ⟨l, w, hul, hvw⟩ := edge_isSome_adj_mem G u v h
      exact ⟨(hadj (u, l) hul).1, (hadj (u, l) hul).2 (v, w) hvw⟩
    have hhf : ∀ n, G.contains n = true →
        ∃ q, route_heuristic sqrtFn pos t n = .ok q := by
      intro n hn
      obtain ⟨a, ha⟩ := contains_mem_node G n hn
      obtain ⟨b, hb⟩ := contains_mem_node G t ht
      exact route_heuristic_total sqrtFn pos t n (hpos (t, b) hb) (hpos (n, a) ha)
    match hast : astar_path G s t (route_heuristic sqrtFn pos t) fuel with
    | none =>
        unfold calculate_route calculate_route_body at hr
        rw [hbg] at hr
        simp [hs, ht, hast] at hr
    | some res =>
        rcases astar_path_sound G s t (route_heuristic sqrtFn pos t) hhf hwf hs ht
            fuel res hast with hnp | ⟨L, hL, hhead, hlast, hch⟩
        · subst hnp
          unfold calculate_route calculate_route_body at hr
          rw [hbg] at hr
          simp [hs, ht, hast] at hr
          exact hr.symm
        · exact absurd (chain_stays_in G S hclos L hch s hhead hsS t hlast) htS

/-- The disconnected example floor plan for C4: two components `A — B` and
`C — D`. -/
def ex4db : DB :=
  ⟨[⟨"A", "fp1", 0, 0, "waypoint", none, "full"⟩,
    ⟨"B", "fp1", 3, 4, "waypoint", none, "full"⟩,
    ⟨"C", "fp1", 10, 0, "waypoint", none, "full"⟩,
    ⟨"D", "fp1", 10, 5, "waypoint", none, "full"⟩],
   [⟨"fp1", "A", "B", 5, true, "walkway"⟩,
    ⟨"fp1", "C", "D", 5, true, "walkway"⟩]⟩

def ex4st : CacheState := ⟨false, none⟩

def ex4G : Graph := (build_graph_pure ex4db "fp1" {}).1

def ex4pos : List (String × (ℚ × ℚ)) := (build_graph_pure ex4db "fp1" {}).2

/-- Witness for C4 on the concrete two component floor plan. -/
theorem C4_structured_failures_witness :
    calculate_route ex4db ex4st ratSqrt "fp1" "X" "A" none 20 =
      some (route_failure "fp1" "X" "A" "Start node not found in navigation graph") ∧
    calculate_route ex4db ex4st ratSqrt "fp1" "A" "Y" none 20 =
      some (route_failure "fp1" "A" "Y" "End node not found in navigation graph") ∧
    calculate_route ex4db ex4st ratSqrt "fp1" "A" "C" none 20 =
      some (route_failure "fp1" "A" "C" "No path found between start and end nodes") := by
  refine ⟨?_, ?_, ?_⟩
  · exact (C4_structured_failures ex4db ex4st ratSqrt "fp1" "X" "A" none 20
      ex4G ex4pos ex4st rfl).1 (by decide)
  · exact (C4_structured_failures ex4db ex4st ratSqrt "fp1" "A" "Y" none 20
      ex4G ex4pos ex4st rfl).2.1 (by decide) (by decide)
  · have hr : calculate_route ex4db ex4st ratSqrt "fp1" "A" "C" none 20 =
        some (route_failure "fp1" "A" "C" "No path found between start and end nodes") := by
      decide
    have h := (C4_structured_failures ex4db ex4st ratSqrt "fp1" "A" "C" none 20
      ex4G ex4pos ex4st rfl).2.2 ["A", "B"] (by decide) (by decide) (by decide)
      (by decide) (by decide) (by decide) (by decide) _ hr
    exact hr

/-- Every edge of a freshly built graph passed the preference filter. -/
theorem build_graph_pure_filtered (db : DB) (fpid : String) (prefs : RoutePreferences) :
    ∀ u v ed, (build_graph_pure db fpid prefs).1.edge_data? u v = some ed →
      (prefs.accessible_only = true → ed.accessible = true) ∧
      (prefs.avoid_stairs = true → ed.edge_type ≠ "stairs") := by
  intro u v ed h
  simp only [build_graph_pure] at h
  refine build_edges_filtered prefs _ _ ?_ u v ed h
  intro u2 v2 ed2 h2
  rw [build_init_no_edges (db.nodes.filter (fun n => n.floor_plan_id = fpid))
    (Graph.empty, []) (fun u v => rfl) u2 v2] at h2
  exact Option.noConfusion h2

/-- Consecutive entries of a valid chain are joined by an edge. -/
theorem chain_consec (G : Graph) :
    ∀ L : List String, chain_edges_ok G L = true →
    ∀ i u v, L[i]? = some u → L[i + 1]? = some v →
      (G.edge_data? u v).isSome = true := by
  intro L
  induction L with
  | nil =>
      intro _ i u v hu
      cases hu
  | cons x rest ih =>
      intro hch i u v hu hv
      cases rest with
      | nil =>
          cases i with
          | zero => cases hv
          | succ j => cases hu
      | cons y rest2 =>
          have hch2 : (G.edge_data? x y).isSome = true ∧
              chain_edges_ok G (y :: rest2) = true := by
            simpa [chain_edges_ok] using hch
          cases i with
          | zero =>
              rw [List.getElem?_cons_zero] at hu
              rw [List.getElem?_cons_succ, List.getElem?_cons_zero] at hv
              have hux : x = u := Option.some.inj hu
              have hvy : y = v := Option.some.inj hv
              rw [← hux, ← hvy]
              exact hch2.1
          | succ j =>
              rw [List.getElem?_cons_succ] at hu hv
              exact ih hch2.2 j u v hu hv

/-- A successful run of the step loop certifies that every consecutive pair of
the path is an edge. -/
theorem gen_steps_chain (G : Graph) :
    ∀ (rest : List String) (cur : String) (cum : ℚ) (n : ℕ)
      (out : List RouteInstruction × ℚ),
    gen_steps G cur rest cum n = .ok out → chain_edges_ok G (cur :: rest) = true := by
  intro rest
  induction rest with
  | nil =>
      intro cur cum n out _
      rfl
  | cons nxt rest2 ih =>
      intro cur cum n out hok
      simp only [gen_steps] at hok
      match hedge : G.edge_data? cur nxt with
      | none =>
          rw [hedge] at hok
          exact Except.noConfusion hok
      | some ed =>
          simp only [hedge] at hok
          match hrec : gen_steps G nxt rest2 (cum + ed.weight) (n + 1) with
          | .error e =>
              rw [hrec] at hok
              exact Except.noConfusion hok
          | .ok (tail, fin) =>
              simp only [chain_edges_ok, Bool.and_eq_true]
              exact ⟨by rw [hedge]; rfl, ih nxt (cum + ed.weight) (n + 1) (tail, fin) hrec⟩

/-- A successful instruction generation certifies the whole path is a chain of
edges. -/
theorem generate_instructions_chain (G : Graph) (path : List String)
    (pos : List (String × (ℚ × ℚ))) (instr : List RouteInstruction)
    (h : generate_instructions G path pos = .ok instr) :
    chain_edges_ok G path = true := by
  match path with
  | [] =>
      simp only [generate_instructions] at h
      exact Except.noConfusion h
  | p0 :: rest =>
      simp only [generate_instructions] at h
      match hg : gen_steps G p0 rest 0 2 with
      | .error e =>
          rw [hg] at h
          exact Except.noConfusion h
      | .ok (mids, total) =>
          exact gen_steps_chain G rest p0 0 2 (mids, total) hg

/-- On an unavailable cache, `build_graph` reduces to the pure build and
leaves the cache untouched. -/
theorem build_graph_uncached (db : DB) (st : CacheState) (fpid : String)
    (prefs : RoutePreferences) (hun : cache_is_available st = false) :
    build_graph db st fpid (some prefs) true =
      .ok (build_graph_pure db fpid prefs, st) := by
  unfold build_graph cache_get_graph cache_get cache_set_graph cache_set
  simp [hun]

/-- C3: with `accessible_only` the built graph has no inaccessible edge and
with `avoid_stairs` no stairs edge (every stored edge satisfies the requested
filters), and consequently every pair of consecutive nodes of the path of a
successful route is joined by a graph edge satisfying those filters. -/
theorem C3_preference_filters :
    (∀ (db : DB) (fpid : String) (prefs : RoutePreferences) (u v : String)
      (ed : EdgeAttrs),
      (build_graph_pure db fpid prefs).1.edge_data? u v = some ed →
      (prefs.accessible_only = true → ed.accessible = true) ∧
      (prefs.avoid_stairs = true → ed.edge_type ≠ "stairs")) ∧
    (∀ (db : DB) (st : CacheState) (sqrtFn : ℚ → ℚ) (fpid s t : String)
      (prefs : RoutePreferences) (fuel : ℕ) (r : RouteResponse),
      cache_is_available st = false →
      calculate_route db st sqrtFn fpid s t (some prefs) fuel = some r →
      r.success = true →
      ∀ i u v, r.path[i]? = some u → r.path[i + 1]? = some v →
        ∃ ed, (build_graph_pure db fpid prefs).1.edge_data? u v = some ed ∧
          (prefs.accessible_only = true → ed.accessible = true) ∧
          (prefs.avoid_stairs = true → ed.edge_type ≠ "stairs")) := by
  constructor
  · exact build_graph_pure_filtered
  · intro db st sqrtFn fpid s t prefs fuel r hun hr hsucc i u v hu hv
    have hbG := build_graph_uncached db st fpid prefs hun
    unfold calculate_route calculate_route_body at hr
    rw [hbG] at hr
    by_cases hcs : (build_graph_pure db fpid prefs).1.contains s = true
    case neg =>
      simp only [hcs] at hr
      simp at hr
      rw [← hr] at hsucc
      simp [route_failure] at hsucc
    case pos =>
    by_cases hct : (build_graph_pure db fpid prefs).1.contains t = true
    case neg =>
      simp [hcs, hct] at hr
      rw [← hr] at hsucc
      simp [route_failure] at hsucc
    case pos =>
    simp only [hcs, hct, not_true_eq_false, Bool.false_eq_true, if_false] at hr
    match hast : astar_path (build_graph_pure db fpid prefs).1 s t
        (route_heuristic sqrtFn (build_graph_pure db fpid prefs).2 t) fuel with
    | none =>
        simp only [hast] at hr
        exact Option.noConfusion hr
    | some .noPath =>
        simp only [hast] at hr
        have hre := Option.some.inj hr
        rw [← hre] at hsucc
        simp [route_failure] at hsucc
    | some (.exc m) =>
        simp only [hast] at hr
        have hre := Option.some.inj hr
        rw [← hre] at hsucc
        simp [route_failure] at hsucc
    | some (.found L) =>
        simp only [hast] at hr
        match hlen : astar_path_length (build_graph_pure db fpid prefs).1 s t
            (route_heuristic sqrtFn (build_graph_pure db fpid prefs).2 t) fuel with
        | none =>
            simp only [hlen] at hr
            exact Option.noConfusion hr
        | some (.error m) =>
            simp only [hlen] at hr
            have hre := Option.some.inj hr
            rw [← hre] at hsucc
            simp [route_failure] at hsucc
        | some (.ok td) =>
            simp only [hlen] at hr
            match hext : extract_coordinates (build_graph_pure db fpid prefs).2 L with
            | .error m =>
                simp only [hext] at hr
                have hre := Option.some.inj hr
                rw [← hre] at hsucc
                simp [route_failure] at hsucc
            | .ok coords =>
                simp only [hext] at hr
                match hinstr : generate_instructions (build_graph_pure db fpid prefs).1
                    L (build_graph_pure db fpid prefs).2 with
                | .error m =>
                    simp only [hinstr] at hr
                    have hre := Option.some.inj hr
                    rw [← hre] at hsucc
                    simp [route_failure] at hsucc
                | .ok instr =>
                    simp only [hinstr] at hr
                    have hre := Option.some.inj hr
                    have hrL : r.path = L := by
                      rw [← hre]
                    rw [hrL] at hu hv
                    have hchain := generate_instructions_chain _ L _ instr hinstr
                    have hedge := chain_consec _ L hchain i u v hu hv
                    obtain ⟨ed, hed⟩ := Option.isSome_iff_exists.mp hedge
                    exact ⟨ed, hed, build_graph_pure_filtered db fpid prefs u v ed hed⟩

/-- The example floor plan for C3: a stairs edge and an inaccessible edge both
filtered out, a direct accessible walkway kept. -/
def ex3db : DB :=
  ⟨[⟨"A", "fp1", 0, 0, "waypoint", none, "full"⟩,
    ⟨"B", "fp1", 3, 4, "waypoint", none, "full"⟩,
    ⟨"C", "fp1", 6, 8, "waypoint", none, "full"⟩],
   [⟨"fp1", "A", "B", 5, true, "stairs"⟩,
    ⟨"fp1", "B", "C", 5, false, "walkway"⟩,
    ⟨"fp1", "A", "C", 10, true, "walkway"⟩]⟩

def ex3prefs : RoutePreferences := ⟨true, true, true⟩

def ex3resp : RouteResponse :=
  ⟨true, "fp1", "A", "C", ["A", "C"], 10, 7, [(0, 0), (6, 8)],
   [⟨1, "Start at Start location", 0⟩,
    ⟨2, "Walk straight for 10.0 units", 10⟩,
    ⟨3, "Arrive at destination", 10⟩], none⟩

/-- Witness for C3 on the concrete filtered floor plan. -/
theorem C3_preference_filters_witness :
    ((ex3prefs.accessible_only = true →
        (⟨10, true, "walkway"⟩ : EdgeAttrs).accessible = true) ∧
     (ex3prefs.avoid_stairs = true →
        (⟨10, true, "walkway"⟩ : EdgeAttrs).edge_type ≠ "stairs")) ∧
    (∃ ed, (build_graph_pure ex3db "fp1" ex3prefs).1.edge_data? "A" "C" = some ed ∧
      (ex3prefs.accessible_only = true → ed.accessible = true) ∧
      (ex3prefs.avoid_stairs = true → ed.edge_type ≠ "stairs")) := by
  constructor
  · exact C3_preference_filters.1 ex3db "fp1" ex3prefs "A" "C"
      ⟨10, true, "walkway"⟩ (by decide)
  · exact C3_preference_filters.2 ex3db ex4st ratSqrt "fp1" "A" "C" ex3prefs 20
      ex3resp (by decide) (by decide) (by decide) 0 "A" "C" (by decide) (by decide)

/-- The failure response shape: no success, empty path, zero distance, and the
nonempty message. -/
theorem route_failure_shape (fp s t m : String) (hm : m ≠ "") :
    (route_failure fp s t m).success = false ∧ (route_failure fp s t m).path = [] ∧
    (route_failure fp s t m).total_distance = 0 ∧
    ∃ m2, (route_failure fp s t m).error = some m2 ∧ m2 ≠ "" :=
  ⟨rfl, rfl, rfl, m, rfl, hm⟩

/-- The handler prefix keeps every converted message nonempty. -/
theorem err_msg_nonempty (e : String) : ("Error calculating route: " ++ e) ≠ "" := by
  intro h
  have hlen := congrArg String.length h
  rw [String.length_append] at hlen
  have h25 : ("Error calculating route: ").length = 25 := rfl
  have h0 : ("" : String).length = 0 := rfl
  rw [h25, h0] at hlen
  omega

/-- C7: on an unavailable cache backend (disabled, connection failed, or a
failing client) the graph build never propagates a cache error: it returns
exactly the rebuild from the persisted node and edge rows and leaves the
cache state unchanged, and the whole route calculation behaves identically to
a run with the cache disabled outright. -/
theorem C7_cache_unavailable_degrades (db : DB) (st : CacheState) (sqrtFn : ℚ → ℚ)
    (fpid s t : String) (prefs : Option RoutePreferences) (fuel : ℕ)
    (hun : cache_is_available st = false) :
    build_graph db st fpid prefs true =
      .ok (build_graph_pure db fpid (prefs.getD {}), st) ∧
    calculate_route db st sqrtFn fpid s t prefs fuel =
      calculate_route db ⟨false, none⟩ sqrtFn fpid s t prefs fuel := by
  have hbg : ∀ (st2 : CacheState), cache_is_available st2 = false →
      build_graph db st2 fpid prefs true =
        .ok (build_graph_pure db fpid (prefs.getD {}), st2) := by
    intro st2 h2
    unfold build_graph cache_get_graph cache_get cache_set_graph cache_set
    simp [h2]
  refine ⟨hbg st hun, ?_⟩
  unfold calculate_route calculate_route_body
  rw [hbg st hun, hbg ⟨false, none⟩ rfl]

/-- Witness for C7 with an erroring Redis client. -/
theorem C7_cache_unavailable_degrades_witness :
    build_graph ex3db ⟨true, some ⟨true, []⟩⟩ "fp1" none true =
      .ok (build_graph_pure ex3db "fp1" {}, ⟨true, some ⟨true, []⟩⟩) ∧
    calculate_route ex3db ⟨true, some ⟨true, []⟩⟩ ratSqrt "fp1" "A" "C" none 20 =
      calculate_route ex3db ⟨false, none⟩ ratSqrt "fp1" "A" "C" none 20 :=
  C7_cache_unavailable_degrades ex3db ⟨true, some ⟨true, []⟩⟩ ratSqrt "fp1" "A" "C"
    none 20 (by decide)

/-- C9: every terminating run of `calculate_route` returns a structured
response: either a success carrying no error, or a failure with success false,
empty path, zero total distance and a nonempty human readable error message;
exceptions of the body are converted by the handler, never propagated. -/
theorem C9_total_structured (db : DB) (st : CacheState) (sqrtFn : ℚ → ℚ)
    (fpid s t : String) (prefs : Option RoutePreferences) (fuel : ℕ)
    (r : RouteResponse)
    (hr : calculate_route db st sqrtFn fpid s t prefs fuel = some r) :
    (r.success = true ∧ r.error = none) ∨
    (r.success = false ∧ r.path = [] ∧ r.total_distance = 0 ∧
      ∃ m, r.error = some m ∧ m ≠ "") := by
  unfold calculate_route calculate_route_body at hr
  match hbg : build_graph db st fpid prefs true with
  | .error e =>
      simp only [hbg] at hr
      have hre := Option.some.inj hr
      right
      rw [← hre]
      exact route_failure_shape _ _ _ _ (err_msg_nonempty e)
  | .ok ((G, pos), st2) =>
      simp only [hbg] at hr
      by_cases hcs : G.contains s = true
      case neg =>
        simp only [hcs] at hr
        simp at hr
        right
        rw [← hr]
        exact route_failure_shape _ _ _ _ (by decide)
      case pos =>
      by_cases hct : G.contains t = true
      case neg =>
        simp [hcs, hct] at hr
        right
        rw [← hr]
        exact route_failure_shape _ _ _ _ (by decide)
      case pos =>
      simp only [hcs, hct, not_true_eq_false, Bool.false_eq_true, if_false] at hr
      match hast : astar_path G s t (route_heuristic sqrtFn pos t) fuel with
      | none =>
          simp only [hast] at hr
          exact Option.noConfusion hr
      | some .noPath =>
          simp only [hast] at hr
          have hre := Option.some.inj hr
          right
          rw [← hre]
          exact route_failure_shape _ _ _ _ (by decide)
      | some (.exc m) =>
          simp only [hast] at hr
          have hre := Option.some.inj hr
          right
          rw [← hre]
          exact route_failure_shape _ _ _ _ (err_msg_nonempty m)
      | some (.found L) =>
          simp only [hast] at hr
          match hlen : astar_path_length G s t (route_heuristic sqrtFn pos t) fuel with
          | none =>
              simp only [hlen] at hr
              exact Option.noConfusion hr
          | some (.error m) =>
              simp only [hlen] at hr
              have hre := Option.some.inj hr
              right
              rw [← hre]
              exact route_failure_shape _ _ _ _ (err_msg_nonempty m)
          | some (.ok td) =>
              simp only [hlen] at hr
              match hext : extract_coordinates pos L with
              | .error m =>
                  simp only [hext] at hr
                  have hre := Option.some.inj hr
                  right
                  rw [← hre]
                  exact route_failure_shape _ _ _ _ (err_msg_nonempty m)
              | .ok coords =>
                  simp only [hext] at hr
                  match hinstr : generate_instructions G L pos with
                  | .error m =>
                      simp only [hinstr] at hr
                      have hre := Option.some.inj hr
                      right
                      rw [← hre]
                      exact route_failure_shape _ _ _ _ (err_msg_nonempty m)
                  | .ok instr =>
                      simp only [hinstr] at hr
                      have hre := Option.some.inj hr
                      left
                      rw [← hre]
                      exact ⟨rfl, rfl⟩

/-- Witness for C9 on a successful concrete route. -/
theorem C9_total_structured_witness :
    (ex3resp.success = true ∧ ex3resp.error = none) ∨
    (ex3resp.success = false ∧ ex3resp.path = [] ∧ ex3resp.total_distance = 0 ∧
      ∃ m, ex3resp.error = some m ∧ m ≠ "") :=
  C9_total_structured ex3db ex4st ratSqrt "fp1" "A" "C" (some ex3prefs) 20 ex3resp
    (by decide)

/-! ## Navigation node generation

Embedding of `FloorPlanAnalyzer._generate_navigation_nodes`
(`backend/app/services/floor_plan_analyzer.py`). The walkable mask is a pixel
value function over image row and column; `node_spacing` is the `sp`
parameter (default 50 in the source). Python `range(a, b, s)` is embedded by
fuel bounded recursion (the fuel `b + 1` suffices for every positive step; a
zero step raises in Python and is out of scope). The neighborhood mean test
`np.mean(neighborhood) > 128` is embedded exactly as
`128 * count < sum` (the float division of two exactly represented integers
rounds by far too little to cross the comparison threshold). The proximity
test `math.sqrt(dx**2 + dy**2) < sp * 0.5` is embedded exactly as
`4 * (dx^2 + dy^2) < sp^2` (correctly rounded square root cannot cross the
threshold, whose square is exactly representable). -/

structure NavNode where
  nid : ℕ
  x : ℤ
  y : ℤ
  node_type : String
  name : String
  connected_poi_id : Option ℕ
deriving DecidableEq

structure DetectedArea where
  aid : ℕ
  center_x : ℤ
  center_y : ℤ
  width : ℤ
  height : ℤ
  name : String
deriving DecidableEq

def rangeStepGo : ℕ → ℕ → ℕ → ℕ → List ℕ
  | 0, _, _, _ => []
  | f + 1, a, b, s => if a < b then a :: rangeStepGo f (a + s) b s else []

/-- Python `range(a, b, s)` for a positive step `s`. -/
def pyRangeStep (a b s : ℕ) : List ℕ := rangeStepGo (b + 1) a b s

def sliceSumRow (mask : ℕ → ℕ → ℕ) (i x0 : ℕ) : ℕ → ℕ
  | 0 => 0
  | n + 1 => sliceSumRow mask i x0 n + mask i (x0 + n)

/-- Sum of the mask values over the rectangle of `n` rows and `m` columns
with top left corner `(y0, x0)`. -/
def sliceSum (mask : ℕ → ℕ → ℕ) (y0 x0 : ℕ) : ℕ → ℕ → ℕ
  | 0, _ => 0
  | n + 1, m => sliceSum mask y0 x0 n m + sliceSumRow mask (y0 + n) x0 m

/-- The stability test of a grid node position: the clipped 20 by 20
neighborhood is mostly walkable (`np.mean(...) > 128`). -/
def neigh_cond (mask : ℕ → ℕ → ℕ) (h w y x : ℕ) : Bool :=
  let y0 := y - 10
  let y1 := min h (y + 10)
  let x0 := x - 10
  let x1 := min w (x + 10)
  decide (128 * ((y1 - y0) * (x1 - x0)) < sliceSum mask y0 x0 (y1 - y0) (x1 - x0))

/-- Method 1 of `_generate_navigation_nodes`: grid sampled waypoints on
walkable, stable positions; returns the node list with the next node id. -/
def grid_nodes (mask : ℕ → ℕ → ℕ) (h w sp : ℕ) : List NavNode × ℕ :=
  (pyRangeStep sp (h - sp) sp).foldl (fun acc y =>
    (pyRangeStep sp (w - sp) sp).foldl (fun acc2 x =>
      if 0 < mask y x then
        if neigh_cond mask h w y x then
          (acc2.1 ++ [⟨acc2.2, (x : ℤ), (h : ℤ) - (y : ℤ), "waypoint",
            "Node " ++ toString acc2.2, none⟩], acc2.2 + 1)
        else acc2
      else acc2) acc) ([], 1)

/-- The inner proximity loop of method 2: mutate the first existing node
within half the node spacing into a booth access node, `none` when there is
none. -/
def mark_close (sp h : ℕ) (bid : ℕ) (ax ay : ℤ) : List NavNode → Option (List NavNode)
  | [] => none
  | nd :: rest =>
      if 4 * ((ax - nd.x) * (ax - nd.x) +
          (ay - ((h : ℤ) - nd.y)) * (ay - ((h : ℤ) - nd.y))) < (sp : ℤ) * (sp : ℤ) then
        some ({ nd with node_type := "booth_access", connected_poi_id := some bid } :: rest)
      else
        match mark_close sp h bid ax ay rest with
        | none => none
        | some rest2 => some (nd :: rest2)

/-- The four direction probes of method 2: clamped candidate points outside
the booth edges that hit a walkable pixel, in direction order. -/
def booth_access_points (mask : ℕ → ℕ → ℕ) (h w : ℕ) (booth : DetectedArea) :
    List (ℤ × ℤ) :=
  let byi : ℤ := (h : ℤ) - booth.center_y
  let dirs : List (ℤ × ℤ) := [(0, -1), (0, 1), (-1, 0), (1, 0)]
  dirs.foldl (fun aps d =>
    let sx := booth.center_x + d.1 * (booth.width.fdiv 2 + 20)
    let sy := byi + d.2 * (booth.height.fdiv 2 + 20)
    let sx2 := max 0 (min ((w : ℤ) - 1) sx)
    let sy2 := max 0 (min ((h : ℤ) - 1) sy)
    if 0 < mask sy2.toNat sx2.toNat then aps ++ [(sx2, sy2)] else aps) []

/-- Method 2 for one booth: per access point either mutate a nearby existing
node or append a fresh booth access node. -/
def booth_access_fold (mask : ℕ → ℕ → ℕ) (h w sp : ℕ)
    (acc : List NavNode × ℕ) (booth : DetectedArea) : List NavNode × ℕ :=
  (booth_access_points mask h w booth).foldl (fun acc2 ap =>
    match mark_close sp h booth.aid ap.1 ap.2 acc2.1 with
    | some nodes2 => (nodes2, acc2.2)
    | none => (acc2.1 ++ [⟨acc2.2, ap.1, (h : ℤ) - ap.2, "booth_access",
        "Access to " ++ booth.name, some booth.aid⟩], acc2.2 + 1)) acc

/-- Embedding of `_generate_navigation_nodes`. -/
def generate_navigation_nodes (mask : ℕ → ℕ → ℕ) (booths : List DetectedArea)
    (h w sp : ℕ) : List NavNode :=
  (booths.foldl (booth_access_fold mask h w sp) (grid_nodes mask h w sp)).1

/-- The claimed node invariant: the node sits on a positive mask pixel at its
image space position and inside the image bounds. -/
def node_on_walkable (mask : ℕ → ℕ → ℕ) (h w : ℕ) (nd : NavNode) : Prop :=
  0 < mask ((h : ℤ) - nd.y).toNat nd.x.toNat ∧
  0 ≤ nd.x ∧ nd.x < (w : ℤ) ∧ 0 ≤ (h : ℤ) - nd.y ∧ (h : ℤ) - nd.y < (h : ℤ)

theorem foldl_inv {α σ : Type} (P : σ → Prop) (f : σ → α → σ) :
    ∀ (l : List α) (init : σ), P init → (∀ s a, a ∈ l → P s → P (f s a)) →
    P (l.foldl f init) := by
  intro l
  induction l with
  | nil => intro init h0 _; exact h0
  | cons a rest ih =>
      intro init h0 hstep
      exact ih (f init a) (hstep init a (List.mem_cons_self _ _) h0)
        (fun s b hb => hstep s b (List.mem_cons_of_mem _ hb))

theorem rangeStepGo_mem : ∀ (f a b s : ℕ) (v : ℕ), v ∈ rangeStepGo f a b s →
    a ≤ v ∧ v < b := by
  intro f
  induction f with
  | zero => intro a b s v hv; cases hv
  | succ f ih =>
      intro a b s v hv
      simp only [rangeStepGo] at hv
      by_cases hab : a < b
      · rw [if_pos hab] at hv
        rcases List.mem_cons.mp hv with hv | hv
        · subst hv; exact ⟨le_refl _, hab⟩
        · obtain ⟨h1, h2⟩ := ih (a + s) b s v hv
          exact ⟨by omega, h2⟩
      · rw [if_neg hab] at hv
        cases hv

theorem pyRangeStep_mem (a b s v : ℕ) (hv : v ∈ pyRangeStep a b s) :
    a ≤ v ∧ v < b := rangeStepGo_mem _ _ _ _ _ hv

/-- `mark_close` only rewrites attributes: positions of the resulting nodes
all come from the input list. -/
theorem mark_close_preserves (sp h bid : ℕ) (ax ay : ℤ) :
    ∀ (l l2 : List NavNode), mark_close sp h bid ax ay l = some l2 →
    ∀ nd2 ∈ l2, ∃ nd1 ∈ l, nd2.x = nd1.x ∧ nd2.y = nd1.y := by
  intro l
  induction l with
  | nil => intro l2 hl2; cases hl2
  | cons nd rest ih =>
      intro l2 hl2 nd2 hnd2
      simp only [mark_close] at hl2
      split at hl2
      · cases hl2
        rcases List.mem_cons.mp hnd2 with hnd2 | hnd2
        · subst hnd2
          exact ⟨nd, List.mem_cons_self _ _, rfl, rfl⟩
        · exact ⟨nd2, List.mem_cons_of_mem _ hnd2, rfl, rfl⟩
      · match hrec : mark_close sp h bid ax ay rest with
        | none =>
            rw [hrec] at hl2
            cases hl2
        | some rest2 =>
            rw [hrec] at hl2
            cases hl2
            rcases List.mem_cons.mp hnd2 with hnd2 | hnd2
            · subst hnd2
              exact ⟨nd2, List.mem_cons_self _ _, rfl, rfl⟩
            · obtain ⟨nd1, h1, h2⟩ := ih rest2 hrec nd2 hnd2
              exact ⟨nd1, List.mem_cons_of_mem _ h1, h2⟩

/-- Access point candidates are clamped in bounds and walkable. -/
theorem booth_access_points_spec (mask : ℕ → ℕ → ℕ) (h w : ℕ)
    (booth : DetectedArea) (hh : 1 ≤ h) (hw : 1 ≤ w) :
    ∀ ap ∈ booth_access_points mask h w booth,
      0 ≤ ap.1 ∧ ap.1 < (w : ℤ) ∧ 0 ≤ ap.2 ∧ ap.2 < (h : ℤ) ∧
      0 < mask ap.2.toNat ap.1.toNat := by
  unfold booth_access_points
  refine foldl_inv
    (fun (aps : List (ℤ × ℤ)) => ∀ ap ∈ aps,
      0 ≤ ap.1 ∧ ap.1 < (w : ℤ) ∧ 0 ≤ ap.2 ∧ ap.2 < (h : ℤ) ∧
        0 < mask ap.2.toNat ap.1.toNat)
    _ _ _ (by intro ap hap; cases hap) ?_
  intro aps d _ hinv ap hap
  dsimp only at hap
  split at hap
  · rcases List.mem_append.mp hap with hap | hap
    · exact hinv ap hap
    · simp only [List.mem_singleton] at hap
      subst hap
      dsimp only
      refine ⟨by omega, by omega, by omega, by omega, by assumption⟩
  · exact hinv ap hap

/-- C10: every node emitted by navigation node generation, both the grid
sampled waypoints and the booth access nodes, sits on a positive pixel of
the walkable mask at its image space position `(height - y, x)` and inside
the image bounds. -/
theorem C10_nodes_on_walkable (mask : ℕ → ℕ → ℕ) (booths : List DetectedArea)
    (h w sp : ℕ) (hh : 1 ≤ h) (hw : 1 ≤ w) :
    ∀ nd ∈ generate_navigation_nodes mask booths h w sp,
      node_on_walkable mask h w nd := by
  have hgrid : ∀ nd ∈ (grid_nodes mask h w sp).1, node_on_walkable mask h w nd := by
    unfold grid_nodes
    refine (foldl_inv
      (fun (acc : List NavNode × ℕ) => ∀ nd ∈ acc.1, node_on_walkable mask h w nd)
      _ _ _ (by intro nd hnd; cases hnd) ?_)
    intro acc y hy hinv
    obtain ⟨hy1, hy2⟩ := pyRangeStep_mem _ _ _ _ hy
    refine (foldl_inv
      (fun (acc : List NavNode × ℕ) => ∀ nd ∈ acc.1, node_on_walkable mask h w nd)
      _ _ _ hinv ?_)
    intro acc2 x hx hinv2 nd hnd
    obtain ⟨hx1, hx2⟩ := pyRangeStep_mem _ _ _ _ hx
    by_cases hm : 0 < mask y x
    case neg =>
      rw [if_neg hm] at hnd
      exact hinv2 nd hnd
    case pos =>
    rw [if_pos hm] at hnd
    by_cases hn : neigh_cond mask h w y x = true
    case neg =>
      rw [if_neg hn] at hnd
      exact hinv2 nd hnd
    case pos =>
    rw [if_pos hn] at hnd
    rcases List.mem_append.mp hnd with hnd | hnd
    · exact hinv2 nd hnd
    · simp only [List.mem_singleton] at hnd
      subst hnd
      have hyh : y < h := by omega
      have hxw : x < w := by omega
      unfold node_on_walkable
      dsimp only
      have hcalc : ((h : ℤ) - ((h : ℤ) - (y : ℤ))).toNat = y := by omega
      have hcx : ((x : ℤ)).toNat = x := by omega
      refine ⟨?_, by omega, by omega, by omega, by omega⟩
      rw [hcalc, hcx]
      exact hm
  refine foldl_inv
    (fun (acc : List NavNode × ℕ) => ∀ nd ∈ acc.1, node_on_walkable mask h w nd)
    _ _ _ hgrid ?_
  intro acc booth _ hinv
  unfold booth_access_fold
  refine foldl_inv
    (fun (acc : List NavNode × ℕ) => ∀ nd ∈ acc.1, node_on_walkable mask h w nd)
    _ _ _ hinv ?_
  intro acc2 ap hap hinv2 nd hnd
  obtain ⟨hap1, hap2, hap3, hap4, hap5⟩ :=
    booth_access_points_spec mask h w booth hh hw ap hap
  match hmc : mark_close sp h booth.aid ap.1 ap.2 acc2.1 with
  | some nodes2 =>
      rw [hmc] at hnd
      obtain ⟨nd1, hnd1, hx, hy⟩ := mark_close_preserves sp h booth.aid ap.1 ap.2
        acc2.1 nodes2 hmc nd hnd
      have := hinv2 nd1 hnd1
      unfold node_on_walkable at this ⊢
      rw [hx, hy]
      exact this
  | none =>
      rw [hmc] at hnd
      rcases List.mem_append.mp hnd with hnd | hnd
      · exact hinv2 nd hnd
      · simp only [List.mem_singleton] at hnd
        subst hnd
        unfold node_on_walkable
        dsimp only
        have hcalc : ((h : ℤ) - ((h : ℤ) - ap.2)).toNat = ap.2.toNat := by omega
        refine ⟨?_, hap1, hap2, by omega, by omega⟩
        rw [hcalc]
        exact hap5

def exMask : ℕ → ℕ → ℕ := fun _ _ => 255

def exBooths : List DetectedArea := [⟨1, 75, 75, 10, 10, "Booth 1"⟩]

/-- Witness for C10 on a concrete all walkable 150 by 150 mask with one
booth. -/
theorem C10_nodes_on_walkable_witness :
    node_on_walkable exMask 150 150
      ⟨1, 50, 100, "waypoint", "Node 1", none⟩ :=
  C10_nodes_on_walkable exMask exBooths 150 150 50 (by decide) (by decide)
    ⟨1, 50, 100, "waypoint", "Node 1", none⟩ (by decide)

/-! ## Walkable area detection

Embedding of `FloorPlanAnalyzer._detect_walkable_areas` and the
`is_white_corridor` decision of `analyze`
(`backend/app/services/floor_plan_analyzer.py`). Images are pixel value
functions over row and column with explicit bounds; every operation reads its
input only at in bounds positions. The white ratio comparisons
`white_ratio > 0.3 and white_ratio < 0.8` are embedded as the exact rational
comparisons `3 * (w * h) < 10 * n` and `10 * n < 8 * (w * h)` (the inputs of
the theorems below have ratio exactly 0 or 1, where the float comparison
agrees). Morphology uses the 5 by 5 all ones kernel of the source; the
OpenCV default border (ignored for erosion, ignored for dilation) is modelled
by restricting the window to in bounds pixels. `cv2.distanceTransform(...,
DIST_L2, 5)` is modelled through the squared distance to the nearest zero
pixel with a large sentinel when none exists; the chamfer approximation of
the source agrees with this model on the facts used below (a zero pixel has
distance zero, and the final `bitwise_or` with `binary` dominates the branch
where no zero pixel exists). `cv2.bitwise_or` on the 0/255 valued images of
this pipeline coincides with `max`. The adaptive threshold branch (not
reached by any input below, whose white ratios 0 and 1 both fail the
`is_white_corridor` window) is a parameter `adaptiveThr`. -/

def count_bright_row (gray : ℕ → ℕ → ℕ) (i : ℕ) : ℕ → ℕ
  | 0 => 0
  | w + 1 => count_bright_row gray i w + (if 200 < gray i w then 1 else 0)

/-- The number of pixels with `gray > 200` (`np.sum(gray > 200)`). -/
def count_bright (gray : ℕ → ℕ → ℕ) : ℕ → ℕ → ℕ
  | 0, _ => 0
  | h + 1, w => count_bright gray h w + count_bright_row gray h w

/-- `is_white_corridor = white_ratio > 0.3 and white_ratio < 0.8`. -/
def is_white_corridor (gray : ℕ → ℕ → ℕ) (h w : ℕ) : Bool :=
  let n := count_bright gray h w
  decide (3 * (w * h) < 10 * n) && decide (10 * n < 8 * (w * h))

/-- `cv2.threshold(gray, 200, 255, cv2.THRESH_BINARY_INV)`. -/
def thresh_binary_inv (gray : ℕ → ℕ → ℕ) : ℕ → ℕ → ℕ :=
  fun y x => if 200 < gray y x then 0 else 255

/-- The `binary = 255 - binary` line. -/
def un_invert (img : ℕ → ℕ → ℕ) : ℕ → ℕ → ℕ :=
  fun y x => 255 - img y x

/-- The in bounds pixels of the 5 by 5 window centred at `(y, x)`. -/
def win5 (h w y x : ℕ) : List (ℕ × ℕ) :=
  ((List.range 5).flatMap (fun i => (List.range 5).map (fun j => (y + i, x + j)))).filterMap
    (fun p => if 2 ≤ p.1 ∧ p.1 < h + 2 ∧ 2 ≤ p.2 ∧ p.2 < w + 2 then
      some (p.1 - 2, p.2 - 2) else none)

/-- `cv2.erode` with the 5 by 5 all ones kernel (the ignored constant border
is the identity of `min` on pixel values). -/
def erode5 (h w : ℕ) (img : ℕ → ℕ → ℕ) : ℕ → ℕ → ℕ :=
  fun y x => ((win5 h w y x).map (fun p => img p.1 p.2)).foldl min 255

/-- `cv2.dilate` with the 5 by 5 all ones kernel. -/
def dilate5 (h w : ℕ) (img : ℕ → ℕ → ℕ) : ℕ → ℕ → ℕ :=
  fun y x => ((win5 h w y x).map (fun p => img p.1 p.2)).foldl max 0

def dist2pix (y x i j : ℕ) : ℕ :=
  ((((y : ℤ) - i) * ((y : ℤ) - i) + ((x : ℤ) - j) * ((x : ℤ) - j))).toNat

def distSqRow (binary : ℕ → ℕ → ℕ) (y x i : ℕ) : ℕ → ℕ → ℕ
  | 0, acc => acc
  | j + 1, acc => distSqRow binary y x i j
      (if binary i j = 0 then min acc (dist2pix y x i j) else acc)

def distSqAll (binary : ℕ → ℕ → ℕ) (y x : ℕ) : ℕ → ℕ → ℕ → ℕ
  | 0, _, acc => acc
  | i + 1, w, acc => distSqAll binary y x i w (distSqRow binary y x i w acc)

/-- Squared distance to the nearest zero pixel, with the sentinel
`(h + w + 1)^2` when the image has none. -/
def distSq (h w : ℕ) (binary : ℕ → ℕ → ℕ) (y x : ℕ) : ℕ :=
  distSqAll binary y x h w ((h + w + 1) * (h + w + 1))

/-- Embedding of `_detect_walkable_areas`: threshold (or the adaptive branch
parameter), open with one iteration, close with two, keep pixels at distance
at least `corridor_min_width // 2 = 10` from the non corridor area, dilate
twice, and or with the cleaned binary image. -/
def detect_walkable_areas (adaptiveThr : (ℕ → ℕ → ℕ) → ℕ → ℕ → ℕ)
    (gray : ℕ → ℕ → ℕ) (h w : ℕ) : ℕ → ℕ → ℕ :=
  let binary0 := if is_white_corridor gray h w then adaptiveThr gray
    else un_invert (thresh_binary_inv gray)
  let opened := dilate5 h w (erode5 h w binary0)
  let binary := erode5 h w (erode5 h w (dilate5 h w (dilate5 h w opened)))
  let wk0 := fun y x => if 100 ≤ distSq h w binary y x then (255 : ℕ) else 0
  let wk := dilate5 h w (dilate5 h w wk0)
  fun y x => max (wk y x) (binary y x)

theorem foldl_min_le_init : ∀ (l : List ℕ) (c : ℕ), l.foldl min c ≤ c := by
  intro l
  induction l with
  | nil => intro c; exact le_refl c
  | cons a rest ih =>
      intro c
      calc List.foldl min (min c a) rest ≤ min c a := ih _
        _ ≤ c := min_le_left _ _

theorem foldl_max_ge_init : ∀ (l : List ℕ) (c : ℕ), c ≤ l.foldl max c := by
  intro l
  induction l with
  | nil => intro c; exact le_refl c
  | cons a rest ih =>
      intro c
      calc c ≤ max c a := le_max_left _ _
        _ ≤ List.foldl max (max c a) rest := ih _

theorem foldl_min_le_mem : ∀ (l : List ℕ) (c v : ℕ), v ∈ l → l.foldl min c ≤ v := by
  intro l
  induction l with
  | nil => intro c v hv; cases hv
  | cons a rest ih =>
      intro c v hv
      rcases List.mem_cons.mp hv with hv | hv
      · subst hv
        calc List.foldl min (min c v) rest ≤ min c v := foldl_min_le_init rest _
          _ ≤ v := min_le_right _ _
      · exact ih _ v hv

theorem le_foldl_min : ∀ (l : List ℕ) (c b : ℕ), b ≤ c → (∀ v ∈ l, b ≤ v) →
    b ≤ l.foldl min c := by
  intro l
  induction l with
  | nil => intro c b hc _; exact hc
  | cons a rest ih =>
      intro c b hc hl
      refine ih _ b (le_min hc (hl a (List.mem_cons_self _ _))) ?_
      exact fun v hv => hl v (List.mem_cons_of_mem _ hv)

theorem foldl_max_ge_mem : ∀ (l : List ℕ) (c v : ℕ), v ∈ l → v ≤ l.foldl max c := by
  intro l
  induction l with
  | nil => intro c v hv; cases hv
  | cons a rest ih =>
      intro c v hv
      rcases List.mem_cons.mp hv with hv | hv
      · subst hv
        calc v ≤ max c v := le_max_right _ _
          _ ≤ List.foldl max (max c v) rest := foldl_max_ge_init rest _
      · exact ih _ v hv

theorem foldl_max_le : ∀ (l : List ℕ) (c b : ℕ), c ≤ b → (∀ v ∈ l, v ≤ b) →
    l.foldl max c ≤ b := by
  intro l
  induction l with
  | nil => intro c b hc _; exact hc
  | cons a rest ih =>
      intro c b hc hl
      refine ih _ b (max_le hc (hl a (List.mem_cons_self _ _))) ?_
      exact fun v hv => hl v (List.mem_cons_of_mem _ hv)

theorem win5_mem_bounds (h w y x : ℕ) : ∀ p ∈ win5 h w y x, p.1 < h ∧ p.2 < w := by
  intro p hp
  simp only [win5, List.mem_filterMap] at hp
  obtain ⟨a, ha, hfa⟩ := hp
  by_cases hc : 2 ≤ a.1 ∧ a.1 < h + 2 ∧ 2 ≤ a.2 ∧ a.2 < w + 2
  · rw [if_pos hc] at hfa
    cases hfa
    dsimp only
    omega
  · rw [if_neg hc] at hfa
    cases hfa

theorem win5_center_mem (h w y x : ℕ) (hy : y < h) (hx : x < w) :
    (y, x) ∈ win5 h w y x := by
  unfold win5
  rw [List.mem_filterMap]
  refine ⟨(y + 2, x + 2), ?_, ?_⟩
  · rw [List.mem_flatMap]
    refine ⟨2, by simp, ?_⟩
    rw [List.mem_map]
    exact ⟨2, by simp, rfl⟩
  · rw [if_pos (by dsimp only; omega)]
    simp

/-- Erosion preserves an image that is constant in bounds. -/
theorem erode5_const (h w : ℕ) (img : ℕ → ℕ → ℕ) (c : ℕ) (hc : c ≤ 255)
    (himg : ∀ y x, y < h → x < w → img y x = c) :
    ∀ y x, y < h → x < w → erode5 h w img y x = c := by
  intro y x hy hx
  unfold erode5
  refine le_antisymm ?_ ?_
  · refine foldl_min_le_mem _ _ _ ?_
    exact List.mem_map.mpr ⟨(y, x), win5_center_mem h w y x hy hx, himg y x hy hx⟩
  · refine le_foldl_min _ _ _ hc ?_
    intro v hv
    rw [List.mem_map] at hv
    obtain ⟨p, hp, hpv⟩ := hv
    obtain ⟨h1, h2⟩ := win5_mem_bounds h w y x p hp
    rw [← hpv, himg p.1 p.2 h1 h2]

/-- Dilation preserves an image that is constant in bounds. -/
theorem dilate5_const (h w : ℕ) (img : ℕ → ℕ → ℕ) (c : ℕ)
    (himg : ∀ y x, y < h → x < w → img y x = c) :
    ∀ y x, y < h → x < w → dilate5 h w img y x = c := by
  intro y x hy hx
  unfold dilate5
  refine le_antisymm ?_ ?_
  · refine foldl_max_le _ _ _ (Nat.zero_le c) ?_
    intro v hv
    rw [List.mem_map] at hv
    obtain ⟨p, hp, hpv⟩ := hv
    obtain ⟨h1, h2⟩ := win5_mem_bounds h w y x p hp
    rw [← hpv, himg p.1 p.2 h1 h2]
  · refine foldl_max_ge_mem _ _ _ ?_
    exact List.mem_map.mpr ⟨(y, x), win5_center_mem h w y x hy hx, himg y x hy hx⟩

/-- Dilation respects an in bounds upper bound, everywhere. -/
theorem dilate5_le (h w : ℕ) (img : ℕ → ℕ → ℕ) (b : ℕ)
    (himg : ∀ y x, y < h → x < w → img y x ≤ b) :
    ∀ y x, dilate5 h w img y x ≤ b := by
  intro y x
  unfold dilate5
  refine foldl_max_le _ _ _ (Nat.zero_le b) ?_
  intro v hv
  rw [List.mem_map] at hv
  obtain ⟨p, hp, hpv⟩ := hv
  obtain ⟨h1, h2⟩ := win5_mem_bounds h w y x p hp
  rw [← hpv]
  exact himg p.1 p.2 h1 h2

theorem count_bright_row_const (c i : ℕ) :
    ∀ w, count_bright_row (fun _ _ => c) i w = if 200 < c then w else 0 := by
  intro w
  induction w with
  | zero => simp [count_bright_row]
  | succ w ih =>
      simp only [count_bright_row, ih]
      by_cases hc : 200 < c
      · simp [hc]
      · simp [hc]

theorem count_bright_const (c : ℕ) :
    ∀ h w, count_bright (fun _ _ => c) h w = if 200 < c then h * w else 0 := by
  intro h
  induction h with
  | zero => intro w; simp [count_bright]
  | succ h ih =>
      intro w
      simp only [count_bright, ih, count_bright_row_const]
      by_cases hc : 200 < c
      · simp only [if_pos hc]
        ring
      · simp [hc]

theorem is_white_const255 (h w : ℕ) :
    is_white_corridor (fun _ _ => 255) h w = false := by
  have hn : count_bright (fun _ _ => 255) h w = h * w := by
    rw [count_bright_const, if_pos (by omega)]
  unfold is_white_corridor
  rw [hn]
  dsimp only
  simp only [Nat.mul_comm w h]
  have h2 : decide (10 * (h * w) < 8 * (h * w)) = false := by
    rw [decide_eq_false_iff_not]
    omega
  rw [h2, Bool.and_false]

theorem is_white_const0 (h w : ℕ) :
    is_white_corridor (fun _ _ => 0) h w = false := by
  have hn : count_bright (fun _ _ => 0) h w = 0 := by
    rw [count_bright_const, if_neg (by omega)]
  unfold is_white_corridor
  rw [hn]
  dsimp only
  have h1 : decide (3 * (w * h) < 10 * 0) = false := by
    rw [decide_eq_false_iff_not]
    omega
  rw [h1, Bool.false_and]

theorem distSqRow_le_acc (b : ℕ → ℕ → ℕ) (y x i : ℕ) :
    ∀ (jm acc : ℕ), distSqRow b y x i jm acc ≤ acc := by
  intro jm
  induction jm with
  | zero => intro acc; exact le_refl acc
  | succ j ih =>
      intro acc
      simp only [distSqRow]
      by_cases hb : b i j = 0
      · rw [if_pos hb]
        calc distSqRow b y x i j (min acc (dist2pix y x i j)) ≤
              min acc (dist2pix y x i j) := ih _
          _ ≤ acc := min_le_left _ _
      · rw [if_neg hb]
        exact ih acc

theorem distSqRow_le_hit (b : ℕ → ℕ → ℕ) (y x i : ℕ) :
    ∀ (jm acc j : ℕ), j < jm → b i j = 0 →
    distSqRow b y x i jm acc ≤ dist2pix y x i j := by
  intro jm
  induction jm with
  | zero => intro acc j hj; omega
  | succ jm ih =>
      intro acc j hj hb
      by_cases hjm : j = jm
      · subst hjm
        simp only [distSqRow, if_pos hb]
        calc distSqRow b y x i j (min acc (dist2pix y x i j)) ≤
              min acc (dist2pix y x i j) := distSqRow_le_acc b y x i j _
          _ ≤ dist2pix y x i j := min_le_right _ _
      · simp only [distSqRow]
        by_cases hb2 : b i jm = 0
        · rw [if_pos hb2]
          exact ih _ j (by omega) hb
        · rw [if_neg hb2]
          exact ih _ j (by omega) hb

theorem distSqAll_le_acc (b : ℕ → ℕ → ℕ) (y x w : ℕ) :
    ∀ (im acc : ℕ), distSqAll b y x im w acc ≤ acc := by
  intro im
  induction im with
  | zero => intro acc; exact le_refl acc
  | succ im ih =>
      intro acc
      simp only [distSqAll]
      calc distSqAll b y x im w (distSqRow b y x im w acc) ≤
            distSqRow b y x im w acc := ih _
        _ ≤ acc := distSqRow_le_acc b y x im w acc

theorem distSqAll_le_hit (b : ℕ → ℕ → ℕ) (y x w i j : ℕ) (hj : j < w)
    (hb : b i j = 0) :
    ∀ (im acc : ℕ), i < im → distSqAll b y x im w acc ≤ dist2pix y x i j := by
  intro im
  induction im with
  | zero => intro acc hi; omega
  | succ im ih =>
      intro acc hi
      by_cases him : i = im
      · subst him
        simp only [distSqAll]
        calc distSqAll b y x i w (distSqRow b y x i w acc) ≤
              distSqRow b y x i w acc := distSqAll_le_acc b y x w i _
          _ ≤ dist2pix y x i j := distSqRow_le_hit b y x i w acc j hj hb
      · simp only [distSqAll]
        exact ih _ (by omega)

/-- A zero pixel is at distance zero from the zero set. -/
theorem distSq_zero_self (h w : ℕ) (b : ℕ → ℕ → ℕ) (y x : ℕ)
    (hy : y < h) (hx : x < w) (hb : b y x = 0) : distSq h w b y x = 0 := by
  have h1 := distSqAll_le_hit b y x w y x hx hb h ((h + w + 1) * (h + w + 1)) hy
  have h2 : dist2pix y x y x = 0 := by
    unfold dist2pix
    simp
  unfold distSq
  omega

theorem foldl_id {α σ : Type} (f : σ → α → σ) : ∀ (l : List α) (init : σ),
    (∀ s a, a ∈ l → f s a = s) → l.foldl f init = init := by
  intro l
  induction l with
  | nil => intro init _; rfl
  | cons a rest ih =>
      intro init hstep
      rw [List.foldl_cons, hstep init a (List.mem_cons_self _ _)]
      exact ih init (fun s b hb => hstep s b (List.mem_cons_of_mem _ hb))

/-- On an unavailable cache, `build_graph` (any preference argument) is the
pure rebuild. -/
theorem build_graph_uncached_any (db : DB) (st : CacheState) (fpid : String)
    (prefs : Option RoutePreferences) (hun : cache_is_available st = false) :
    build_graph db st fpid prefs true =
      .ok (build_graph_pure db fpid (prefs.getD {}), st) := by
  unfold build_graph cache_get_graph cache_get cache_set_graph cache_set
  simp [hun]

/-- A clamped probe of an in bounds zero mask reads zero. -/
theorem clamped_mask_zero (mask : ℕ → ℕ → ℕ) (h w : ℕ) (hh : 1 ≤ h) (hw : 1 ≤ w)
    (hmask : ∀ y x, y < h → x < w → mask y x = 0) (sy sx : ℤ) :
    ¬ 0 < mask (max 0 (min ((h : ℤ) - 1) sy)).toNat
        (max 0 (min ((w : ℤ) - 1) sx)).toNat := by
  have hyb : (max 0 (min ((h : ℤ) - 1) sy)).toNat < h := by omega
  have hxb : (max 0 (min ((w : ℤ) - 1) sx)).toNat < w := by omega
  rw [hmask _ _ hyb hxb]
  omega

/-- C6: contrary to the claim, a fully blank image (every pixel maximally
bright) yields the all 255 walkable mask, because the `255 - binary` line
undoes `THRESH_BINARY_INV` and marks every bright pixel walkable; the fully
filled (all dark) half of the claim does hold: the mask is all zero, node
generation returns the empty list on any in bounds zero mask for every booth
list, and with no persisted nodes and edges every route request returns the
structured start node not found response. -/
theorem C6_blank_detection (adaptiveThr : (ℕ → ℕ → ℕ) → ℕ → ℕ → ℕ) :
    (∀ h w y x, y < h → x < w →
      detect_walkable_areas adaptiveThr (fun _ _ => 255) h w y x = 255) ∧
    (∀ h w y x, y < h → x < w →
      detect_walkable_areas adaptiveThr (fun _ _ => 0) h w y x = 0) ∧
    (∀ (mask : ℕ → ℕ → ℕ) (booths : List DetectedArea) (h w sp : ℕ),
      1 ≤ h → 1 ≤ w → (∀ y x, y < h → x < w → mask y x = 0) →
      generate_navigation_nodes mask booths h w sp = []) ∧
    (∀ (db : DB) (st : CacheState) (sqrtFn : ℚ → ℚ) (fpid s t : String)
      (prefs : Option RoutePreferences) (fuel : ℕ),
      db.nodes.filter (fun n => n.floor_plan_id = fpid) = [] →
      db.edges.filter (fun e => e.floor_plan_id = fpid) = [] →
      cache_is_available st = false →
      calculate_route db st sqrtFn fpid s t prefs fuel =
        some (route_failure fpid s t "Start node not found in navigation graph")) := by
  refine ⟨?_, ?_, ?_, ?_⟩
  · intro h w y x hy hx
    unfold detect_walkable_areas
    simp only [is_white_const255, Bool.false_eq_true, if_false]
    have hb0 : ∀ y2 x2, y2 < h → x2 < w →
        un_invert (thresh_binary_inv (fun _ _ => 255)) y2 x2 = 255 := by
      intro y2 x2 _ _
      unfold un_invert thresh_binary_inv
      norm_num
    have h1 := erode5_const h w _ 255 (le_refl 255) hb0
    have h2 := dilate5_const h w _ 255 h1
    have h3 := dilate5_const h w _ 255 h2
    have h4 := dilate5_const h w _ 255 h3
    have h5 := erode5_const h w _ 255 (le_refl 255) h4
    have h6 := erode5_const h w _ 255 (le_refl 255) h5
    rw [h6 y x hy hx]
    refine max_eq_right ?_
    refine dilate5_le h w _ 255 ?_ y x
    intro y2 x2 _ _
    refine dilate5_le h w _ 255 ?_ y2 x2
    intro y3 x3 _ _
    dsimp only
    split <;> omega
  · intro h w y x hy hx
    unfold detect_walkable_areas
    simp only [is_white_const0, Bool.false_eq_true, if_false]
    have hb0 : ∀ y2 x2, y2 < h → x2 < w →
        un_invert (thresh_binary_inv (fun _ _ => 0)) y2 x2 = 0 := by
      intro y2 x2 _ _
      unfold un_invert thresh_binary_inv
      norm_num
    have h1 := erode5_const h w _ 0 (by omega) hb0
    have h2 := dilate5_const h w _ 0 h1
    have h3 := dilate5_const h w _ 0 h2
    have h4 := dilate5_const h w _ 0 h3
    have h5 := erode5_const h w _ 0 (by omega) h4
    have h6 := erode5_const h w _ 0 (by omega) h5
    rw [h6 y x hy hx, Nat.max_zero]
    refine dilate5_const h w _ 0 ?_ y x hy hx
    intro y2 x2 hy2 hx2
    refine dilate5_const h w _ 0 ?_ y2 x2 hy2 hx2
    intro y3 x3 hy3 hx3
    dsimp only
    have hd := distSq_zero_self h w _ y3 x3 hy3 hx3 (h6 y3 x3 hy3 hx3)
    rw [hd, if_neg (by omega)]
  · intro mask booths h w sp hh hw hmask
    unfold generate_navigation_nodes
    have hgrid : grid_nodes mask h w sp = ([], 1) := by
      unfold grid_nodes
      refine foldl_id _ _ _ ?_
      intro acc y hy
      obtain ⟨hy1, hy2⟩ := pyRangeStep_mem _ _ _ _ hy
      refine foldl_id _ _ _ ?_
      intro acc2 x hx
      obtain ⟨hx1, hx2⟩ := pyRangeStep_mem _ _ _ _ hx
      have hm : ¬ 0 < mask y x := by
        rw [hmask y x (by omega) (by omega)]
        omega
      rw [if_neg hm]
    have hbooth : ∀ (acc : List NavNode × ℕ) (booth : DetectedArea),
        booth ∈ booths → booth_access_fold mask h w sp acc booth = acc := by
      intro acc booth _
      unfold booth_access_fold
      have haps : booth_access_points mask h w booth = [] := by
        unfold booth_access_points
        refine foldl_id _ _ _ ?_
        intro aps d _
        dsimp only
        rw [if_neg (clamped_mask_zero mask h w hh hw hmask _ _)]
      rw [haps]
      rfl
    rw [hgrid, foldl_id _ booths ([], 1) hbooth]
  · intro db st sqrtFn fpid s t prefs fuel hnodes hedges hun
    have hbg := build_graph_uncached_any db st fpid prefs hun
    have hpure : build_graph_pure db fpid (prefs.getD {}) = (Graph.empty, []) := by
      unfold build_graph_pure
      rw [hnodes, hedges]
      rfl
    rw [hpure] at hbg
    unfold calculate_route calculate_route_body
    rw [hbg]
    simp [Graph.contains, pyContains, pyGet?, Graph.empty]

/-- Witness for C6 on one pixel images, the all zero mask, and the empty
floor plan. -/
theorem C6_blank_detection_witness :
    detect_walkable_areas (fun g => g) (fun _ _ => 255) 1 1 0 0 = 255 ∧
    detect_walkable_areas (fun g => g) (fun _ _ => 0) 1 1 0 0 = 0 ∧
    generate_navigation_nodes (fun _ _ => 0) [⟨1, 0, 0, 2, 2, "B"⟩] 1 1 50 = [] ∧
    calculate_route ⟨[], []⟩ ex4st ratSqrt "fp9" "S" "T" none 5 =
      some (route_failure "fp9" "S" "T" "Start node not found in navigation graph") := by
  refine ⟨?_, ?_, ?_, ?_⟩
  · exact (C6_blank_detection (fun g => g)).1 1 1 0 0 (by decide) (by decide)
  · exact (C6_blank_detection (fun g => g)).2.1 1 1 0 0 (by decide) (by decide)
  · exact (C6_blank_detection (fun g => g)).2.2.1 (fun _ _ => 0) [⟨1, 0, 0, 2, 2, "B"⟩]
      1 1 50 (by decide) (by decide) (fun y x _ _ => rfl)
  · exact (C6_blank_detection (fun g => g)).2.2.2 ⟨[], []⟩ ex4st ratSqrt "fp9" "S" "T"
      none 5 rfl rfl (by decide)

/-! ## A* optimality under a consistent heuristic

The spec justifies minimality by "Euclidean distance ... consistent because
edge weights are Euclidean or larger". The development below proves exactly
that implication for the embedded `networkx` search: with nonnegative edge
weights, a nonnegative heuristic and the consistency inequality
`h u ≤ w(u,v) + h v` on every stored edge direction, a returned path has
minimal total weight among all paths between the endpoints. The counterexample
afterwards shows the hypothesis is not enforced by the code: a stored edge
weight below the straight line distance makes the returned path heavier than
the brute force optimum. -/

theorem path_weight_nonneg (G : Graph)
    (hw0 : ∀ u v ed, G.edge_data? u v = some ed → 0 ≤ ed.weight) :
    ∀ P, chain_edges_ok G P = true → 0 ≤ path_weight G P := by
  intro P
  induction P with
  | nil => intro _; exact le_refl 0
  | cons a rest ih =>
      intro hch
      cases rest with
      | nil => exact le_refl 0
      | cons b rest2 =>
          have h2 : (G.edge_data? a b).isSome = true ∧
              chain_edges_ok G (b :: rest2) = true := by
            simpa [chain_edges_ok] using hch
          obtain ⟨ed, hed⟩ := Option.isSome_iff_exists.mp h2.1
          have hrec := ih h2.2
          have hw := hw0 a b ed hed
          rw [path_weight_cons, hed]
          simp only [Option.map_some', Option.getD_some]
          linarith

/-- Consistency telescopes along a chain: the heuristic at the head is at most
the chain weight plus the heuristic at the last node. -/
theorem tele_consistent (G : Graph) (h : String → ℚ)
    (hcons : ∀ u v ed, G.edge_data? u v = some ed → h u ≤ ed.weight + h v) :
    ∀ P, chain_edges_ok G P = true → ∀ a z, P.head? = some a → P.getLast? = some z →
      h a ≤ path_weight G P + h z := by
  intro P
  induction P with
  | nil =>
      intro _ a z ha
      cases ha
  | cons x rest ih =>
      intro hch a z ha hz
      have hax : x = a := Option.some.inj ha
      subst hax
      cases rest with
      | nil =>
          have hxz : x = z := Option.some.inj hz
          subst hxz
          simp [path_weight]
      | cons b rest2 =>
          have h2 : (G.edge_data? x b).isSome = true ∧
              chain_edges_ok G (b :: rest2) = true := by
            simpa [chain_edges_ok] using hch
          obtain ⟨ed, hed⟩ := Option.isSome_iff_exists.mp h2.1
          rw [List.getLast?_cons_cons] at hz
          have hb := ih h2.2 b z rfl hz
          have hc := hcons x b ed hed
          rw [path_weight_cons, hed]
          simp only [Option.map_some', Option.getD_some]
          linarith

/-- Extending a chain by one edge. -/
theorem chain_snoc (G : Graph) (v : String) (ed : EdgeAttrs) :
    ∀ (P : List String) (u : String), chain_edges_ok G P = true →
      P.getLast? = some u → G.edge_data? u v = some ed →
      chain_edges_ok G (P ++ [v]) = true ∧
      path_weight G (P ++ [v]) = path_weight G P + ed.weight ∧
      (P ++ [v]).head? = P.head? ∧ (P ++ [v]).getLast? = some v := by
  intro P
  induction P with
  | nil =>
      intro u _ hu
      cases hu
  | cons x rest ih =>
      intro u hch hu hed
      cases rest with
      | nil =>
          have hxu : x = u := Option.some.inj hu
          subst hxu
          refine ⟨?_, ?_, rfl, ?_⟩
          · simp [chain_edges_ok, hed]
          · rw [show ([x] ++ [v]) = [x, v] from rfl, path_weight_cons, hed]
            simp [path_weight]
          · simp
      | cons b rest2 =>
          have h2 : (G.edge_data? x b).isSome = true ∧
              chain_edges_ok G (b :: rest2) = true := by
            simpa [chain_edges_ok] using hch
          rw [List.getLast?_cons_cons] at hu
          obtain ⟨hch2, hpw2, hhd2, hlast2⟩ := ih u h2.2 hu hed
          refine ⟨?_, ?_, rfl, ?_⟩
          · show chain_edges_ok G (x :: ((b :: rest2) ++ [v])) = true
            simp only [chain_edges_ok, List.cons_append, Bool.and_eq_true]
            exact ⟨h2.1, hch2⟩
          · show path_weight G (x :: ((b :: rest2) ++ [v])) = _
            have hpw2b : path_weight G (b :: (rest2 ++ [v])) =
                path_weight G (b :: rest2) + ed.weight := hpw2
            rw [show (x :: (b :: rest2 ++ [v])) = x :: b :: (rest2 ++ [v]) from rfl,
              path_weight_cons, hpw2b, path_weight_cons]
            ring
          · show (x :: ((b :: rest2) ++ [v])).getLast? = some v
            rw [show (x :: (b :: rest2 ++ [v])) = x :: b :: (rest2 ++ [v]) from rfl,
              List.getLast?_cons_cons]
            exact hlast2

/-- The optimality invariant bundle of the search loop under a consistent
heuristic: queue priorities are `dist + h`, every queue entry and enqueued
record is realizable by an actual path of at most that weight, enqueued
records lower bound queue entries, live enqueued records are carried by a
queue entry or a closed node, closed records lower bound every path to their
node, closed nodes have relaxed all their neighbors, and entries and parent
pointers carry the bookkeeping needed to bound the reconstructed path. -/
structure OptInv (G : Graph) (source target : String) (h : String → ℚ)
    (st : AState) : Prop where
  o_prio : ∀ e ∈ st.queue,
    (∀ p, e.parent = some p → e.prio = e.dist + h e.node) ∧
    (e.parent = none → e.dist = 0 ∧ e.prio = 0)
  o_real : ∀ e ∈ st.queue, ∃ P, chain_edges_ok G P = true ∧
    P.head? = some source ∧ P.getLast? = some e.node ∧ path_weight G P ≤ e.dist
  o_enqh : ∀ v qc hh, pyGet? st.enqueued v = some (qc, hh) → hh = h v
  o_enqr : ∀ v qc hh, pyGet? st.enqueued v = some (qc, hh) →
    ∃ P, chain_edges_ok G P = true ∧ P.head? = some source ∧
      P.getLast? = some v ∧ path_weight G P ≤ qc
  o_qenq : ∀ e ∈ st.queue, ∀ p, e.parent = some p →
    ∃ qc hh, pyGet? st.enqueued e.node = some (qc, hh) ∧ qc ≤ e.dist
  o_live : ∀ v qc hh, pyGet? st.enqueued v = some (qc, hh) →
    (∃ e ∈ st.queue, e.node = v ∧ e.dist = qc) ∨
    (pyGet? st.explored v).isSome = true
  o_init : pyGet? st.explored source = none →
    ∃ e ∈ st.queue, e.node = source ∧ e.dist = 0 ∧ e.prio = 0
  o_f1a : ∀ v p qc hh, pyGet? st.explored v = some (some p) →
    pyGet? st.enqueued v = some (qc, hh) →
    ∀ P, chain_edges_ok G P = true → P.head? = some source →
      P.getLast? = some v → qc ≤ path_weight G P
  o_relx : ∀ u par, pyGet? st.explored u = some par →
    ∀ v ed, G.edge_data? u v = some ed →
    ∃ qc hh, pyGet? st.enqueued v = some (qc, hh) ∧
      (par = none → qc ≤ ed.weight) ∧
      (∀ p, par = some p → ∀ qu hu, pyGet? st.enqueued u = some (qu, hu) →
        qc ≤ qu + ed.weight)
  o_entb : ∀ e ∈ st.queue, ∀ p, e.parent = some p →
    ∃ ed, G.edge_data? p e.node = some ed ∧
      ((pyGet? st.explored p = some none ∧ ed.weight ≤ e.dist) ∨
       (∃ p2 qc hh, pyGet? st.explored p = some (some p2) ∧
         pyGet? st.enqueued p = some (qc, hh) ∧ qc + ed.weight ≤ e.dist))
  o_cwb : ∀ v p, pyGet? st.explored v = some (some p) →
    ∃ ed qc hh, G.edge_data? p v = some ed ∧
      pyGet? st.enqueued v = some (qc, hh) ∧
      ((pyGet? st.explored p = some none ∧ ed.weight ≤ qc) ∨
       (∃ p2 qc2 hh2, pyGet? st.explored p = some (some p2) ∧
         pyGet? st.enqueued p = some (qc2, hh2) ∧ qc2 + ed.weight ≤ qc))
  o_notgt : pyGet? st.explored target = none

/-- The closed bound of a node is at most `b`: either the node is the source
record (bound 0) or its enqueued cost is at most `b`. -/
def BarLe (st : AState) (v : String) (b : ℚ) : Prop :=
  pyGet? st.explored v = some none ∨
  (∃ p qc hh, pyGet? st.explored v = some (some p) ∧
    pyGet? st.enqueued v = some (qc, hh) ∧ qc ≤ b)

theorem BarLe_mono (st : AState) (v : String) (b b2 : ℚ) (hb : b ≤ b2)
    (h : BarLe st v b) : BarLe st v b2 := by
  rcases h with h | ⟨p, qc, hh, h1, h2, h3⟩
  · exact Or.inl h
  · exact Or.inr ⟨p, qc, hh, h1, h2, le_trans h3 hb⟩

/-- The frontier lemma: from a node whose closed bound is at most `b`, every
chain is covered: either some queue entry has priority at most the f value of
the chain (offset by `b`), or the chain endpoint is closed with bound at most
`b` plus the chain weight. -/
theorem opt_walk (G : Graph) (source target : String) (h : String → ℚ)
    (st : AState) (hopt : OptInv G source target h st)
    (hpos : ∀ n, 0 ≤ h n)
    (hw0 : ∀ u v ed, G.edge_data? u v = some ed → 0 ≤ ed.weight)
    (hcons : ∀ u v ed, G.edge_data? u v = some ed → h u ≤ ed.weight + h v) :
    ∀ (P : List String), chain_edges_ok G P = true →
    ∀ v, P.head? = some v → ∀ b : ℚ, 0 ≤ b → BarLe st v b →
    ∀ z, P.getLast? = some z →
    (∃ e ∈ st.queue, e.prio ≤ b + path_weight G P + h z) ∨
    BarLe st z (b + path_weight G P) := by
  intro P
  induction P with
  | nil =>
      intro _ v hv
      cases hv
  | cons x rest ih =>
      intro hch v hv b hb hbar z hz
      have hxv : x = v := Option.some.inj hv
      subst hxv
      cases rest with
      | nil =>
          have hxz : x = z := Option.some.inj hz
          subst hxz
          right
          refine BarLe_mono st x b _ ?_ hbar
          simp [path_weight]
      | cons y rest2 =>
          have h2 : (G.edge_data? x y).isSome = true ∧
              chain_edges_ok G (y :: rest2) = true := by
            simpa [chain_edges_ok] using hch
          obtain ⟨ed, hed⟩ := Option.isSome_iff_exists.mp h2.1
          have hwed : 0 ≤ ed.weight := hw0 x y ed hed
          have hpwx : path_weight G (x :: y :: rest2) =
              ed.weight + path_weight G (y :: rest2) := by
            rw [path_weight_cons, hed]
            simp only [Option.map_some', Option.getD_some]
          rw [List.getLast?_cons_cons] at hz
          have hqy : ∃ qc hh, pyGet? st.enqueued y = some (qc, hh) ∧
              qc ≤ b + ed.weight := by
            rcases hbar with hsrc | ⟨p, qx, hx, hexp, henq, hqx⟩
            · obtain ⟨qc, hh, henqy, hn, _⟩ := hopt.o_relx x none hsrc y ed hed
              exact ⟨qc, hh, henqy, le_trans (hn rfl) (by linarith)⟩
            · obtain ⟨qc, hh, henqy, _, hs⟩ := hopt.o_relx x (some p) hexp y ed hed
              exact ⟨qc, hh, henqy, le_trans (hs p rfl qx hx henq) (by linarith)⟩
          obtain ⟨qc, hh, henqy, hqc⟩ := hqy
          rcases hopt.o_live y qc hh henqy with ⟨e, he, hen, hedist⟩ | hcl
          · left
            refine ⟨e, he, ?_⟩
            have htel : h y ≤ path_weight G (y :: rest2) + h z :=
              tele_consistent G h hcons (y :: rest2) h2.2 y z rfl hz
            have hprio : e.prio ≤ qc + h y := by
              obtain ⟨hps, hpn⟩ := hopt.o_prio e he
              match hpar : e.parent with
              | some p =>
                  have hpe := hps p hpar
                  rw [hen, hedist] at hpe
                  exact le_of_eq hpe
              | none =>
                  obtain ⟨hd0, hp0⟩ := hpn hpar
                  rw [hp0]
                  have hq0 : 0 ≤ qc := by
                    rw [← hedist, hd0]
                  have := hpos y
                  linarith
            rw [hpwx]
            linarith
          · have hbar2 : BarLe st y (b + ed.weight) := by
              cases hexp : pyGet? st.explored y with
              | none =>
                  rw [hexp] at hcl
                  cases hcl
              | some par =>
                  cases par with
                  | none => exact Or.inl hexp
                  | some p2 => exact Or.inr ⟨p2, qc, hh, hexp, henqy, hqc⟩
            have hres := ih h2.2 y rfl (b + ed.weight) (by linarith) hbar2 z hz
            rcases hres with ⟨e, he, hp⟩ | hb2
            · left
              refine ⟨e, he, ?_⟩
              rw [hpwx]
              linarith
            · right
              refine BarLe_mono st z _ _ ?_ hb2
              rw [hpwx]
              linarith

/-- The optimality grade specification of one neighbor expansion: explored is
untouched, the queue keeps its entries and is extended only by entries for
`cur` edges at `gu + weight` with priority `dist + h`, enqueued records are
kept, only ever lowered, and lowered only together with a carrying queue
entry; records of closed non source nodes are frozen, and every listed
neighbor ends up relaxed below `gu + weight`. -/
theorem expand_neighbors_opt (G : Graph) (u : String) (gu : ℚ)
    (h : String → ℚ) (hf : String → Except String ℚ)
    (hhf2 : ∀ n, G.contains n = true → hf n = .ok (h n))
    (hwf : ∀ a b, (G.edge_data? a b).isSome = true →
      G.contains a = true ∧ G.contains b = true) :
    ∀ (nbrs : List (String × EdgeAttrs)) (st1 : AState),
    (∀ x ∈ nbrs, G.edge_data? u x.1 = some x.2) →
    (∀ v ed, (v, ed) ∈ nbrs → ∀ p, pyGet? st1.explored v = some (some p) →
      ∀ qc hh, pyGet? st1.enqueued v = some (qc, hh) → qc ≤ gu + ed.weight) →
    (∀ v p, pyGet? st1.explored v = some (some p) →
      (pyGet? st1.enqueued v).isSome = true) →
    (∀ v qc hh, pyGet? st1.enqueued v = some (qc, hh) → hh = h v) →
    ∃ st2, expand_neighbors hf u gu nbrs st1 = .ok st2 ∧
      st2.explored = st1.explored ∧
      (∀ e ∈ st1.queue, e ∈ st2.queue) ∧
      (∀ e ∈ st2.queue, e ∈ st1.queue ∨
        (e.parent = some u ∧ ∃ ed, G.edge_data? u e.node = some ed ∧
          e.dist = gu + ed.weight ∧ e.prio = e.dist + h e.node ∧
          ∃ qc hh, pyGet? st2.enqueued e.node = some (qc, hh) ∧ qc ≤ e.dist)) ∧
      (∀ v qc hh, pyGet? st2.enqueued v = some (qc, hh) →
        pyGet? st1.enqueued v = some (qc, hh) ∨
        (hh = h v ∧ (∃ ed, G.edge_data? u v = some ed ∧ qc = gu + ed.weight) ∧
          (∃ e ∈ st2.queue, e.node = v ∧ e.dist = qc ∧ e.parent = some u) ∧
          (∀ qc0 hh0, pyGet? st1.enqueued v = some (qc0, hh0) →
            qc ≤ qc0 ∧ hh = hh0))) ∧
      (∀ v, (pyGet? st1.enqueued v).isSome = true →
        (pyGet? st2.enqueued v).isSome = true) ∧
      (∀ v ed, (v, ed) ∈ nbrs → ∃ qc hh,
        pyGet? st2.enqueued v = some (qc, hh) ∧ qc ≤ gu + ed.weight) ∧
      (∀ v p, pyGet? st1.explored v = some (some p) →
        pyGet? st2.enqueued v = pyGet? st1.enqueued v) := by
  intro nbrs
  induction nbrs with
  | nil =>
      intro st1 _ _ _ _
      refine ⟨st1, rfl, rfl, fun e he => he, fun e he => Or.inl he,
        fun v qc hh hv => Or.inl hv, fun v hv => hv, ?_, fun v p _ => rfl⟩
      intro v ed hv
      cases hv
  | cons nb rest ih =>
      intro st1 hnb hskip hxenq henqh1
      obtain ⟨nbid, w⟩ := nb
      have hedge : G.edge_data? u nbid = some w := hnb (nbid, w) (List.mem_cons_self _ _)
      have hrest : ∀ x ∈ rest, G.edge_data? u x.1 = some x.2 :=
        fun x hx => hnb x (List.mem_cons_of_mem _ hx)
      have hinG : G.contains nbid = true :=
        (hwf u nbid (by rw [hedge]; rfl)).2
      simp only [expand_neighbors]
      have hpush : ∀ (hv : ℚ), hv = h nbid →
          (∀ qc0 hh0, pyGet? st1.enqueued nbid = some (qc0, hh0) →
            gu + w.weight < qc0 ∧ hv = hh0) →
          ∃ st2, expand_neighbors hf u gu rest
              ⟨st1.queue ++ [⟨gu + w.weight + hv, st1.counter, nbid,
                gu + w.weight, some u⟩],
               pySet st1.enqueued nbid (gu + w.weight, hv), st1.explored,
               st1.counter + 1⟩ = .ok st2 ∧
            st2.explored = st1.explored ∧
            (∀ e ∈ st1.queue, e ∈ st2.queue) ∧
            (∀ e ∈ st2.queue, e ∈ st1.queue ∨
              (e.parent = some u ∧ ∃ ed, G.edge_data? u e.node = some ed ∧
                e.dist = gu + ed.weight ∧ e.prio = e.dist + h e.node ∧
                ∃ qc hh, pyGet? st2.enqueued e.node = some (qc, hh) ∧ qc ≤ e.dist)) ∧
            (∀ v qc hh, pyGet? st2.enqueued v = some (qc, hh) →
              pyGet? st1.enqueued v = some (qc, hh) ∨
              (hh = h v ∧ (∃ ed, G.edge_data? u v = some ed ∧ qc = gu + ed.weight) ∧
                (∃ e ∈ st2.queue, e.node = v ∧ e.dist = qc ∧ e.parent = some u) ∧
                (∀ qc0 hh0, pyGet? st1.enqueued v = some (qc0, hh0) →
                  qc ≤ qc0 ∧ hh = hh0))) ∧
            (∀ v, (pyGet? st1.enqueued v).isSome = true →
              (pyGet? st2.enqueued v).isSome = true) ∧
            (∀ v ed, (v, ed) ∈ (nbid, w) :: rest → ∃ qc hh,
              pyGet? st2.enqueued v = some (qc, hh) ∧ qc ≤ gu + ed.weight) ∧
            (∀ v p, pyGet? st1.explored v = some (some p) →
              pyGet? st2.enqueued v = pyGet? st1.enqueued v) := by
        intro hv hveq hold
        have hnopush : ∀ p, ¬ pyGet? st1.explored nbid = some (some p) := by
          intro p hxp
          obtain ⟨⟨qc0, hh0⟩, hq0⟩ := pyGet?_getD_isSome _ _ (hxenq nbid p hxp)
          have hs := hskip nbid w (List.mem_cons_self _ _) p hxp qc0 hh0 hq0
          have hb := (hold qc0 hh0 hq0).1
          linarith
        have hskip2 : ∀ v ed, (v, ed) ∈ rest → ∀ p,
            pyGet? st1.explored v = some (some p) → ∀ qc hh,
            pyGet? (pySet st1.enqueued nbid (gu + w.weight, hv)) v = some (qc, hh) →
            qc ≤ gu + ed.weight := by
          intro v ed hvr p hxp qc hh hq
          have hvn : ¬ nbid = v := by
            intro hEq
            exact hnopush p (hEq ▸ hxp)
          rw [pyGet?_pySet, if_neg hvn] at hq
          exact hskip v ed (List.mem_cons_of_mem _ hvr) p hxp qc hh hq
        have hxenq2 : ∀ v p, pyGet? st1.explored v = some (some p) →
            (pyGet? (pySet st1.enqueued nbid (gu + w.weight, hv)) v).isSome = true :=
          fun v p hxp => pyGet?_pySet_isSome_mono _ _ _ _ (hxenq v p hxp)
        have henqh2 : ∀ v qc hh,
            pyGet? (pySet st1.enqueued nbid (gu + w.weight, hv)) v = some (qc, hh) →
            hh = h v := by
          intro v qc hh hq
          rw [pyGet?_pySet] at hq
          by_cases hvn : nbid = v
          · rw [if_pos hvn] at hq
            cases hq
            rw [← hvn]
            exact hveq
          · rw [if_neg hvn] at hq
            exact henqh1 v qc hh hq
        obtain ⟨st2, hok, hexp, hqold, hqnew, henq, hkeep, hrelx, hfroz⟩ :=
          ih ⟨st1.queue ++ [⟨gu + w.weight + hv, st1.counter, nbid,
              gu + w.weight, some u⟩],
             pySet st1.enqueued nbid (gu + w.weight, hv), st1.explored,
             st1.counter + 1⟩ hrest hskip2 hxenq2 henqh2
        have hself1 : pyGet? (pySet st1.enqueued nbid (gu + w.weight, hv)) nbid =
            some (gu + w.weight, hv) := by
          rw [pyGet?_pySet_self]
        have hnbrec : ∃ qc hh, pyGet? st2.enqueued nbid = some (qc, hh) ∧
            qc ≤ gu + w.weight := by
          obtain ⟨⟨qc, hh⟩, hq⟩ := pyGet?_getD_isSome _ _ (hkeep nbid (by rw [hself1]; rfl))
          refine ⟨qc, hh, hq, ?_⟩
          rcases henq nbid qc hh hq with hq2 | ⟨_, _, _, hdec⟩
          · rw [hself1] at hq2
            cases hq2
            exact le_refl _
          · exact (hdec (gu + w.weight) hv hself1).1
        refine ⟨st2, hok, hexp, ?_, ?_, ?_, ?_, ?_, ?_⟩
        · intro e he
          exact hqold e (List.mem_append.mpr (Or.inl he))
        · intro e he
          rcases hqnew e he with he2 | hnew
          · rcases List.mem_append.mp he2 with he3 | he3
            · exact Or.inl he3
            · simp only [List.mem_singleton] at he3
              subst he3
              refine Or.inr ⟨rfl, w, hedge, rfl, by rw [hveq], ?_⟩
              exact hnbrec
          · exact Or.inr hnew
        · intro v qc hh hq
          rcases henq v qc hh hq with hq2 | ⟨hhh, hed2, hent, hdec⟩
          · rw [pyGet?_pySet] at hq2
            by_cases hvn : nbid = v
            · rw [if_pos hvn] at hq2
              cases hq2
              subst hvn
              refine Or.inr ⟨hveq, ⟨w, hedge, rfl⟩, ?_, ?_⟩
              · refine ⟨⟨gu + w.weight + hv, st1.counter, nbid, gu + w.weight, some u⟩,
                  hqold _ (List.mem_append.mpr (Or.inr (List.mem_singleton.mpr rfl))),
                  rfl, rfl, rfl⟩
              · intro qc0 hh0 hq0
                obtain ⟨hlt, hhv⟩ := hold qc0 hh0 hq0
                exact ⟨le_of_lt hlt, hhv⟩
            · rw [if_neg hvn] at hq2
              exact Or.inl hq2
          · refine Or.inr ⟨hhh, hed2, hent, ?_⟩
            intro qc0 hh0 hq0
            by_cases hvn : nbid = v
            · obtain ⟨hlt, hhv⟩ := hold qc0 hh0 (hvn ▸ hq0)
              have hd := hdec (gu + w.weight) hv (by rw [← hvn, hself1])
              exact ⟨le_trans hd.1 (le_of_lt hlt), hd.2.trans hhv⟩
            · refine hdec qc0 hh0 ?_
              rw [pyGet?_pySet, if_neg hvn]
              exact hq0
        · intro v hvkeep
          exact hkeep v (pyGet?_pySet_isSome_mono _ _ _ _ hvkeep)
        · intro v ed hvr
          rcases List.mem_cons.mp hvr with hvr | hvr
          · cases hvr
            exact hnbrec
          · exact hrelx v ed hvr
        · intro v p hxp
          have hvn : ¬ nbid = v := by
            intro hEq
            exact hnopush p (hEq ▸ hxp)
          rw [hfroz v p hxp, pyGet?_pySet, if_neg hvn]
      match hrec : pyGet? st1.enqueued nbid with
      | some (qcost, hcached) =>
          simp only [hrec]
          by_cases hle : qcost ≤ gu + w.weight
          · rw [if_pos hle]
            obtain ⟨st2, hok, hexp, hqold, hqnew, henq, hkeep, hrelx, hfroz⟩ :=
              ih st1 hrest
                (fun v ed hvr => hskip v ed (List.mem_cons_of_mem _ hvr))
                hxenq henqh1
            refine ⟨st2, hok, hexp, hqold, hqnew, henq, hkeep, ?_, hfroz⟩
            intro v ed hvr
            rcases List.mem_cons.mp hvr with hvr | hvr
            · cases hvr
              obtain ⟨⟨qc, hh⟩, hq⟩ :=
                pyGet?_getD_isSome _ _ (hkeep nbid (by rw [hrec]; rfl))
              refine ⟨qc, hh, hq, ?_⟩
              rcases henq nbid qc hh hq with hq2 | ⟨_, _, _, hdec⟩
              · rw [hrec] at hq2
                cases hq2
                exact hle
              · exact le_trans (hdec qcost hcached hrec).1 hle
            · exact hrelx v ed hvr
          · rw [if_neg hle]
            refine hpush hcached (henqh1 nbid qcost hcached hrec) ?_
            intro qc0 hh0 hq0
            rw [hrec] at hq0
            cases hq0
            exact ⟨by linarith, rfl⟩
      | none =>
          simp only [hrec, hhf2 nbid hinG]
          refine hpush (h nbid) rfl ?_
          intro qc0 hh0 hq0
          rw [hrec] at hq0
          cases hq0

/-- The reconstructed path weighs at most the budget `B` plus the
accumulator: each explored parent pointer carries, via `o_cwb`, an edge whose
weight fits under the recorded enqueued cost. -/
theorem reconstruct_weight (G : Graph) (st : AState)
    (hcwb : ∀ v p, pyGet? st.explored v = some (some p) →
      ∃ ed qc hh, G.edge_data? p v = some ed ∧
        pyGet? st.enqueued v = some (qc, hh) ∧
        ((pyGet? st.explored p = some none ∧ ed.weight ≤ qc) ∨
         (∃ p2 qc2 hh2, pyGet? st.explored p = some (some p2) ∧
           pyGet? st.enqueued p = some (qc2, hh2) ∧ qc2 + ed.weight ≤ qc))) :
    ∀ (fuel : ℕ) (par : Option String) (acc : List String) (r : AResult) (B : ℚ),
    reconstruct st.explored fuel par acc = some r →
    acc ≠ [] →
    (par = none → 0 ≤ B) →
    (∀ p, par = some p → ∃ ed, G.edge_data? p (acc.headD "") = some ed ∧
      ((pyGet? st.explored p = some none ∧ ed.weight ≤ B) ∨
       (∃ p2 qc hh, pyGet? st.explored p = some (some p2) ∧
         pyGet? st.enqueued p = some (qc, hh) ∧ qc + ed.weight ≤ B))) →
    ∀ L, r = .found L → path_weight G L ≤ B + path_weight G acc := by
  intro fuel
  induction fuel with
  | zero =>
      intro par acc r B hrec hne hn hp L hL
      match par, hrec with
      | none, hrec =>
          simp only [reconstruct, Option.some.injEq] at hrec
          subst hrec
          cases hL
          have := hn rfl
          linarith
  | succ fuel ih =>
      intro par acc r B hrec hne hn hp L hL
      match par with
      | none =>
          simp only [reconstruct, Option.some.injEq] at hrec
          subst hrec
          cases hL
          have := hn rfl
          linarith
      | some nd =>
          simp only [reconstruct] at hrec
          obtain ⟨ed, hed, hcase⟩ := hp nd rfl
          match hx : pyGet? st.explored nd with
          | none =>
              rcases hcase with ⟨hc1, _⟩ | ⟨p2, qc, hh, hc1, _⟩
              · rw [hx] at hc1
                cases hc1
              · rw [hx] at hc1
                cases hc1
          | some par2 =>
              rw [hx] at hrec
              match acc, hne with
              | a :: t, _ =>
                  have hres := ih par2 (nd :: a :: t) r (B - ed.weight) hrec
                    (by simp) ?_ ?_ L hL
                  · have hpw : path_weight G (nd :: a :: t) =
                        ed.weight + path_weight G (a :: t) := by
                      rw [path_weight_cons]
                      have hed2 : G.edge_data? nd a = some ed := hed
                      rw [hed2]
                      simp only [Option.map_some', Option.getD_some]
                    rw [hpw] at hres
                    linarith
                  · intro hpar2
                    rw [hpar2] at hx
                    rcases hcase with ⟨_, hc2⟩ | ⟨p2, qc, hh, hc1, _⟩
                    · linarith
                    · rw [hx] at hc1
                      cases hc1
                  · intro p2 hpar2
                    rw [hpar2] at hx
                    rcases hcase with ⟨hc1, _⟩ | ⟨p3, qc, hh, hc1, henq2, hc3⟩
                    · rw [hx] at hc1
                      cases hc1
                    · rw [hx] at hc1
                      have hp23 : p3 = p2 := by
                        cases hc1
                        rfl
                      subst hp23
                      obtain ⟨ed2, qc2, hh2, hed2, henq3, hbar⟩ := hcwb nd p3 hx
                      have hqq : qc2 = qc ∧ hh2 = hh := by
                        rw [henq2] at henq3
                        cases henq3
                        exact ⟨rfl, rfl⟩
                      obtain ⟨hqq1, hqq2⟩ := hqq
                      subst hqq1
                      refine ⟨ed2, hed2, ?_⟩
                      rcases hbar with ⟨hb1, hb2⟩ | ⟨p4, qc4, hh4, hb1, hb2, hb3⟩
                      · exact Or.inl ⟨hb1, by linarith⟩
                      · exact Or.inr ⟨p4, qc4, hh4, hb1, hb2, by linarith⟩

theorem entry_le_prio (a b : QEntry) (h : entry_le a b = true) : a.prio ≤ b.prio := by
  unfold entry_le at h
  rcases (Bool.or_eq_true _ _).mp h with h | h
  · exact le_of_lt (of_decide_eq_true h)
  · exact le_of_eq (of_decide_eq_true ((Bool.and_eq_true _ _).mp h).1)

theorem mem_q2_of_ne (q : List QEntry) (e : QEntry) (q2 : List QEntry)
    (hperm : q.Perm (e :: q2)) (x : QEntry) (hx : x ∈ q) (hne : x ≠ e) : x ∈ q2 := by
  rcases List.mem_cons.mp (hperm.subset hx) with h | h
  · exact absurd h hne
  · exact h

theorem pyGet?_eq_of_mem_nodup {α β : Type} [DecidableEq α] :
    ∀ (l : List (α × β)) (k : α) (v : β), (k, v) ∈ l →
    l.Pairwise (fun x y => x.1 ≠ y.1) → pyGet? l k = some v := by
  intro l
  induction l with
  | nil => intro k v hv; cases hv
  | cons kv rest ih =>
      intro k v hv hnd
      obtain ⟨k0, v0⟩ := kv
      rcases List.mem_cons.mp hv with h | h
      · cases h
        simp [pyGet?]
      · have hk : k0 ≠ k := by
          have := (List.pairwise_cons.mp hnd).1 (k, v) h
          simpa using this
        simp only [pyGet?, if_neg hk]
        exact ih k v h (List.pairwise_cons.mp hnd).2

/-- At any pop whose node is not yet explored, the popped distance lower
bounds the weight of every chain from the source to that node. -/
theorem opt_pop_bound (G : Graph) (source target : String) (h : String → ℚ)
    (st : AState) (hinv : AstarInv G source st)
    (hopt : OptInv G source target h st)
    (hpos : ∀ n, 0 ≤ h n)
    (hw0 : ∀ u v ed, G.edge_data? u v = some ed → 0 ≤ ed.weight)
    (hcons : ∀ u v ed, G.edge_data? u v = some ed → h u ≤ ed.weight + h v)
    (e : QEntry) (q2 : List QEntry) (hpop : pop_min st.queue = some (e, q2))
    (hzn : pyGet? st.explored e.node = none) :
    ∀ P, chain_edges_ok G P = true → P.head? = some source →
      P.getLast? = some e.node → e.dist ≤ path_weight G P := by
  obtain ⟨hmem, hperm, hminle⟩ := pop_min_spec _ _ _ hpop
  intro P hch hhd hlast
  have hpw0 : 0 ≤ path_weight G P := path_weight_nonneg G hw0 P hch
  have hbar : BarLe st source 0 ∨
      (∃ e0 ∈ st.queue, e0.node = source ∧ e0.dist = 0 ∧ e0.prio = 0) := by
    match hxs : pyGet? st.explored source with
    | none => exact Or.inr (hopt.o_init hxs)
    | some none => exact Or.inl (Or.inl hxs)
    | some (some p) =>
        obtain ⟨⟨qc, hh⟩, hq⟩ := pyGet?_getD_isSome _ _ (hinv.x_enq source p hxs)
        refine Or.inl (Or.inr ⟨p, qc, hh, hxs, hq, ?_⟩)
        have := hopt.o_f1a source p qc hh hxs hq [source] rfl rfl rfl
        simpa [path_weight] using this
  have hcover : ∃ e2 ∈ st.queue, e2.prio ≤ path_weight G P + h e.node := by
    rcases hbar with hbar | ⟨e0, he0, hn0, hd0, hp0⟩
    · rcases opt_walk G source target h st hopt hpos hw0 hcons P hch source hhd 0
          (le_refl 0) hbar e.node hlast with ⟨e2, he2, hp2⟩ | hb2
      · exact ⟨e2, he2, by linarith⟩
      · rcases hb2 with hb2 | ⟨p, qc, hh, hb2, _⟩
        · rw [hzn] at hb2
          cases hb2
        · rw [hzn] at hb2
          cases hb2
    · refine ⟨e0, he0, ?_⟩
      rw [hp0]
      have := hpos e.node
      linarith
  obtain ⟨e2, he2, hp2⟩ := hcover
  have hle := entry_le_prio e e2 (hminle e2 he2)
  obtain ⟨hps, hpn⟩ := hopt.o_prio e hmem
  match hpar : e.parent with
  | some p =>
      have hpe := hps p hpar
      have := hpos e.node
      linarith [hpe ▸ (le_trans hle hp2)]
  | none =>
      obtain ⟨hd0, _⟩ := hpn hpar
      rw [hd0]
      exact hpw0

/-- One expansion step of the loop preserves both invariant bundles: the
popped entry is for a non target node that is either fresh or re expanded
with its frozen optimal cost, and its distance lower bounds every chain to
its node. -/
theorem astar_step_opt (G : Graph) (source target : String) (h : String → ℚ)
    (hf : String → Except String ℚ)
    (hhf2 : ∀ n, G.contains n = true → hf n = .ok (h n))
    (hwf : ∀ a b, (G.edge_data? a b).isSome = true →
      G.contains a = true ∧ G.contains b = true)
    (hnodup : ∀ a, (G.neighbors a).Pairwise (fun x y => x.1 ≠ y.1))
    (hw0 : ∀ u v ed, G.edge_data? u v = some ed → 0 ≤ ed.weight)
    (st : AState) (hinv : AstarInv G source st) (hopt : OptInv G source target h st)
    (e : QEntry) (q2 : List QEntry) (hpop : pop_min st.queue = some (e, q2))
    (hnt : ¬ e.node = target)
    (hxu : pyGet? st.explored e.node = none ∨
      ∃ p, pyGet? st.explored e.node = some (some p))
    (hqeq : ∀ qc hh, pyGet? st.enqueued e.node = some (qc, hh) →
      (∃ p, e.parent = some p) → qc = e.dist)
    (hf1u : ∀ P, chain_edges_ok G P = true → P.head? = some source →
      P.getLast? = some e.node → e.dist ≤ path_weight G P) :
    ∀ st2, expand_neighbors hf e.node e.dist (G.neighbors e.node)
        ⟨q2, st.enqueued, pySet st.explored e.node e.parent, st.counter⟩ = .ok st2 →
      AstarInv G source st2 ∧ OptInv G source target h st2 := by
  intro st2 hok
  obtain ⟨hmem, hperm, hminle⟩ := pop_min_spec _ _ _ hpop
  have hsub := pop_min_sub _ _ _ hpop
  have hnb : ∀ x ∈ G.neighbors e.node, G.edge_data? e.node x.1 = some x.2 := by
    intro x hx
    exact pyGet?_eq_of_mem_nodup _ x.1 x.2 hx (hnodup e.node)
  have hreal := hopt.o_real e hmem
  have hgu0 : 0 ≤ e.dist := by
    obtain ⟨Pu, hchu, _, _, hwu⟩ := hreal
    linarith [path_weight_nonneg G hw0 Pu hchu]
  have hxenq1 : ∀ v p,
      pyGet? (pySet st.explored e.node e.parent) v = some (some p) →
      (pyGet? st.enqueued v).isSome = true := by
    intro v p hv
    rw [pyGet?_pySet] at hv
    by_cases hvu : e.node = v
    · rw [if_pos hvu] at hv
      have hp : e.parent = some p := Option.some.inj hv
      obtain ⟨qc, hh, hq, _⟩ := hopt.o_qenq e hmem p hp
      rw [← hvu, hq]
      rfl
    · rw [if_neg hvu] at hv
      exact hinv.x_enq v p hv
  have hskip1 : ∀ v ed, (v, ed) ∈ G.neighbors e.node → ∀ p,
      pyGet? (pySet st.explored e.node e.parent) v = some (some p) →
      ∀ qc hh, pyGet? st.enqueued v = some (qc, hh) → qc ≤ e.dist + ed.weight := by
    intro v ed hved p hv qc hh hq
    have hedv : G.edge_data? e.node v = some ed := hnb (v, ed) hved
    have hw := hw0 _ _ _ hedv
    rw [pyGet?_pySet] at hv
    by_cases hvu : e.node = v
    · rw [if_pos hvu] at hv
      have hp : e.parent = some p := Option.some.inj hv
      have hq2 : pyGet? st.enqueued e.node = some (qc, hh) := by
        rw [hvu]
        exact hq
      have := hqeq qc hh hq2 ⟨p, hp⟩
      linarith
    · rw [if_neg hvu] at hv
      obtain ⟨Pu, hchu, hhdu, hlastu, hwu⟩ := hreal
      obtain ⟨hch2, hpw2, hhd2, hlast2⟩ := chain_snoc G v ed Pu e.node hchu hlastu hedv
      have hb := hopt.o_f1a v p qc hh hv hq (Pu ++ [v]) hch2
        (by rw [hhd2]; exact hhdu) hlast2
      rw [hpw2] at hb
      linarith
  obtain ⟨st2b, hokb, hexp, hqold, hqnew, henq, hkeep, hrelx, hfroz⟩ :=
    expand_neighbors_opt G e.node e.dist h hf hhf2 hwf (G.neighbors e.node)
      ⟨q2, st.enqueued, pySet st.explored e.node e.parent, st.counter⟩
      hnb hskip1 hxenq1 hopt.o_enqh
  rw [hok] at hokb
  have hst2 : st2 = st2b := Except.ok.inj hokb
  subst hst2
  have hufroz : ∀ p, e.parent = some p →
      pyGet? st2.enqueued e.node = pyGet? st.enqueued e.node := by
    intro p hp
    refine hfroz e.node p ?_
    show pyGet? (pySet st.explored e.node e.parent) e.node = some (some p)
    rw [pyGet?_pySet_self, hp]
  have hfroz2 : ∀ v p, ¬ e.node = v → pyGet? st.explored v = some (some p) →
      pyGet? st2.enqueued v = pyGet? st.enqueued v := by
    intro v p hvu hv
    refine hfroz v p ?_
    show pyGet? (pySet st.explored e.node e.parent) v = some (some p)
    rw [pyGet?_pySet, if_neg hvu]
    exact hv
  have hexpat : ∀ v, pyGet? st2.explored v =
      if e.node = v then some e.parent else pyGet? st.explored v := by
    intro v
    rw [hexp]
    show pyGet? (pySet st.explored e.node e.parent) v = _
    rw [pyGet?_pySet]
  -- the value of the record of an old entry in the new enqueued map
  have holdrec : ∀ v qc0 hh0, pyGet? st.enqueued v = some (qc0, hh0) →
      ∃ qc, pyGet? st2.enqueued v = some (qc, hh0) ∧ qc ≤ qc0 := by
    intro v qc0 hh0 hq0
    obtain ⟨⟨qc, hh⟩, hq⟩ := pyGet?_getD_isSome _ _ (hkeep v (by rw [hq0]; rfl))
    rcases henq v qc hh hq with hq2 | ⟨_, _, _, hdec⟩
    · rw [hq0] at hq2
      cases hq2
      exact ⟨qc0, hq, le_refl _⟩
    · obtain ⟨hle, hhh⟩ := hdec qc0 hh0 hq0
      rw [hhh] at hq
      exact ⟨qc, hq, hle⟩
  have hq0nonneg : ∀ v qc hh, pyGet? st.enqueued v = some (qc, hh) → 0 ≤ qc := by
    intro v qc hh hq
    obtain ⟨P, hch, _, _, hwle⟩ := hopt.o_enqr v qc hh hq
    linarith [path_weight_nonneg G hw0 P hch]
  constructor
  · -- AstarInv for the expanded state
    refine ⟨?_, ?_, ?_, ?_, ?_, ?_, ?_, ?_, ?_⟩
    · intro e2 he2 hpar
      rcases hqnew e2 he2 with h2 | ⟨hp2, _⟩
      · exact hinv.q_src e2 (hsub e2 h2) hpar
      · rw [hp2] at hpar
        exact Option.noConfusion hpar
    · intro e2 he2 p hp
      rcases hqnew e2 he2 with h2 | ⟨hp2, ed, hed, _⟩
      · exact hinv.q_edge e2 (hsub e2 h2) p hp
      · have hpu : p = e.node := Option.some.inj (hp.symm.trans hp2)
        subst hpu
        rw [hed]
        rfl
    · intro e2 he2 hpar
      rcases hqnew e2 he2 with h2 | ⟨_, _, _, _, _, qc, hh, hq, _⟩
      · exact hkeep _ (hinv.q_enq e2 (hsub e2 h2) hpar)
      · rw [hq]
        rfl
    · intro e2 he2 p hp
      rw [hexpat]
      rcases hqnew e2 he2 with h2 | ⟨hp2, _⟩
      · by_cases hvu : e.node = p
        · rw [if_pos hvu]
          rfl
        · rw [if_neg hvu]
          exact hinv.q_par e2 (hsub e2 h2) p hp
      · have hpu : p = e.node := Option.some.inj (hp.symm.trans hp2)
        subst hpu
        rw [if_pos rfl]
        rfl
    · intro e2 he2
      rcases hqnew e2 he2 with h2 | ⟨_, ed, hed, _⟩
      · exact hinv.q_inG e2 (hsub e2 h2)
      · exact (hwf e.node e2.node (by rw [hed]; rfl)).2
    · intro n hn
      rw [hexpat] at hn
      by_cases hvu : e.node = n
      · rw [if_pos hvu] at hn
        rw [← hvu]
        exact hinv.q_src e hmem (Option.some.inj hn)
      · rw [if_neg hvu] at hn
        exact hinv.x_src n hn
    · intro n p hn
      rw [hexpat] at hn
      by_cases hvu : e.node = n
      · rw [if_pos hvu] at hn
        rw [← hvu]
        exact hinv.q_edge e hmem p (Option.some.inj hn)
      · rw [if_neg hvu] at hn
        exact hinv.x_edge n p hn
    · intro n p hn
      rw [hexpat] at hn
      rw [hexpat]
      by_cases hvu : e.node = n
      · rw [if_pos hvu] at hn
        have hp := Option.some.inj hn
        by_cases hvp : e.node = p
        · rw [if_pos hvp]
          rfl
        · rw [if_neg hvp]
          exact hinv.q_par e hmem p hp
      · rw [if_neg hvu] at hn
        by_cases hvp : e.node = p
        · rw [if_pos hvp]
          rfl
        · rw [if_neg hvp]
          exact hinv.x_par n p hn
    · intro n p hn
      rw [hexpat] at hn
      by_cases hvu : e.node = n
      · rw [if_pos hvu] at hn
        have hp : e.parent = some p := Option.some.inj hn
        obtain ⟨qc, hh, hq, _⟩ := hopt.o_qenq e hmem p hp
        rw [← hvu]
        exact hkeep _ (by rw [hq]; rfl)
      · rw [if_neg hvu] at hn
        exact hkeep _ (hinv.x_enq n p hn)
  · -- OptInv for the expanded state
    refine ⟨?_, ?_, ?_, ?_, ?_, ?_, ?_, ?_, ?_, ?_, ?_, ?_⟩
    · -- o_prio
      intro e2 he2
      rcases hqnew e2 he2 with h2 | ⟨hp2, ed, hed, hd2, hprio2, _⟩
      · exact hopt.o_prio e2 (hsub e2 h2)
      · constructor
        · intro p _
          exact hprio2
        · intro hpar
          rw [hp2] at hpar
          exact Option.noConfusion hpar
    · -- o_real
      intro e2 he2
      rcases hqnew e2 he2 with h2 | ⟨_, ed, hed, hd2, _⟩
      · exact hopt.o_real e2 (hsub e2 h2)
      · obtain ⟨Pu, hchu, hhdu, hlastu, hwu⟩ := hreal
        obtain ⟨hch2, hpw2, hhd2, hlast2⟩ :=
          chain_snoc G e2.node ed Pu e.node hchu hlastu hed
        refine ⟨Pu ++ [e2.node], hch2, by rw [hhd2]; exact hhdu, hlast2, ?_⟩
        rw [hpw2, hd2]
        linarith
    · -- o_enqh
      intro v qc hh hq
      rcases henq v qc hh hq with hq2 | ⟨hhh, _⟩
      · exact hopt.o_enqh v qc hh hq2
      · exact hhh
    · -- o_enqr
      intro v qc hh hq
      rcases henq v qc hh hq with hq2 | ⟨_, ⟨ed, hed, hqc⟩, _⟩
      · exact hopt.o_enqr v qc hh hq2
      · obtain ⟨Pu, hchu, hhdu, hlastu, hwu⟩ := hreal
        obtain ⟨hch2, hpw2, hhd2, hlast2⟩ :=
          chain_snoc G v ed Pu e.node hchu hlastu hed
        refine ⟨Pu ++ [v], hch2, by rw [hhd2]; exact hhdu, hlast2, ?_⟩
        rw [hpw2, hqc]
        linarith
    · -- o_qenq
      intro e2 he2 p hp
      rcases hqnew e2 he2 with h2 | ⟨_, _, _, _, _, qc, hh, hq, hqle⟩
      · obtain ⟨qc0, hh0, hq0, hle0⟩ := hopt.o_qenq e2 (hsub e2 h2) p hp
        obtain ⟨qc, hq, hle⟩ := holdrec e2.node qc0 hh0 hq0
        exact ⟨qc, hh0, hq, le_trans hle hle0⟩
      · exact ⟨qc, hh, hq, hqle⟩
    · -- o_live
      intro v qc hh hq
      rcases henq v qc hh hq with hq2 | ⟨_, _, ⟨e2, he2, hn2, hd2, _⟩, _⟩
      · rcases hopt.o_live v qc hh hq2 with ⟨e3, he3, hn3, hd3⟩ | hcl
        · by_cases hee : e3 = e
          · subst hee
            right
            rw [hexpat, ← hn3, if_pos rfl]
            rfl
          · exact Or.inl ⟨e3, hqold e3 (mem_q2_of_ne st.queue e q2 hperm e3 he3 hee),
              hn3, hd3⟩
        · right
          rw [hexpat]
          by_cases hvu : e.node = v
          · rw [if_pos hvu]
            rfl
          · rw [if_neg hvu]
            exact hcl
      · exact Or.inl ⟨e2, he2, hn2, hd2⟩
    · -- o_init
      intro hxs
      rw [hexpat] at hxs
      by_cases hvu : e.node = source
      · rw [if_pos hvu] at hxs
        exact Option.noConfusion hxs
      · rw [if_neg hvu] at hxs
        obtain ⟨e0, he0, hn0, hd0, hp0⟩ := hopt.o_init hxs
        have hee : e0 ≠ e := by
          intro hEq
          rw [hEq] at hn0
          exact hvu hn0
        exact ⟨e0, hqold e0 (mem_q2_of_ne st.queue e q2 hperm e0 he0 hee),
          hn0, hd0, hp0⟩
    · -- o_f1a
      intro v p qc hh hxv hq P hch hhd hlast
      rw [hexpat] at hxv
      by_cases hvu : e.node = v
      · rw [if_pos hvu] at hxv
        have hp : e.parent = some p := Option.some.inj hxv
        rw [← hvu] at hq
        rw [hufroz p hp] at hq
        have := hqeq qc hh hq ⟨p, hp⟩
        rw [this]
        refine hf1u P hch hhd ?_
        rw [hvu]
        exact hlast
      · rw [if_neg hvu] at hxv
        rw [hfroz2 v p hvu hxv] at hq
        exact hopt.o_f1a v p qc hh hxv hq P hch hhd hlast
    · -- o_relx
      intro u2 par hxu2 v ed hedv
      rw [hexpat] at hxu2
      by_cases hvu : e.node = u2
      · rw [if_pos hvu] at hxu2
        have hpar : e.parent = par := Option.some.inj hxu2
        obtain ⟨qc, hh, hq, hqle⟩ := hrelx v ed
          (edge_data_mem_neighbors G e.node v ed (by rw [hvu]; exact hedv))
        refine ⟨qc, hh, hq, ?_, ?_⟩
        · intro hpn
          rw [hpn] at hpar
          obtain ⟨hd0, _⟩ := (hopt.o_prio e hmem).2 hpar
          rw [hd0] at hqle
          linarith
        · intro p hps qu hu hqu
          rw [hps] at hpar
          rw [← hvu] at hqu
          rw [hufroz p hpar] at hqu
          have := hqeq qu hu hqu ⟨p, hpar⟩
          rw [this]
          exact hqle
      · rw [if_neg hvu] at hxu2
        obtain ⟨qc, hh, hq, hn, hs⟩ := hopt.o_relx u2 par hxu2 v ed hedv
        obtain ⟨qc2, hq2, hle2⟩ := holdrec v qc hh hq
        refine ⟨qc2, hh, hq2, ?_, ?_⟩
        · intro hpn
          exact le_trans hle2 (hn hpn)
        · intro p hps qu hu hqu
          rw [hps] at hxu2
          rw [hfroz2 u2 p hvu hxu2] at hqu
          exact le_trans hle2 (hs p hps qu hu hqu)
    · -- o_entb
      intro e2 he2 p hp
      rcases hqnew e2 he2 with h2 | ⟨hp2, ed, hed, hd2, _⟩
      · obtain ⟨ed, hed, hcase⟩ := hopt.o_entb e2 (hsub e2 h2) p hp
        refine ⟨ed, hed, ?_⟩
        rcases hcase with ⟨hc1, hc2⟩ | ⟨p2, qc, hh, hc1, hc2, hc3⟩
        · left
          constructor
          · rw [hexpat]
            by_cases hvu : e.node = p
            · exfalso
              rw [← hvu] at hc1
              rcases hxu with hx0 | ⟨p3, hx3⟩
              · rw [hx0] at hc1
                exact Option.noConfusion hc1
              · rw [hx3] at hc1
                have := Option.some.inj hc1
                exact Option.noConfusion this
            · rw [if_neg hvu]
              exact hc1
          · exact hc2
        · by_cases hvu : e.node = p
          · rcases hxp2 : e.parent with _ | pp
            · left
              constructor
              · rw [hexpat, if_pos hvu, hxp2]
              · have hq0 : 0 ≤ qc := hq0nonneg p qc hh hc2
                linarith
            · right
              refine ⟨pp, qc, hh, ?_, ?_, hc3⟩
              · rw [hexpat, if_pos hvu, hxp2]
              · rw [← hvu, hufroz pp hxp2, hvu]
                exact hc2
          · right
            refine ⟨p2, qc, hh, ?_, ?_, hc3⟩
            · rw [hexpat, if_neg hvu]
              exact hc1
            · rw [hfroz2 p p2 hvu hc1]
              exact hc2
      · -- new entry: parent is the expanded node
        have hpu : p = e.node := Option.some.inj (hp.symm.trans hp2)
        subst hpu
        refine ⟨ed, hed, ?_⟩
        rcases hpar : e.parent with _ | pu
        · left
          constructor
          · rw [hexpat, if_pos rfl, hpar]
          · obtain ⟨hd0, _⟩ := (hopt.o_prio e hmem).2 hpar
            rw [hd2, hd0]
            linarith [hw0 _ _ _ hed]
        · right
          obtain ⟨qc, hh, hq, _⟩ := hopt.o_qenq e hmem pu hpar
          have hqd := hqeq qc hh hq ⟨pu, hpar⟩
          refine ⟨pu, qc, hh, ?_, ?_, ?_⟩
          · rw [hexpat, if_pos rfl, hpar]
          · rw [hufroz pu hpar]
            exact hq
          · rw [hqd, hd2]
    · -- o_cwb
      intro v p hxv
      rw [hexpat] at hxv
      by_cases hvu : e.node = v
      · rw [if_pos hvu] at hxv
        have hp : e.parent = some p := Option.some.inj hxv
        obtain ⟨qc, hh, hq, _⟩ := hopt.o_qenq e hmem p hp
        have hqd := hqeq qc hh hq ⟨p, hp⟩
        obtain ⟨ed, hed, hcase⟩ := hopt.o_entb e hmem p hp
        refine ⟨ed, qc, hh, by rw [← hvu]; exact hed, ?_, ?_⟩
        · rw [← hvu, hufroz p hp]
          exact hq
        · rcases hcase with ⟨hc1, hc2⟩ | ⟨p2, qc2, hh2, hc1, hc2, hc3⟩
          · left
            constructor
            · rw [hexpat]
              by_cases hvp : e.node = p
              · exfalso
                rw [← hvp] at hc1
                rcases hxu with hx0 | ⟨p3, hx3⟩
                · rw [hx0] at hc1
                  exact Option.noConfusion hc1
                · rw [hx3] at hc1
                  exact Option.noConfusion (Option.some.inj hc1)
              · rw [if_neg hvp]
                exact hc1
            · rw [hqd]
              exact hc2
          · right
            by_cases hvp : e.node = p
            · refine ⟨e.parent.getD "", qc2, hh2, ?_, ?_, ?_⟩
              · rw [hexpat, if_pos hvp, hp]
                rfl
              · rw [← hvp, hufroz p hp, hvp]
                exact hc2
              · rw [hqd]
                exact hc3
            · refine ⟨p2, qc2, hh2, ?_, ?_, ?_⟩
              · rw [hexpat, if_neg hvp]
                exact hc1
              · rw [hfroz2 p p2 hvp hc1]
                exact hc2
              · rw [hqd]
                exact hc3
      · rw [if_neg hvu] at hxv
        obtain ⟨ed, qc, hh, hed, hq, hcase⟩ := hopt.o_cwb v p hxv
        refine ⟨ed, qc, hh, hed, ?_, ?_⟩
        · rw [hfroz2 v p hvu hxv]
          exact hq
        · rcases hcase with ⟨hc1, hc2⟩ | ⟨p2, qc2, hh2, hc1, hc2, hc3⟩
          · left
            constructor
            · rw [hexpat]
              by_cases hvp : e.node = p
              · exfalso
                rw [← hvp] at hc1
                rcases hxu with hx0 | ⟨p3, hx3⟩
                · rw [hx0] at hc1
                  exact Option.noConfusion hc1
                · rw [hx3] at hc1
                  exact Option.noConfusion (Option.some.inj hc1)
              · rw [if_neg hvp]
                exact hc1
            · exact hc2
          · by_cases hvp : e.node = p
            · rcases hxp2 : e.parent with _ | pp
              · left
                constructor
                · rw [hexpat, if_pos hvp, hxp2]
                · have hq0 : 0 ≤ qc2 := hq0nonneg p qc2 hh2 hc2
                  linarith
              · right
                refine ⟨pp, qc2, hh2, ?_, ?_, hc3⟩
                · rw [hexpat, if_pos hvp, hxp2]
                · rw [← hvp, hufroz pp hxp2, hvp]
                  exact hc2
            · right
              refine ⟨p2, qc2, hh2, ?_, ?_, hc3⟩
              · rw [hexpat, if_neg hvp]
                exact hc1
              · rw [hfroz2 p p2 hvp hc1]
                exact hc2
    · -- o_notgt
      rw [hexpat, if_neg ?_]
      · exact hopt.o_notgt
      · intro hEq
        exact hnt hEq

/-- Skipping a popped entry whose node is already explored preserves the
optimality invariants. -/
theorem astar_skip_opt (G : Graph) (source target : String) (h : String → ℚ)
    (st : AState) (hopt : OptInv G source target h st)
    (e : QEntry) (q2 : List QEntry) (hpop : pop_min st.queue = some (e, q2))
    (hsk : (pyGet? st.explored e.node).isSome = true) :
    OptInv G source target h ⟨q2, st.enqueued, st.explored, st.counter⟩ := by
  obtain ⟨hmem, hperm, hminle⟩ := pop_min_spec _ _ _ hpop
  have hsub := pop_min_sub _ _ _ hpop
  refine ⟨fun e2 he2 => hopt.o_prio e2 (hsub e2 he2),
    fun e2 he2 => hopt.o_real e2 (hsub e2 he2), hopt.o_enqh, hopt.o_enqr,
    fun e2 he2 => hopt.o_qenq e2 (hsub e2 he2), ?_, ?_, hopt.o_f1a, hopt.o_relx,
    fun e2 he2 => hopt.o_entb e2 (hsub e2 he2), hopt.o_cwb, hopt.o_notgt⟩
  · intro v qc hh hq
    rcases hopt.o_live v qc hh hq with ⟨e3, he3, hn3, hd3⟩ | hcl
    · by_cases hee : e3 = e
      · right
        subst hee
        rw [← hn3]
        exact hsk
      · exact Or.inl ⟨e3, mem_q2_of_ne st.queue e q2 hperm e3 he3 hee, hn3, hd3⟩
    · exact Or.inr hcl
  · intro hxs
    obtain ⟨e0, he0, hn0, hd0, hp0⟩ := hopt.o_init hxs
    have hee : e0 ≠ e := by
      intro hEq
      rw [hEq] at hn0
      rw [hn0, hxs] at hsk
      cases hsk
    exact ⟨e0, mem_q2_of_ne st.queue e q2 hperm e0 he0 hee, hn0, hd0, hp0⟩

/-- The loop returns only optimal paths when the heuristic is consistent: the
weight of a found path is at most the weight of every chain from the source
to the target. -/
theorem astar_loop_optimal (G : Graph) (source target : String) (h : String → ℚ)
    (hf : String → Except String ℚ)
    (hhf2 : ∀ n, G.contains n = true → hf n = .ok (h n))
    (hwf : ∀ a b, (G.edge_data? a b).isSome = true →
      G.contains a = true ∧ G.contains b = true)
    (hnodup : ∀ a, (G.neighbors a).Pairwise (fun x y => x.1 ≠ y.1))
    (hpos : ∀ n, 0 ≤ h n)
    (hw0 : ∀ u v ed, G.edge_data? u v = some ed → 0 ≤ ed.weight)
    (hcons : ∀ u v ed, G.edge_data? u v = some ed → h u ≤ ed.weight + h v) :
    ∀ (fuel : ℕ) (st : AState), AstarInv G source st → OptInv G source target h st →
    ∀ L, astar_loop G target hf fuel st = some (.found L) →
    ∀ P, chain_edges_ok G P = true → P.head? = some source →
      P.getLast? = some target → path_weight G L ≤ path_weight G P := by
  intro fuel
  induction fuel with
  | zero =>
      intro st _ _ L hr
      cases hr
  | succ fuel ih =>
      intro st hinv hopt L hr P hch hhd hlast
      simp only [astar_loop] at hr
      match hpop : pop_min st.queue with
      | none =>
          simp only [hpop] at hr
          exact AResult.noConfusion (Option.some.inj hr)
      | some (e, q2) =>
          simp only [hpop] at hr
          obtain ⟨hmem, hperm, hminle⟩ := pop_min_spec _ _ _ hpop
          have hsub := pop_min_sub _ _ _ hpop
          by_cases htgt : e.node = target
          · rw [if_pos htgt] at hr
            have hdist : e.dist ≤ path_weight G P := by
              refine opt_pop_bound G source target h st hinv hopt hpos hw0 hcons
                e q2 hpop ?_ P hch hhd ?_
              · rw [htgt]
                exact hopt.o_notgt
              · rw [htgt]
                exact hlast
            have hwL := reconstruct_weight G st hopt.o_cwb (fuel + 1) e.parent
              [e.node] (.found L) e.dist hr (by simp) ?_ ?_ L rfl
            · have hpw1 : path_weight G [e.node] = 0 := rfl
              rw [hpw1] at hwL
              linarith
            · intro hpn
              obtain ⟨hd0, _⟩ := (hopt.o_prio e hmem).2 hpn
              rw [hd0]
            · intro p hp2
              exact hopt.o_entb e hmem p hp2
          · rw [if_neg htgt] at hr
            match hexpl : pyGet? st.explored e.node with
            | some none =>
                simp only [hexpl] at hr
                exact ih ⟨q2, st.enqueued, st.explored, st.counter⟩
                  (astar_inv_restrict G source st q2 hsub hinv)
                  (astar_skip_opt G source target h st hopt e q2 hpop
                    (by rw [hexpl]; rfl))
                  L hr P hch hhd hlast
            | some (some p) =>
                simp only [hexpl] at hr
                match henq2 : pyGet? st.enqueued e.node with
                | none =>
                    have hen := hinv.x_enq e.node p hexpl
                    rw [henq2] at hen
                    exact absurd hen (by simp)
                | some (qc, hh) =>
                    simp only [henq2] at hr
                    by_cases hlt : qc < e.dist
                    · rw [if_pos hlt] at hr
                      exact ih ⟨q2, st.enqueued, st.explored, st.counter⟩
                        (astar_inv_restrict G source st q2 hsub hinv)
                        (astar_skip_opt G source target h st hopt e q2 hpop
                          (by rw [hexpl]; rfl))
                        L hr P hch hhd hlast
                    · rw [if_neg hlt] at hr
                      have hqeq : ∀ qc2 hh2,
                          pyGet? st.enqueued e.node = some (qc2, hh2) →
                          (∃ p2, e.parent = some p2) → qc2 = e.dist := by
                        intro qc2 hh2 hq2 hex
                        obtain ⟨p2, hp2⟩ := hex
                        rw [henq2] at hq2
                        simp only [Option.some.injEq, Prod.mk.injEq] at hq2
                        obtain ⟨hqc2, _⟩ := hq2
                        subst hqc2
                        obtain ⟨qc3, hh3, hq3, hle3⟩ := hopt.o_qenq e hmem p2 hp2
                        rw [henq2] at hq3
                        simp only [Option.some.injEq, Prod.mk.injEq] at hq3
                        obtain ⟨hqc3, _⟩ := hq3
                        rw [← hqc3] at hle3
                        linarith
                      have hf1u : ∀ P2, chain_edges_ok G P2 = true →
                          P2.head? = some source → P2.getLast? = some e.node →
                          e.dist ≤ path_weight G P2 := by
                        intro P2 hch2 hhd2 hlast2
                        have := hopt.o_f1a e.node p qc hh hexpl henq2 P2 hch2 hhd2 hlast2
                        linarith
                      match hok : expand_neighbors hf e.node e.dist (G.neighbors e.node)
                          ⟨q2, st.enqueued, pySet st.explored e.node e.parent,
                            st.counter⟩ with
                      | .error m =>
                          simp only [hok] at hr
                          exact AResult.noConfusion (Option.some.inj hr)
                      | .ok st2 =>
                          simp only [hok] at hr
                          obtain ⟨hinv2, hopt2⟩ := astar_step_opt G source target h hf
                            hhf2 hwf hnodup hw0 st hinv hopt e q2 hpop htgt
                            (Or.inr ⟨p, hexpl⟩) hqeq hf1u st2 hok
                          exact ih st2 hinv2 hopt2 L hr P hch hhd hlast
            | none =>
                simp only [hexpl] at hr
                have hqeq : ∀ qc2 hh2,
                    pyGet? st.enqueued e.node = some (qc2, hh2) →
                    (∃ p2, e.parent = some p2) → qc2 = e.dist := by
                  intro qc2 hh2 hq2 hex
                  obtain ⟨p2, hp2⟩ := hex
                  obtain ⟨qc3, hh3, hq3, hle3⟩ := hopt.o_qenq e hmem p2 hp2
                  rw [hq2] at hq3
                  simp only [Option.some.injEq, Prod.mk.injEq] at hq3
                  obtain ⟨hqc3, _⟩ := hq3
                  rw [← hqc3] at hle3
                  refine le_antisymm hle3 ?_
                  rcases hopt.o_live e.node qc2 hh2 hq2 with ⟨e3, he3, hn3, hd3⟩ | hcl
                  · have hle := entry_le_prio e e3 (hminle e3 he3)
                    have hpe := (hopt.o_prio e hmem).1 p2 hp2
                    obtain ⟨hps3, hpn3⟩ := hopt.o_prio e3 he3
                    match hpar3 : e3.parent with
                    | some p3 =>
                        have hpe3 := hps3 p3 hpar3
                        rw [hpe, hpe3, hn3, hd3] at hle
                        linarith
                    | none =>
                        obtain ⟨hd03, hp03⟩ := hpn3 hpar3
                        rw [hd03] at hd3
                        rw [hpe, hp03] at hle
                        have := hpos e.node
                        linarith
                  · rw [hexpl] at hcl
                    cases hcl
                match hok : expand_neighbors hf e.node e.dist (G.neighbors e.node)
                    ⟨q2, st.enqueued, pySet st.explored e.node e.parent,
                      st.counter⟩ with
                | .error m =>
                    simp only [hok] at hr
                    exact AResult.noConfusion (Option.some.inj hr)
                | .ok st2 =>
                    simp only [hok] at hr
                    obtain ⟨hinv2, hopt2⟩ := astar_step_opt G source target h hf
                      hhf2 hwf hnodup hw0 st hinv hopt e q2 hpop htgt
                      (Or.inl hexpl) hqeq
                      (opt_pop_bound G source target h st hinv hopt hpos hw0 hcons
                        e q2 hpop hexpl) st2 hok
                    exact ih st2 hinv2 hopt2 L hr P hch hhd hlast

/-- Summing edge weights along a valid chain never raises and returns the
chain weight. -/
theorem sum_path_weight_chain (G : Graph) :
    ∀ L, chain_edges_ok G L = true →
    sum_path_weight G L = .ok (path_weight G L) := by
  intro L
  induction L with
  | nil => intro _; rfl
  | cons a rest ih =>
      intro hch
      cases rest with
      | nil => rfl
      | cons b rest2 =>
          have h2 : (G.edge_data? a b).isSome = true ∧
              chain_edges_ok G (b :: rest2) = true := by
            simpa [chain_edges_ok] using hch
          obtain ⟨ed, hed⟩ := Option.isSome_iff_exists.mp h2.1
          have hrec := ih h2.2
          show (match G.edge_data? a b with
            | none => Except.error "KeyError: edge"
            | some ed =>
                match sum_path_weight G (b :: rest2) with
                | Except.error e => Except.error e
                | Except.ok s => Except.ok (ed.weight + s)) = _
          rw [hed, hrec, path_weight_cons, hed]
          simp only [Option.map_some', Option.getD_some]

/-- The initial search state satisfies the structural invariant. -/
theorem astar_init_inv (G : Graph) (source : String) (hs : G.contains source = true) :
    AstarInv G source ⟨[⟨0, 0, source, 0, none⟩], [], [], 1⟩ := by
  refine ⟨?_, ?_, ?_, ?_, ?_, ?_, ?_, ?_, ?_⟩
  · intro e he _
    rcases List.mem_singleton.mp he with rfl
    rfl
  · intro e he p hp
    rcases List.mem_singleton.mp he with rfl
    exact Option.noConfusion hp
  · intro e he hpar
    rcases List.mem_singleton.mp he with rfl
    exact absurd rfl hpar
  · intro e he p hp
    rcases List.mem_singleton.mp he with rfl
    exact Option.noConfusion hp
  · intro e he
    rcases List.mem_singleton.mp he with rfl
    exact hs
  · intro n hn
    exact Option.noConfusion hn
  · intro n p hn
    exact Option.noConfusion hn
  · intro n p hn
    exact Option.noConfusion hn
  · intro n p hn
    exact Option.noConfusion hn

/-- The initial search state satisfies the optimality invariant. -/
theorem astar_init_opt (G : Graph) (source target : String) (h : String → ℚ) :
    OptInv G source target h ⟨[⟨0, 0, source, 0, none⟩], [], [], 1⟩ := by
  refine ⟨?_, ?_, ?_, ?_, ?_, ?_, ?_, ?_, ?_, ?_, ?_, ?_⟩
  · intro e he
    rcases List.mem_singleton.mp he with rfl
    exact ⟨fun p hp => Option.noConfusion hp, fun _ => ⟨rfl, rfl⟩⟩
  · intro e he
    rcases List.mem_singleton.mp he with rfl
    exact ⟨[source], rfl, rfl, rfl, le_refl 0⟩
  · intro v qc hh hq
    exact Option.noConfusion hq
  · intro v qc hh hq
    exact Option.noConfusion hq
  · intro e he p hp
    rcases List.mem_singleton.mp he with rfl
    exact Option.noConfusion hp
  · intro v qc hh hq
    exact Option.noConfusion hq
  · intro _
    exact ⟨⟨0, 0, source, 0, none⟩, List.mem_singleton.mpr rfl, rfl, rfl, rfl⟩
  · intro v p qc hh hx
    exact Option.noConfusion hx
  · intro u par hx
    exact Option.noConfusion hx
  · intro e he p hp
    rcases List.mem_singleton.mp he with rfl
    exact Option.noConfusion hp
  · intro v p hx
    exact Option.noConfusion hx
  · rfl

/-- C2 (amended): when every stored edge weight dominates the change of the
heuristic across it (the consistency the spec asserts, with the heuristic
values `h` realizing the Euclidean closure) and weights are nonnegative, a
successful route on the floor plan has a valid path from start to end whose
total weight is minimal among all chains between them, and reports its
rounded weight as total distance. -/
theorem C2_route_optimal_consistent
    (db : DB) (st : CacheState) (sqrtFn : ℚ → ℚ) (fpid s t : String)
    (prefs : RoutePreferences) (fuel : ℕ) (r : RouteResponse) (h : String → ℚ)
    (hun : cache_is_available st = false)
    (hadj : ∀ x ∈ (build_graph_pure db fpid prefs).1.adj,
      (build_graph_pure db fpid prefs).1.contains x.1 = true ∧
      ∀ y ∈ x.2, (build_graph_pure db fpid prefs).1.contains y.1 = true)
    (hnodup : ∀ x ∈ (build_graph_pure db fpid prefs).1.adj,
      x.2.Pairwise (fun p q => p.1 ≠ q.1))
    (hw0 : ∀ x ∈ (build_graph_pure db fpid prefs).1.adj, ∀ y ∈ x.2, 0 ≤ y.2.weight)
    (hcons : ∀ x ∈ (build_graph_pure db fpid prefs).1.adj, ∀ y ∈ x.2,
      h x.1 ≤ y.2.weight + h y.1)
    (hheur : ∀ x ∈ (build_graph_pure db fpid prefs).1.node,
      route_heuristic sqrtFn (build_graph_pure db fpid prefs).2 t x.1 = .ok (h x.1))
    (hpos : ∀ n, 0 ≤ h n)
    (hr : calculate_route db st sqrtFn fpid s t (some prefs) fuel = some r)
    (hsucc : r.success = true) :
    chain_edges_ok (build_graph_pure db fpid prefs).1 r.path = true ∧
    r.path.head? = some s ∧ r.path.getLast? = some t ∧
    r.total_distance =
      pyRound 2 (path_weight (build_graph_pure db fpid prefs).1 r.path) ∧
    ∀ P, chain_edges_ok (build_graph_pure db fpid prefs).1 P = true →
      P.head? = some s → P.getLast? = some t →
      path_weight (build_graph_pure db fpid prefs).1 r.path ≤
        path_weight (build_graph_pure db fpid prefs).1 P := by
  have hwf : ∀ u v, ((build_graph_pure db fpid prefs).1.edge_data? u v).isSome = true →
      (build_graph_pure db fpid prefs).1.contains u = true ∧
      (build_graph_pure db fpid prefs).1.contains v = true := by
    intro u v hh2
    obtain ⟨l, w, hul, hvw⟩ := edge_isSome_adj_mem _ u v hh2
    exact ⟨(hadj (u, l) hul).1, (hadj (u, l) hul).2 (v, w) hvw⟩
  have hedge_mem : ∀ u v ed,
      (build_graph_pure db fpid prefs).1.edge_data? u v = some ed →
      ∃ l, (u, l) ∈ (build_graph_pure db fpid prefs).1.adj ∧ (v, ed) ∈ l := by
    intro u v ed hed
    obtain ⟨l, w, hul, hvw⟩ := edge_isSome_adj_mem _ u v (by rw [hed]; rfl)
    -- the first matching list is unique enough: re-derive memberships directly
    unfold Graph.edge_data? at hed
    cases hadju : pyGet? (build_graph_pure db fpid prefs).1.adj u with
    | none =>
        rw [hadju] at hed
        simp [pyGet?] at hed
    | some l2 =>
        rw [hadju] at hed
        exact ⟨l2, pyGet?_mem _ _ _ hadju, pyGet?_mem _ _ _ hed⟩
  have hw0E : ∀ u v ed, (build_graph_pure db fpid prefs).1.edge_data? u v = some ed →
      0 ≤ ed.weight := by
    intro u v ed hed
    obtain ⟨l, hul, hvl⟩ := hedge_mem u v ed hed
    exact hw0 (u, l) hul (v, ed) hvl
  have hconsE : ∀ u v ed,
      (build_graph_pure db fpid prefs).1.edge_data? u v = some ed →
      h u ≤ ed.weight + h v := by
    intro u v ed hed
    obtain ⟨l, hul, hvl⟩ := hedge_mem u v ed hed
    exact hcons (u, l) hul (v, ed) hvl
  have hnodupN : ∀ a, ((build_graph_pure db fpid prefs).1.neighbors a).Pairwise
      (fun p q => p.1 ≠ q.1) := by
    intro a
    unfold Graph.neighbors
    cases hadju : pyGet? (build_graph_pure db fpid prefs).1.adj a with
    | none => simp
    | some l =>
        simp only [Option.getD_some]
        exact hnodup (a, l) (pyGet?_mem _ _ _ hadju)
  have hheu : ∀ n, (build_graph_pure db fpid prefs).1.contains n = true →
      route_heuristic sqrtFn (build_graph_pure db fpid prefs).2 t n = .ok (h n) := by
    intro n hn
    obtain ⟨a, ha⟩ := contains_mem_node _ n hn
    exact hheur (n, a) ha
  have hhfex : ∀ n, (build_graph_pure db fpid prefs).1.contains n = true →
      ∃ q, route_heuristic sqrtFn (build_graph_pure db fpid prefs).2 t n = .ok q :=
    fun n hn => ⟨h n, hheu n hn⟩
  have hbG := build_graph_uncached db st fpid prefs hun
  unfold calculate_route calculate_route_body at hr
  rw [hbG] at hr
  by_cases hcs : (build_graph_pure db fpid prefs).1.contains s = true
  case neg =>
    simp only [hcs] at hr
    simp at hr
    rw [← hr] at hsucc
    simp [route_failure] at hsucc
  case pos =>
  by_cases hct : (build_graph_pure db fpid prefs).1.contains t = true
  case neg =>
    simp [hcs, hct] at hr
    rw [← hr] at hsucc
    simp [route_failure] at hsucc
  case pos =>
  simp only [hcs, hct, not_true_eq_false, Bool.false_eq_true, if_false] at hr
  match hast : astar_path (build_graph_pure db fpid prefs).1 s t
      (route_heuristic sqrtFn (build_graph_pure db fpid prefs).2 t) fuel with
  | none =>
      simp only [hast] at hr
      exact Option.noConfusion hr
  | some .noPath =>
      simp only [hast] at hr
      have hre := Option.some.inj hr
      rw [← hre] at hsucc
      simp [route_failure] at hsucc
  | some (.exc m) =>
      simp only [hast] at hr
      have hre := Option.some.inj hr
      rw [← hre] at hsucc
      simp [route_failure] at hsucc
  | some (.found L) =>
      simp only [hast] at hr
      have hLprops : L.head? = some s ∧ L.getLast? = some t ∧
          chain_edges_ok (build_graph_pure db fpid prefs).1 L = true := by
        rcases astar_path_sound (build_graph_pure db fpid prefs).1 s t
            (route_heuristic sqrtFn (build_graph_pure db fpid prefs).2 t)
            hhfex hwf hcs hct fuel (.found L) hast with hnp | ⟨L2, hL2, hh2, hl2, hc2⟩
        · exact AResult.noConfusion hnp
        · have hLL : L2 = L := (AResult.found.inj hL2).symm
          subst hLL
          exact ⟨hh2, hl2, hc2⟩
      have hopt : ∀ P, chain_edges_ok (build_graph_pure db fpid prefs).1 P = true →
          P.head? = some s → P.getLast? = some t →
          path_weight (build_graph_pure db fpid prefs).1 L ≤
            path_weight (build_graph_pure db fpid prefs).1 P := by
        have hloop : astar_loop (build_graph_pure db fpid prefs).1 t
            (route_heuristic sqrtFn (build_graph_pure db fpid prefs).2 t) fuel
            ⟨[⟨0, 0, s, 0, none⟩], [], [], 1⟩ = some (.found L) := by
          unfold astar_path at hast
          rw [hcs, hct] at hast
          simpa using hast
        exact astar_loop_optimal (build_graph_pure db fpid prefs).1 s t h
          (route_heuristic sqrtFn (build_graph_pure db fpid prefs).2 t)
          hheu hwf hnodupN hpos hw0E hconsE fuel
          ⟨[⟨0, 0, s, 0, none⟩], [], [], 1⟩
          (astar_init_inv _ s hcs) (astar_init_opt _ s t h) L hloop
      match hlen : astar_path_length (build_graph_pure db fpid prefs).1 s t
          (route_heuristic sqrtFn (build_graph_pure db fpid prefs).2 t) fuel with
      | none =>
          simp only [hlen] at hr
          exact Option.noConfusion hr
      | some (.error m) =>
          simp only [hlen] at hr
          have hre := Option.some.inj hr
          rw [← hre] at hsucc
          simp [route_failure] at hsucc
      | some (.ok td) =>
          simp only [hlen] at hr
          have htd : td = path_weight (build_graph_pure db fpid prefs).1 L := by
            unfold astar_path_length at hlen
            rw [hast] at hlen
            have := Option.some.inj hlen
            rw [sum_path_weight_chain _ L hLprops.2.2] at this
            exact (Except.ok.inj this).symm
          match hext : extract_coordinates (build_graph_pure db fpid prefs).2 L with
          | .error m =>
              simp only [hext] at hr
              have hre := Option.some.inj hr
              rw [← hre] at hsucc
              simp [route_failure] at hsucc
          | .ok coords =>
              simp only [hext] at hr
              match hinstr : generate_instructions (build_graph_pure db fpid prefs).1
                  L (build_graph_pure db fpid prefs).2 with
              | .error m =>
                  simp only [hinstr] at hr
                  have hre := Option.some.inj hr
                  rw [← hre] at hsucc
                  simp [route_failure] at hsucc
              | .ok instr =>
                  simp only [hinstr] at hr
                  have hre := Option.some.inj hr
                  have hrL : r.path = L := by
                    rw [← hre]
                  have hrtd : r.total_distance = pyRound 2 td := by
                    rw [← hre]
                  rw [hrL, hrtd, htd]
                  exact ⟨hLprops.2.2, hLprops.1, hLprops.2.1, rfl, hopt⟩

/-- The C2 counterexample floor plan: start `S` at (10,0), target `T` at
(0,0), detour node `A` at (100,0); the direct edge `S`-`T` weighs 10 while the
two-hop chain through `A` weighs 1 + 1 = 2. The stored weights 1 are far below
the Euclidean distances, which nothing in the code prevents. -/
def ex2db : DB :=
  ⟨[⟨"T", "fp2", 0, 0, "waypoint", none, "full"⟩,
    ⟨"S", "fp2", 10, 0, "waypoint", none, "full"⟩,
    ⟨"A", "fp2", 100, 0, "waypoint", none, "full"⟩],
   [⟨"fp2", "S", "T", 10, true, "walkway"⟩,
    ⟨"fp2", "S", "A", 1, true, "walkway"⟩,
    ⟨"fp2", "A", "T", 1, true, "walkway"⟩]⟩

def ex2prefs : RoutePreferences := ⟨false, false, true⟩

def ex2resp : RouteResponse :=
  ⟨true, "fp2", "S", "T", ["S", "T"], 10, 7, [(10, 0), (0, 0)],
   [⟨1, "Start at Start location", 0⟩,
    ⟨2, "Walk straight for 10.0 units", 10⟩,
    ⟨3, "Arrive at destination", 10⟩], none⟩

/-- C2 is false as stated: on this graph the route calculation succeeds and
returns the direct path of weight 10, yet the chain through `A` is a valid
path between the same endpoints of weight 2. The heuristic misguides the
search because the stored edge weights under-cut the Euclidean distances the
heuristic is computed from. -/
theorem C2_route_not_minimal :
    calculate_route ex2db ex4st ratSqrt "fp2" "S" "T" (some ex2prefs) 30 =
      some ex2resp ∧
    ex2resp.success = true ∧
    ex2resp.path = ["S", "T"] ∧
    chain_edges_ok (build_graph_pure ex2db "fp2" ex2prefs).1 ["S", "A", "T"] = true ∧
    (["S", "A", "T"] : List String).head? = some "S" ∧
    (["S", "A", "T"] : List String).getLast? = some "T" ∧
    path_weight (build_graph_pure ex2db "fp2" ex2prefs).1 ["S", "A", "T"] = 2 ∧
    path_weight (build_graph_pure ex2db "fp2" ex2prefs).1 ex2resp.path = 10 := by
  refine ⟨?_, rfl, rfl, by decide, rfl, rfl, by decide, by decide⟩
  decide

/-- Heuristic values realizing the Euclidean distances to node C on the C3
example floor plan. -/
def ex2h : String → ℚ := fun n => if n = "A" then 10 else if n = "B" then 5 else 0

theorem ex2h_nonneg : ∀ n, 0 ≤ ex2h n := by
  intro n
  unfold ex2h
  split_ifs <;> norm_num

/-- Witness for the amended C2 on the consistent example floor plan. -/
theorem C2_route_optimal_consistent_witness :
    chain_edges_ok (build_graph_pure ex3db "fp1" ex3prefs).1 ex3resp.path = true ∧
    ex3resp.path.head? = some "A" ∧ ex3resp.path.getLast? = some "C" ∧
    ex3resp.total_distance =
      pyRound 2 (path_weight (build_graph_pure ex3db "fp1" ex3prefs).1 ex3resp.path) ∧
    ∀ P, chain_edges_ok (build_graph_pure ex3db "fp1" ex3prefs).1 P = true →
      P.head? = some "A" → P.getLast? = some "C" →
      path_weight (build_graph_pure ex3db "fp1" ex3prefs).1 ex3resp.path ≤
        path_weight (build_graph_pure ex3db "fp1" ex3prefs).1 P :=
  C2_route_optimal_consistent ex3db ex4st ratSqrt "fp1" "A" "C" ex3prefs 20 ex3resp
    ex2h (by decide) (by decide) (by decide) (by decide) (by decide) (by decide)
    ex2h_nonneg (by decide) (by decide)

end NavIO
